import Mathlib

/-!
Shallow embedding of the order-matching core of the repository
(src/services/matching.engine.js, order.service.js, persistence.service.js).
Quantities and prices are rationals (the source uses JS numbers with an
epsilon guard); Redis structures are modelled as association lists, and the
Postgres ledger as an association list of rows plus an append-only trade
list.  Each engine function mirrors its JS counterpart statement by
statement; trade steps also emit an effect trace recording the order of the
side effects.
-/

namespace Engine

def EPSILON : ℚ := 1 / 100000000

abbrev OrderId := Nat

inductive Side
  | buy
  | sell
  deriving DecidableEq, Repr

inductive OrderType
  | limit
  | market
  deriving DecidableEq, Repr

inductive OrderStatus
  | open_
  | partially_filled
  | filled
  | cancelled
  | rejected
  deriving DecidableEq, Repr

/-- The two halves of the Redis book: keys asks:* and bids:*. -/
inductive BookSide
  | asks
  | bids
  deriving DecidableEq, Repr

/-- The JSON blob stored per resting order in the Redis hash orders. -/
structure BookEntry where
  client_id : String
  quantity : ℚ
  created_at : Nat
  total_filled_quantity : ℚ
  deriving DecidableEq, Repr

/-- One side of the book: the prices ZSET, the per-price FIFO LISTs
(head = front = next to pop) and the depth hash. -/
structure SideBook where
  prices : List ℚ
  levels : List (ℚ × List OrderId)
  depth : List (ℚ × ℚ)
  deriving DecidableEq, Repr

structure Book where
  asks : SideBook
  bids : SideBook
  orders : List (OrderId × BookEntry)
  deriving DecidableEq, Repr

/-- Association-list lookup (Redis HGET). -/
def alookup {α β : Type} [DecidableEq α] : List (α × β) → α → Option β
  | [], _ => none
  | (k, v) :: rest, k0 => if k = k0 then some v else alookup rest k0

/-- Association-list write (Redis HSET): replaces the first binding or appends. -/
def hsetA {α β : Type} [DecidableEq α] : List (α × β) → α → β → List (α × β)
  | [], k, v => [(k, v)]
  | (k1, v1) :: rest, k, v =>
      if k1 = k then (k, v) :: rest else (k1, v1) :: hsetA rest k v

/-- Association-list delete (Redis HDEL). -/
def hdelA {α β : Type} [DecidableEq α] (l : List (α × β)) (k : α) : List (α × β) :=
  l.filter (fun p => decide (p.1 ≠ k))

def getLevel (sb : SideBook) (p : ℚ) : List OrderId :=
  (alookup sb.levels p).getD []

def setLevel (sb : SideBook) (p : ℚ) (l : List OrderId) : SideBook :=
  { sb with levels := hsetA sb.levels p l }

/-- ZADD prices p p (set semantics). -/
def zadd (sb : SideBook) (p : ℚ) : SideBook :=
  if p ∈ sb.prices then sb else { sb with prices := p :: sb.prices }

/-- ZREM prices p. -/
def zrem (sb : SideBook) (p : ℚ) : SideBook :=
  { sb with prices := sb.prices.filter (fun q => decide (q ≠ p)) }

/-- HINCRBYFLOAT on the depth hash. -/
def hincrDepth (sb : SideBook) (p : ℚ) (d : ℚ) : SideBook :=
  { sb with depth := hsetA sb.depth p ((alookup sb.depth p).getD 0 + d) }

/-- Head of ZRANGE prices 0 0: the least member. -/
def listMinQ : List ℚ → Option ℚ
  | [] => none
  | p :: rest =>
      match listMinQ rest with
      | none => some p
      | some q => some (min p q)

/-- Head of ZREVRANGE prices 0 0: the greatest member. -/
def listMaxQ : List ℚ → Option ℚ
  | [] => none
  | p :: rest =>
      match listMaxQ rest with
      | none => some p
      | some q => some (max p q)

def Book.side (b : Book) : BookSide → SideBook
  | BookSide.asks => b.asks
  | BookSide.bids => b.bids

def Book.setSide (b : Book) : BookSide → SideBook → Book
  | BookSide.asks, sb => { b with asks := sb }
  | BookSide.bids, sb => { b with bids := sb }

/-- ZRANGE for asks (lowest first), ZREVRANGE for bids (highest first). -/
def bestPriceOf (b : Book) : BookSide → Option ℚ
  | BookSide.asks => listMinQ b.asks.prices
  | BookSide.bids => listMaxQ b.bids.prices

/-- A row of the Postgres orders table. -/
structure LedgerRow where
  client_id : String
  instrument : String
  side : Side
  type : OrderType
  price : Option ℚ
  quantity : ℚ
  filled_quantity : ℚ
  status : OrderStatus
  deriving DecidableEq, Repr

/-- A row of the Postgres trades table. -/
structure Trade where
  instrument : String
  price : ℚ
  quantity : ℚ
  buy_order_id : OrderId
  sell_order_id : OrderId
  deriving DecidableEq, Repr

structure Ledger where
  orders : List (OrderId × LedgerRow)
  trades : List Trade
  deriving DecidableEq, Repr

/-- persistence.createTrade: INSERT INTO trades. -/
def createTrade (lg : Ledger) (t : Trade) : Ledger :=
  { lg with trades := lg.trades ++ [t] }

/-- persistence.updateOrderStatus: UPDATE orders SET status, filled_quantity. -/
def updateOrderStatus (lg : Ledger) (id : OrderId) (st : OrderStatus) (fq : ℚ) : Ledger :=
  { lg with
      orders := lg.orders.map (fun p =>
        if p.1 = id then (p.1, { p.2 with status := st, filled_quantity := fq }) else p) }

/-- persistence.getOrderById: SELECT * FROM orders WHERE order_id = id. -/
def getOrderById (lg : Ledger) (id : OrderId) : Option LedgerRow :=
  alookup lg.orders id

/-- The in-memory taker order the matching loop mutates. -/
structure TakerOrder where
  order_id : OrderId
  client_id : String
  instrument : String
  side : Side
  type : OrderType
  price : Option ℚ
  quantity : ℚ
  filled_quantity : ℚ
  created_at : Nat
  deriving DecidableEq, Repr

/-- The ordered side effects of a trade step, in source order. -/
inductive Effect
  | lpopEff (bs : BookSide) (price : ℚ) (id : OrderId)
  | zremEff (bs : BookSide) (price : ℚ)
  | createTradeEff (t : Trade)
  | depthEff (bs : BookSide) (price : ℚ) (delta : ℚ)
  | hdelOrderEff (id : OrderId)
  | hsetOrderEff (id : OrderId) (e : BookEntry)
  | lpushEff (bs : BookSide) (price : ℚ) (id : OrderId)
  | updateStatusEff (id : OrderId) (st : OrderStatus) (fq : ℚ)
  deriving DecidableEq, Repr

structure EngineState where
  book : Book
  ledger : Ledger
  deriving DecidableEq, Repr

/-- Result of one iteration of the while loop in processMatchingLoop:
cont is true when the JS iteration falls through to the next loop test. -/
structure IterOut where
  cont : Bool
  taker : TakerOrder
  st : EngineState
  trace : List Effect
  deriving Repr

/-- The opposing book side: asks for a buy taker, bids for a sell taker. -/
def opposingSideOf : Side → BookSide
  | Side.buy => BookSide.asks
  | Side.sell => BookSide.bids

/-- The taker's own book side: bids for buy, asks for sell (addOrderToBook). -/
def bookSideOf : Side → BookSide
  | Side.buy => BookSide.bids
  | Side.sell => BookSide.asks

/-- The limit-order crossability test of step 2 of the loop. -/
def canMatchLimit (t : TakerOrder) (best : ℚ) : Bool :=
  match t.side with
  | Side.buy => decide (best ≤ t.price.getD 0)
  | Side.sell => decide (t.price.getD 0 ≤ best)

/-- The body of the trade step (matching.engine.js lines 172-234), entered
once the maker id has been popped and its blob fetched.  The trace lists the
side effects in the order the source performs them (note the pop has already
happened: it heads every trace). -/
def tradeExec (taker : TakerOrder) (st : EngineState) (tradePrice : ℚ)
    (makerOrderId : OrderId) (restIds : List OrderId) (makerData : BookEntry) :
    IterOut :=
  let opposingSide := opposingSideOf taker.side
  let sb1 := setLevel (st.book.side opposingSide) tradePrice restIds
  let book1 := st.book.setSide opposingSide sb1
  let takerQtyNeeded := taker.quantity - taker.filled_quantity
  let makerQtyAvailable := makerData.quantity
  let tradeQty := min takerQtyNeeded makerQtyAvailable
  if tradeQty ≤ EPSILON then
    ⟨true, taker, { st with book := book1 },
      [Effect.lpopEff opposingSide tradePrice makerOrderId]⟩
  else
    let tradeData : Trade :=
      { instrument := taker.instrument
        price := tradePrice
        quantity := tradeQty
        buy_order_id :=
          if taker.side = Side.buy then taker.order_id else makerOrderId
        sell_order_id :=
          if taker.side = Side.sell then taker.order_id else makerOrderId }
    let ledger1 := createTrade st.ledger tradeData
    let sb2 := hincrDepth sb1 tradePrice (-tradeQty)
    let book2 := book1.setSide opposingSide sb2
    let taker1 := { taker with
      filled_quantity := taker.filled_quantity + tradeQty }
    let makerNewRemainingQty := makerQtyAvailable - tradeQty
    let makerNewFilledQty := makerData.total_filled_quantity + tradeQty
    if makerNewRemainingQty ≤ EPSILON then
      -- maker fully filled: HDEL from orders, ledger update
      let book3 := { book2 with orders := hdelA book2.orders makerOrderId }
      let ledger2 :=
        updateOrderStatus ledger1 makerOrderId OrderStatus.filled makerNewFilledQty
      let ledger3 :=
        updateOrderStatus ledger2 taker1.order_id OrderStatus.partially_filled
          taker1.filled_quantity
      let emptied := (getLevel (book3.side opposingSide) tradePrice).length = 0
      let book4 :=
        if emptied then
          book3.setSide opposingSide (zrem (book3.side opposingSide) tradePrice)
        else book3
      ⟨true, taker1, { book := book4, ledger := ledger3 },
        [Effect.lpopEff opposingSide tradePrice makerOrderId,
         Effect.createTradeEff tradeData,
         Effect.depthEff opposingSide tradePrice (-tradeQty),
         Effect.hdelOrderEff makerOrderId,
         Effect.updateStatusEff makerOrderId OrderStatus.filled makerNewFilledQty,
         Effect.updateStatusEff taker1.order_id OrderStatus.partially_filled
           taker1.filled_quantity] ++
        (if emptied then [Effect.zremEff opposingSide tradePrice] else [])⟩
    else
      -- maker partially filled: HSET new blob, LPUSH back to the front
      let makerDataToSave : BookEntry :=
        { client_id := makerData.client_id
          quantity := makerNewRemainingQty
          created_at := makerData.created_at
          total_filled_quantity := makerNewFilledQty }
      let book3 :=
        { book2 with orders := hsetA book2.orders makerOrderId makerDataToSave }
      let sb3 :=
        setLevel (book3.side opposingSide) tradePrice
          (makerOrderId :: getLevel (book3.side opposingSide) tradePrice)
      let book4 := book3.setSide opposingSide sb3
      let ledger2 :=
        updateOrderStatus ledger1 makerOrderId OrderStatus.partially_filled
          makerNewFilledQty
      let ledger3 :=
        updateOrderStatus ledger2 taker1.order_id OrderStatus.partially_filled
          taker1.filled_quantity
      let emptied := (getLevel (book4.side opposingSide) tradePrice).length = 0
      let book5 :=
        if emptied then
          book4.setSide opposingSide (zrem (book4.side opposingSide) tradePrice)
        else book4
      ⟨true, taker1, { book := book5, ledger := ledger3 },
        [Effect.lpopEff opposingSide tradePrice makerOrderId,
         Effect.createTradeEff tradeData,
         Effect.depthEff opposingSide tradePrice (-tradeQty),
         Effect.hsetOrderEff makerOrderId makerDataToSave,
         Effect.lpushEff opposingSide tradePrice makerOrderId,
         Effect.updateStatusEff makerOrderId OrderStatus.partially_filled
           makerNewFilledQty,
         Effect.updateStatusEff taker1.order_id OrderStatus.partially_filled
           taker1.filled_quantity] ++
        (if emptied then [Effect.zremEff opposingSide tradePrice] else [])⟩

/-- One iteration of the while loop of processMatchingLoop
(matching.engine.js lines 123-235), mirrored statement by statement. -/
def matchIter (taker : TakerOrder) (st : EngineState) : IterOut :=
  let opposingSide := opposingSideOf taker.side
  match bestPriceOf st.book opposingSide with
  | none => ⟨false, taker, st, []⟩
  | some bestPriceNum =>
    if taker.type = OrderType.limit ∧ canMatchLimit taker bestPriceNum = false then
      ⟨false, taker, st, []⟩
    else
      let tradePrice := bestPriceNum
      match getLevel (st.book.side opposingSide) tradePrice with
      | [] =>
          -- lpop returned nothing: orphan price level, zrem and continue
          let sb1 := zrem (st.book.side opposingSide) tradePrice
          ⟨true, taker, { st with book := st.book.setSide opposingSide sb1 },
            [Effect.zremEff opposingSide tradePrice]⟩
      | makerOrderId :: restIds =>
          match alookup st.book.orders makerOrderId with
          | none =>
              -- orphan order id: skip (the lpop has already happened)
              let sb1 := setLevel (st.book.side opposingSide) tradePrice restIds
              ⟨true, taker, { st with book := st.book.setSide opposingSide sb1 },
                [Effect.lpopEff opposingSide tradePrice makerOrderId]⟩
          | some makerData =>
              tradeExec taker st tradePrice makerOrderId restIds makerData

/-- The while loop of processMatchingLoop, with explicit fuel.  The loop
guard is the source's remaining-quantity test against EPSILON. -/
def processMatchingLoop : Nat → TakerOrder → EngineState →
    TakerOrder × EngineState × List Effect
  | 0, taker, st => (taker, st, [])
  | Nat.succ fuel, taker, st =>
      if EPSILON < taker.quantity - taker.filled_quantity then
        let r := matchIter taker st
        if r.cont then
          let rest := processMatchingLoop fuel r.taker r.st
          (rest.1, rest.2.1, r.trace ++ rest.2.2)
        else (r.taker, r.st, r.trace)
      else (taker, st, [])

/-- The object matchLimitOrder builds before calling addOrderToBook. -/
structure RestingOrder where
  order_id : OrderId
  price : ℚ
  side : Side
  quantity : ℚ
  client_id : String
  created_at : Nat
  total_filled_quantity : ℚ
  deriving DecidableEq, Repr

/-- addOrderToBook: the MULTI of HSET orders, ZADD prices, RPUSH level,
HINCRBYFLOAT depth. -/
def addOrderToBook (st : EngineState) (o : RestingOrder) : EngineState :=
  let bs := bookSideOf o.side
  let entry : BookEntry :=
    { client_id := o.client_id
      quantity := o.quantity
      created_at := o.created_at
      total_filled_quantity := o.total_filled_quantity }
  let sb1 := zadd (st.book.side bs) o.price
  let sb2 := setLevel sb1 o.price (getLevel sb1 o.price ++ [o.order_id])
  let sb3 := hincrDepth sb2 o.price o.quantity
  let book1 := st.book.setSide bs sb3
  { st with book := { book1 with orders := hsetA book1.orders o.order_id entry } }

/-- matchLimitOrder (matching.engine.js lines 77-110). -/
def matchLimitOrder (fuel : Nat) (takerOrder : TakerOrder) (st : EngineState) :
    EngineState :=
  let out := processMatchingLoop fuel takerOrder st
  let updated := out.1
  let st1 := out.2.1
  let remainingQty := updated.quantity - updated.filled_quantity
  if EPSILON < remainingQty then
    let restingOrder : RestingOrder :=
      { order_id := updated.order_id
        price := updated.price.getD 0
        side := updated.side
        quantity := remainingQty
        client_id := updated.client_id
        created_at := updated.created_at
        total_filled_quantity := updated.filled_quantity }
    let st2 := addOrderToBook st1 restingOrder
    let finalStatus :=
      if 0 < updated.filled_quantity then OrderStatus.partially_filled
      else OrderStatus.open_
    { st2 with
        ledger := updateOrderStatus st2.ledger updated.order_id finalStatus
          updated.filled_quantity }
  else
    { st1 with
        ledger := updateOrderStatus st1.ledger updated.order_id OrderStatus.filled
          updated.filled_quantity }

/-- matchMarketOrder (matching.engine.js lines 58-72). -/
def matchMarketOrder (fuel : Nat) (takerOrder : TakerOrder) (st : EngineState) :
    EngineState :=
  let out := processMatchingLoop fuel takerOrder st
  let updated := out.1
  let st1 := out.2.1
  let remainingQty := updated.quantity - updated.filled_quantity
  let finalStatus :=
    if EPSILON < remainingQty then OrderStatus.partially_filled else OrderStatus.filled
  { st1 with
      ledger := updateOrderStatus st1.ledger updated.order_id finalStatus
        updated.filled_quantity }

/-- LREM count 1: removes the first occurrence by identity. -/
def removeFirst : List OrderId → OrderId → List OrderId
  | [], _ => []
  | x :: rest, id => if x = id then rest else x :: removeFirst rest id

/-- handleCancelJob (matching.engine.js lines 286-342).  Returns none where
the source throws (no Postgres record for a live order); that path performs
no mutation. -/
def handleCancelJob (st : EngineState) (orderId : OrderId) : Option EngineState :=
  match alookup st.book.orders orderId with
  | none => some st
  | some orderData =>
    match getOrderById st.ledger orderId with
    | none => none
    | some pgOrder =>
      let bs := bookSideOf pgOrder.side
      let price := pgOrder.price.getD 0
      let sb1 :=
        setLevel (st.book.side bs) price
          (removeFirst (getLevel (st.book.side bs) price) orderId)
      let book1 := st.book.setSide bs sb1
      let book2 := { book1 with orders := hdelA book1.orders orderId }
      let sb2 := hincrDepth (book2.side bs) price (-orderData.quantity)
      let book3 := book2.setSide bs sb2
      let book4 :=
        if (getLevel (book3.side bs) price).length = 0 then
          book3.setSide bs (zrem (book3.side bs) price)
        else book3
      some
        { book := book4
          ledger :=
            updateOrderStatus st.ledger orderId OrderStatus.cancelled
              orderData.total_filled_quantity }

/-- The two job kinds of the queue (process-order, process-cancellation). -/
inductive Job
  | processOrder (order : TakerOrder)
  | processCancellation (order_id : OrderId)
  deriving DecidableEq, Repr

/-- processOrderJob: dispatch on the job name.  A failed cancellation
(handleCancelJob throwing) leaves the state unchanged. -/
def processOrderJob (fuel : Nat) (st : EngineState) : Job → EngineState
  | Job.processOrder order =>
      if order.type = OrderType.market then matchMarketOrder fuel order st
      else matchLimitOrder fuel order st
  | Job.processCancellation id => (handleCancelJob st id).getD st

/-- Serialized consumption of the job queue, one job at a time. -/
def runJobs (fuel : Nat) : List Job → EngineState → EngineState
  | [], st => st
  | j :: rest, st => runJobs fuel rest (processOrderJob fuel st j)

/-- The Redis keys idempotency:* with their absolute expiry instants. -/
structure IdemStore where
  entries : List (String × Nat)
  deriving DecidableEq, Repr

def IDEMPOTENCY_EXPIRY_SECONDS : Nat := 86400

/-- SET key value EX ttl NX: atomically creates the key with its TTL when it
is absent (or expired) and reports whether it was created. -/
def redisSetNxEx (store : IdemStore) (key : String) (now ttl : Nat) :
    Bool × IdemStore :=
  match alookup store.entries key with
  | some expiry =>
      if now < expiry then (false, store)
      else (true, ⟨hsetA store.entries key (now + ttl)⟩)
  | none => (true, ⟨hsetA store.entries key (now + ttl)⟩)

/-- persistence.checkIdempotency: true when the key is new. -/
def checkIdempotency (store : IdemStore) (key : String) (now : Nat) :
    Bool × IdemStore :=
  redisSetNxEx store key now IDEMPOTENCY_EXPIRY_SECONDS

/-- The raw submission payload; none encodes a missing field, and JS
falsiness of the empty string is modelled explicitly. -/
structure Submission where
  idempotency_key : Option String
  client_id : Option String
  instrument : Option String
  side : Option Side
  type : Option OrderType
  price : Option ℚ
  quantity : Option ℚ
  deriving DecidableEq, Repr

/-- JS truthiness of an optional string: missing and the empty string are falsy. -/
def strTruthy : Option String → Bool
  | none => false
  | some s => !s.isEmpty

structure SystemState where
  idem : IdemStore
  ledger : Ledger
  queue : List Job
  next_order_id : OrderId
  deriving DecidableEq, Repr

inductive SubmitResult
  | accepted (order : TakerOrder)
  | errMissingKey
  | errDuplicate
  | errValidation (field : String)
  deriving DecidableEq, Repr

def isAccepted : SubmitResult → Bool
  | SubmitResult.accepted _ => true
  | _ => false

/-- submitOrder (order.service.js lines 114-163): idempotency check first,
then the validations in source order, then saveNewOrder and the enqueue.
The stored price is price or null (JS: 0 is falsy). -/
def submitOrder (s : Submission) (now : Nat) (st : SystemState) :
    SubmitResult × SystemState :=
  if strTruthy s.idempotency_key = false then (SubmitResult.errMissingKey, st)
  else
    let key := s.idempotency_key.getD ""
    let r := checkIdempotency st.idem key now
    let st1 := { st with idem := r.2 }
    if r.1 = false then (SubmitResult.errDuplicate, st1)
    else if strTruthy s.client_id = false then
      (SubmitResult.errValidation "client_id", st1)
    else if strTruthy s.instrument = false then
      (SubmitResult.errValidation "instrument", st1)
    else
      match s.side with
      | none => (SubmitResult.errValidation "side", st1)
      | some side =>
        match s.type with
        | none => (SubmitResult.errValidation "type", st1)
        | some type =>
          match s.quantity with
          | none => (SubmitResult.errValidation "quantity", st1)
          | some quantity =>
            if quantity ≤ 0 then (SubmitResult.errValidation "quantity", st1)
            else if type = OrderType.limit ∧ ¬(0 < s.price.getD 0) then
              (SubmitResult.errValidation "price", st1)
            else
              let storedPrice :=
                match s.price with
                | none => none
                | some p => if p = 0 then none else some p
              let oid := st1.next_order_id
              let row : LedgerRow :=
                { client_id := s.client_id.getD ""
                  instrument := s.instrument.getD ""
                  side := side
                  type := type
                  price := storedPrice
                  quantity := quantity
                  filled_quantity := 0
                  status := OrderStatus.open_ }
              let savedOrder : TakerOrder :=
                { order_id := oid
                  client_id := s.client_id.getD ""
                  instrument := s.instrument.getD ""
                  side := side
                  type := type
                  price := storedPrice
                  quantity := quantity
                  filled_quantity := 0
                  created_at := now }
              let st2 : SystemState :=
                { st1 with
                    ledger := { st1.ledger with
                      orders := st1.ledger.orders ++ [(oid, row)] }
                    queue := st1.queue ++ [Job.processOrder savedOrder]
                    next_order_id := oid + 1 }
              (SubmitResult.accepted savedOrder, st2)

/-- Recognizes the ledger create_trade effect. -/
def isCreateTradeEff : Effect → Bool
  | Effect.createTradeEff _ => true
  | _ => false

/-- The maker-book mutations named by the ordering discipline: the pop from
the price-level sequence, the rewrite or deletion of the order-map entry,
and the depth update. -/
def isMakerBookMutation : Effect → Bool
  | Effect.lpopEff _ _ _ => true
  | Effect.hdelOrderEff _ => true
  | Effect.hsetOrderEff _ _ => true
  | Effect.depthEff _ _ _ => true
  | _ => false

/-- The maker-book mutations other than the pop (the reinsertion counts too). -/
def nonPopMutation : Effect → Bool
  | Effect.hdelOrderEff _ => true
  | Effect.hsetOrderEff _ _ => true
  | Effect.lpushEff _ _ _ => true
  | Effect.depthEff _ _ _ => true
  | _ => false

def isPopEff : Effect → Bool
  | Effect.lpopEff _ _ _ => true
  | _ => false

/-- True when no maker-book mutation is followed (later in the trace) by a
create_trade: equivalently, every create_trade precedes every such mutation. -/
def noMutationBeforeTrade : List Effect → Bool
  | [] => true
  | e :: rest =>
      (if isMakerBookMutation e then !rest.any isCreateTradeEff else true) &&
        noMutationBeforeTrade rest

/-- True when no non-pop maker mutation is followed by a create_trade. -/
def noTradeAfterNonPopMutation : List Effect → Bool
  | [] => true
  | e :: rest =>
      (if nonPopMutation e then !rest.any isCreateTradeEff else true) &&
        noTradeAfterNonPopMutation rest

/-- True when every create_trade is preceded (earlier in the trace) by a pop. -/
def popSeen : Bool → List Effect → Bool
  | _, [] => true
  | seen, e :: rest =>
      if isCreateTradeEff e then seen && popSeen seen rest
      else popSeen (seen || isPopEff e) rest

/-- The maker's order id in a trade, given the taker's side. -/
def makerOfTrade : Side → Trade → OrderId
  | Side.buy, td => td.sell_order_id
  | Side.sell, td => td.buy_order_id

/-- One step of the adjacency scan: a create_trade is admissible only when
the immediately preceding effect is the pop of its maker at its price. -/
def cfpStep (s : Side) (prev : Option Effect) : Effect → Bool
  | Effect.createTradeEff td =>
      match prev with
      | some (Effect.lpopEff _ p mk) =>
          decide (td.price = p) && decide (makerOfTrade s td = mk)
      | _ => false
  | _ => true

def cfpAux (s : Side) : Option Effect → List Effect → Bool
  | _, [] => true
  | prev, e :: rest => cfpStep s prev e && cfpAux s (some e) rest

/-- Every create_trade in the trace is immediately preceded by the pop of
the maker it references, at the trade's price. -/
def createFollowsPop (s : Side) (tr : List Effect) : Bool := cfpAux s none tr

/-- The last effect of a trace, or the given default for an empty trace. -/
def lastPrev (prev : Option Effect) : List Effect → Option Effect
  | [] => prev
  | e :: rest => lastPrev (some e) rest

/-- Occurrences of an order id across all level sequences of one side. -/
def occSide (sb : SideBook) (id : OrderId) : Nat :=
  (sb.levels.map (fun pl => pl.2.count id)).sum

/-- Occurrences of an order id across the whole book. -/
def occCount (b : Book) (id : OrderId) : Nat :=
  occSide b.asks id + occSide b.bids id

/-- The fields of a ledger row the matching engine never rewrites. -/
def rowCore (r : LedgerRow) : String × String × Side × OrderType × Option ℚ × ℚ :=
  (r.client_id, r.instrument, r.side, r.type, r.price, r.quantity)

/-- The book/ledger coherence invariant the engine maintains: level keys are
unique per side, every id occurs exactly once across levels iff it is in the
order map, stored remaining quantities exceed EPSILON, and each mapped id
sits in the level the ledger's side and price name. -/
structure Inv (st : EngineState) : Prop where
  nodupAsks : (st.book.asks.levels.map Prod.fst).Nodup
  nodupBids : (st.book.bids.levels.map Prod.fst).Nodup
  occ : ∀ id, occCount st.book id =
    if (alookup st.book.orders id).isSome then 1 else 0
  qty : ∀ id e, alookup st.book.orders id = some e → EPSILON < e.quantity
  loc : ∀ id e, alookup st.book.orders id = some e →
    ∃ r p, getOrderById st.ledger id = some r ∧ r.price = some p ∧
      id ∈ getLevel (st.book.side (bookSideOf r.side)) p

/-- What Intake guarantees about a job when it reaches the engine: a fresh
order id, and for a limit order a ledger row agreeing on side and price. -/
def jobOK (st : EngineState) : Job → Prop
  | Job.processOrder t =>
      alookup st.book.orders t.order_id = none ∧
      (t.type = OrderType.limit →
        ∃ r, getOrderById st.ledger t.order_id = some r ∧ r.side = t.side ∧
          r.price = t.price ∧ t.price.isSome = true)
  | Job.processCancellation _ => True

def jobsOK (fuel : Nat) : EngineState → List Job → Prop
  | _, [] => True
  | st, j :: rest => jobOK st j ∧ jobsOK fuel (processOrderJob fuel st j) rest

inductive CancelResult
  | accepted (order : LedgerRow)
  | notFound
  | conflict
  deriving DecidableEq, Repr

/-- cancelOrder (order.service.js lines 170-191): ledger lookup, terminal
check, then enqueue of a process-cancellation job. -/
def cancelOrder (st : SystemState) (orderId : OrderId) :
    CancelResult × SystemState :=
  match getOrderById st.ledger orderId with
  | none => (CancelResult.notFound, st)
  | some order =>
      if order.status = OrderStatus.filled ∨ order.status = OrderStatus.cancelled ∨
          order.status = OrderStatus.rejected then
        (CancelResult.conflict, st)
      else
        (CancelResult.accepted order,
          { st with queue := st.queue ++ [Job.processCancellation orderId] })

/-! Concrete fixtures used by the counterexamples and witnesses. -/

def emptySide : SideBook := { prices := [], levels := [], depth := [] }

def emptyBook : Book := { asks := emptySide, bids := emptySide, orders := [] }

def entry7 : BookEntry :=
  { client_id := "m1", quantity := 1, created_at := 0, total_filled_quantity := 0 }

def askSide7 : SideBook := { prices := [100], levels := [(100, [7])], depth := [(100, 1)] }

def row7 : LedgerRow :=
  { client_id := "m1", instrument := "BTC-USD", side := Side.sell,
    type := OrderType.limit, price := some 100, quantity := 1,
    filled_quantity := 0, status := OrderStatus.open_ }

def row1 : LedgerRow :=
  { client_id := "t1", instrument := "BTC-USD", side := Side.buy,
    type := OrderType.limit, price := some 100, quantity := 1/2,
    filled_quantity := 0, status := OrderStatus.open_ }

def st1ex : EngineState :=
  { book := { asks := askSide7, bids := emptySide, orders := [(7, entry7)] },
    ledger := { orders := [(1, row1), (7, row7)], trades := [] } }

def taker1ex : TakerOrder :=
  { order_id := 1, client_id := "t1", instrument := "BTC-USD", side := Side.buy,
    type := OrderType.limit, price := some 100, quantity := 1/2,
    filled_quantity := 0, created_at := 0 }

def row2m : LedgerRow :=
  { client_id := "t2", instrument := "BTC-USD", side := Side.buy,
    type := OrderType.market, price := none, quantity := 1,
    filled_quantity := 0, status := OrderStatus.open_ }

def st2ex : EngineState :=
  { book := emptyBook, ledger := { orders := [(2, row2m)], trades := [] } }

def taker2ex : TakerOrder :=
  { order_id := 2, client_id := "t2", instrument := "BTC-USD", side := Side.buy,
    type := OrderType.market, price := none, quantity := 1,
    filled_quantity := 0, created_at := 0 }

def entry8 : BookEntry :=
  { client_id := "m3", quantity := 3/10, created_at := 0, total_filled_quantity := 0 }

def row8 : LedgerRow :=
  { client_id := "m3", instrument := "BTC-USD", side := Side.sell,
    type := OrderType.limit, price := some 100, quantity := 3/10,
    filled_quantity := 0, status := OrderStatus.open_ }

def row3 : LedgerRow :=
  { client_id := "t3", instrument := "BTC-USD", side := Side.buy,
    type := OrderType.limit, price := some 100, quantity := 300000001/1000000000,
    filled_quantity := 0, status := OrderStatus.open_ }

def askSide8 : SideBook :=
  { prices := [100], levels := [(100, [8])], depth := [(100, 3/10)] }

def st3ex : EngineState :=
  { book := { asks := askSide8, bids := emptySide, orders := [(8, entry8)] },
    ledger := { orders := [(3, row3), (8, row8)], trades := [] } }

def taker3ex : TakerOrder :=
  { order_id := 3, client_id := "t3", instrument := "BTC-USD", side := Side.buy,
    type := OrderType.limit, price := some 100, quantity := 300000001/1000000000,
    filled_quantity := 0, created_at := 0 }

def st4ex : EngineState :=
  { book := { asks := askSide7, bids := emptySide, orders := [(7, entry7)] },
    ledger := { orders := [(7, row7)], trades := [] } }

def sysSt0 : SystemState :=
  { idem := ⟨[]⟩, ledger := { orders := [], trades := [] }, queue := [],
    next_order_id := 1 }

def subBad : Submission :=
  { idempotency_key := some "K", client_id := some "c1",
    instrument := some "BTC-USD", side := some Side.buy,
    type := some OrderType.limit, price := some 100, quantity := some 0 }

def subGood : Submission :=
  { idempotency_key := some "K", client_id := some "c1",
    instrument := some "BTC-USD", side := some Side.buy,
    type := some OrderType.limit, price := some 100, quantity := some 1 }

/-! Helper lemmas on the Redis-structure embeddings. -/

theorem alookup_hsetA_self {α β : Type} [DecidableEq α] (l : List (α × β)) (k : α)
    (v : β) : alookup (hsetA l k v) k = some v := by
  induction l with
  | nil => simp [hsetA, alookup]
  | cons a rest ih =>
      obtain ⟨k1, v1⟩ := a
      by_cases h : k1 = k
      · subst h
        simp [hsetA, alookup]
      · simp [hsetA, alookup, h, ih]

theorem alookup_hsetA_ne {α β : Type} [DecidableEq α] (l : List (α × β)) (k k' : α)
    (v : β) (h : k' ≠ k) : alookup (hsetA l k v) k' = alookup l k' := by
  induction l with
  | nil => simp [hsetA, alookup, Ne.symm h]
  | cons a rest ih =>
      obtain ⟨k1, v1⟩ := a
      by_cases h1 : k1 = k
      · subst h1
        simp [hsetA, alookup, Ne.symm h]
      · simp [hsetA, alookup, h1, ih]

theorem alookup_hdelA_self {α β : Type} [DecidableEq α] (l : List (α × β)) (k : α) :
    alookup (hdelA l k) k = none := by
  induction l with
  | nil => simp [hdelA, alookup]
  | cons a rest ih =>
      obtain ⟨k1, v1⟩ := a
      by_cases h1 : k1 = k
      · subst h1
        simpa [hdelA, alookup] using ih
      · simpa [hdelA, alookup, h1] using ih

theorem alookup_hdelA_ne {α β : Type} [DecidableEq α] (l : List (α × β)) (k k' : α)
    (h : k' ≠ k) : alookup (hdelA l k) k' = alookup l k' := by
  induction l with
  | nil => simp [hdelA, alookup]
  | cons a rest ih =>
      obtain ⟨k1, v1⟩ := a
      by_cases h1 : k1 = k
      · subst h1
        simpa [hdelA, alookup, Ne.symm h] using ih
      · by_cases h2 : k1 = k'
        · subst h2
          simp [hdelA, alookup, h1]
        · simpa [hdelA, alookup, h1, h2] using ih

theorem hsetA_of_alookup {α β : Type} [DecidableEq α] (l : List (α × β)) (k : α)
    (v : β) (h : alookup l k = some v) : hsetA l k v = l := by
  induction l with
  | nil => simp [alookup] at h
  | cons a rest ih =>
      obtain ⟨k1, v1⟩ := a
      by_cases h1 : k1 = k
      · subst h1
        simp [alookup] at h
        simp [hsetA, h]
      · simp [alookup, h1] at h
        simp [hsetA, h1, ih h]

theorem alookup_key_mem {α β : Type} [DecidableEq α] (l : List (α × β)) (k : α)
    (v : β) (h : alookup l k = some v) : k ∈ l.map Prod.fst := by
  induction l with
  | nil => simp [alookup] at h
  | cons a rest ih =>
      obtain ⟨k1, v1⟩ := a
      by_cases h1 : k1 = k
      · subst h1
        simp
      · simp [alookup, h1] at h
        simp [ih h]

theorem alookup_cons {α β : Type} [DecidableEq α] (x : α × β) (l : List (α × β))
    (k : α) : alookup (x :: l) k = if x.1 = k then some x.2 else alookup l k := by
  obtain ⟨a, b⟩ := x
  rfl

theorem mem_keys_hsetA {α β : Type} [DecidableEq α] (l : List (α × β)) (k a : α)
    (v : β) : a ∈ (hsetA l k v).map Prod.fst ↔ a = k ∨ a ∈ l.map Prod.fst := by
  induction l with
  | nil => simp [hsetA]
  | cons e rest ih =>
      obtain ⟨k1, v1⟩ := e
      by_cases h1 : k1 = k
      · subst h1
        simp [hsetA]
      · simp [hsetA, h1, ih]
        tauto

theorem nodup_keys_hsetA {α β : Type} [DecidableEq α] (l : List (α × β)) (k : α)
    (v : β) (h : (l.map Prod.fst).Nodup) : ((hsetA l k v).map Prod.fst).Nodup := by
  induction l with
  | nil => simp [hsetA]
  | cons a rest ih =>
      obtain ⟨k1, v1⟩ := a
      simp only [List.map_cons, List.nodup_cons] at h
      by_cases h1 : k1 = k
      · subst h1
        simpa [hsetA] using h
      · have hmem : k1 ∉ (hsetA rest k v).map Prod.fst := by
          intro hmem
          rcases (mem_keys_hsetA rest k k1 v).1 hmem with h2 | h2
          · exact h1 h2
          · exact h.1 h2
        simp only [hsetA, if_neg h1, List.map_cons, List.nodup_cons]
        exact ⟨hmem, ih h.2⟩

theorem alookup_map_update {α β : Type} [DecidableEq α] (l : List (α × β)) (id : α)
    (g : β → β) (k : α) :
    alookup (l.map (fun p => if p.1 = id then (p.1, g p.2) else p)) k =
      if k = id then (alookup l k).map g else alookup l k := by
  induction l with
  | nil => simp [alookup]
  | cons a rest ih =>
      obtain ⟨k1, v1⟩ := a
      simp only [List.map_cons, alookup_cons]
      by_cases h1 : k1 = id
      · rw [if_pos h1]
        subst h1
        by_cases h2 : k = k1
        · subst h2
          simp [alookup_cons]
        · rw [if_neg h2]
          simp only [alookup_cons]
          rw [if_neg (fun e => h2 e.symm), if_neg (fun e => h2 e.symm)]
          rw [ih, if_neg h2]
      · rw [if_neg h1]
        by_cases h2 : k1 = k
        · subst h2
          simp only [alookup_cons, if_pos rfl]
          rw [if_neg (fun e => h1 e)]
          simp [alookup_cons]
        · simp only [alookup_cons]
          rw [if_neg h2, if_neg h2, ih]

theorem getOrderById_updateOrderStatus (lg : Ledger) (id : OrderId) (s : OrderStatus)
    (f : ℚ) (k : OrderId) :
    getOrderById (updateOrderStatus lg id s f) k =
      if k = id then
        (getOrderById lg k).map (fun r => { r with status := s, filled_quantity := f })
      else getOrderById lg k := by
  simpa [getOrderById, updateOrderStatus] using
    alookup_map_update lg.orders id
      (fun r => { r with status := s, filled_quantity := f }) k

theorem rowCore_updateOrderStatus (lg : Ledger) (id : OrderId) (s : OrderStatus)
    (f : ℚ) (k : OrderId) :
    (getOrderById (updateOrderStatus lg id s f) k).map rowCore =
      (getOrderById lg k).map rowCore := by
  rw [getOrderById_updateOrderStatus]
  by_cases h : k = id
  · simp [h, Option.map_map]
    cases getOrderById lg id with
    | none => rfl
    | some r => rfl
  · simp [h]

theorem getLevel_setLevel_self (sb : SideBook) (p : ℚ) (l : List OrderId) :
    getLevel (setLevel sb p l) p = l := by
  simp [getLevel, setLevel, alookup_hsetA_self]

theorem getLevel_setLevel_ne (sb : SideBook) (p p' : ℚ) (l : List OrderId)
    (h : p' ≠ p) : getLevel (setLevel sb p l) p' = getLevel sb p' := by
  simp [getLevel, setLevel, alookup_hsetA_ne _ _ _ _ h]

theorem getLevel_zrem (sb : SideBook) (p q : ℚ) :
    getLevel (zrem sb p) q = getLevel sb q := rfl

theorem getLevel_zadd (sb : SideBook) (p q : ℚ) :
    getLevel (zadd sb p) q = getLevel sb q := by
  by_cases h : p ∈ sb.prices <;> simp [zadd, h, getLevel]

theorem getLevel_hincrDepth (sb : SideBook) (p d : ℚ) (q : ℚ) :
    getLevel (hincrDepth sb p d) q = getLevel sb q := rfl

theorem occSide_zrem (sb : SideBook) (p : ℚ) (id : OrderId) :
    occSide (zrem sb p) id = occSide sb id := rfl

theorem occSide_zadd (sb : SideBook) (p : ℚ) (id : OrderId) :
    occSide (zadd sb p) id = occSide sb id := by
  by_cases h : p ∈ sb.prices <;> simp [zadd, h, occSide]

theorem occSide_hincrDepth (sb : SideBook) (p d : ℚ) (id : OrderId) :
    occSide (hincrDepth sb p d) id = occSide sb id := rfl

/-- Occurrence count over a raw level list. -/
def occL (L : List (ℚ × List OrderId)) (id : OrderId) : Nat :=
  (L.map fun pl => pl.2.count id).sum

/-- Level lookup over a raw level list. -/
def getL (L : List (ℚ × List OrderId)) (p : ℚ) : List OrderId :=
  (alookup L p).getD []

theorem occSide_eq_occL (sb : SideBook) (id : OrderId) :
    occSide sb id = occL sb.levels id := rfl

theorem getLevel_eq_getL (sb : SideBook) (p : ℚ) :
    getLevel sb p = getL sb.levels p := rfl

theorem hsetA_cons_self {α β : Type} [DecidableEq α] (k : α) (v w : β)
    (L : List (α × β)) : hsetA ((k, v) :: L) k w = (k, w) :: L := by
  simp [hsetA]

theorem hsetA_cons_ne {α β : Type} [DecidableEq α] (k k' : α) (v w : β)
    (L : List (α × β)) (h : k ≠ k') : hsetA ((k, v) :: L) k' w =
      (k, v) :: hsetA L k' w := by
  simp [hsetA, h]

theorem getL_cons_self (k : ℚ) (v : List OrderId) (L : List (ℚ × List OrderId)) :
    getL ((k, v) :: L) k = v := by
  simp [getL, alookup_cons]

theorem getL_cons_ne (k : ℚ) (v : List OrderId) (L : List (ℚ × List OrderId))
    (p : ℚ) (h : k ≠ p) : getL ((k, v) :: L) p = getL L p := by
  simp [getL, alookup_cons, h]

theorem occL_setL (L : List (ℚ × List OrderId)) (p : ℚ) (l : List OrderId)
    (id : OrderId) :
    occL (hsetA L p l) id + (getL L p).count id = occL L id + l.count id := by
  induction L with
  | nil => simp [hsetA, occL, getL, alookup]
  | cons a rest ih =>
      obtain ⟨k1, v1⟩ := a
      by_cases h1 : k1 = p
      · subst h1
        rw [hsetA_cons_self, getL_cons_self]
        simp only [occL, List.map_cons, List.sum_cons]
        omega
      · rw [hsetA_cons_ne _ _ _ _ _ h1, getL_cons_ne _ _ _ _ h1]
        simp only [occL, List.map_cons, List.sum_cons]
        simp only [occL] at ih
        omega

theorem count_le_occL (L : List (ℚ × List OrderId)) (p : ℚ) (id : OrderId) :
    (getL L p).count id ≤ occL L id := by
  induction L with
  | nil => simp [getL, occL, alookup]
  | cons a rest ih =>
      obtain ⟨k1, v1⟩ := a
      by_cases h1 : k1 = p
      · subst h1
        simp only [getL_cons_self, occL, List.map_cons, List.sum_cons]
        omega
      · simp only [getL_cons_ne _ _ _ _ h1, occL, List.map_cons, List.sum_cons]
        simp only [occL] at ih
        omega

theorem occL_pos (L : List (ℚ × List OrderId)) (id : OrderId)
    (hn : (L.map Prod.fst).Nodup) (h : 0 < occL L id) :
    ∃ p, id ∈ getL L p := by
  induction L with
  | nil => simp [occL] at h
  | cons a rest ih =>
      obtain ⟨k1, v1⟩ := a
      simp only [List.map_cons, List.nodup_cons] at hn
      by_cases h1 : id ∈ v1
      · exact ⟨k1, by rw [getL_cons_self]; exact h1⟩
      · have hv1 : v1.count id = 0 := List.count_eq_zero.2 h1
        have h2 : 0 < occL rest id := by
          simp only [occL, List.map_cons, List.sum_cons, hv1] at h ⊢
          omega
        obtain ⟨p, hp⟩ := ih hn.2 h2
        refine ⟨p, ?_⟩
        have hk : k1 ≠ p := by
          intro e
          subst e
          cases h4 : alookup rest k1 with
          | none => rw [getL, h4] at hp; simp at hp
          | some l => exact hn.1 (alookup_key_mem rest k1 l h4)
        rwa [getL_cons_ne _ _ _ _ hk]

theorem occL_two (L : List (ℚ × List OrderId)) (id : OrderId) (p p' : ℚ)
    (hne : p ≠ p') (h1 : id ∈ getL L p) (h2 : id ∈ getL L p') : 2 ≤ occL L id := by
  induction L with
  | nil => simp [getL, alookup] at h1
  | cons a rest ih =>
      obtain ⟨k1, v1⟩ := a
      by_cases e1 : k1 = p
      · subst e1
        rw [getL_cons_self] at h1
        rw [getL_cons_ne _ _ _ _ hne] at h2
        have hc1 : 1 ≤ v1.count id := List.one_le_count_iff.2 h1
        have hc2 : 1 ≤ (getL rest p').count id := List.one_le_count_iff.2 h2
        have hc3 := count_le_occL rest p' id
        simp only [occL, List.map_cons, List.sum_cons]
        simp only [occL] at hc3
        omega
      · by_cases e2 : k1 = p'
        · subst e2
          rw [getL_cons_self] at h2
          rw [getL_cons_ne _ _ _ _ e1] at h1
          have hc1 : 1 ≤ v1.count id := List.one_le_count_iff.2 h2
          have hc2 : 1 ≤ (getL rest p).count id := List.one_le_count_iff.2 h1
          have hc3 := count_le_occL rest p id
          simp only [occL, List.map_cons, List.sum_cons]
          simp only [occL] at hc3
          omega
        · rw [getL_cons_ne _ _ _ _ e1] at h1
          rw [getL_cons_ne _ _ _ _ e2] at h2
          have := ih h1 h2
          simp only [occL, List.map_cons, List.sum_cons]
          simp only [occL] at this
          omega

theorem occSide_setLevel (sb : SideBook) (p : ℚ) (l : List OrderId) (id : OrderId) :
    occSide (setLevel sb p l) id + (getLevel sb p).count id =
      occSide sb id + l.count id := by
  simpa [occSide_eq_occL, getLevel_eq_getL, setLevel] using occL_setL sb.levels p l id

theorem count_le_occSide (sb : SideBook) (p : ℚ) (id : OrderId) :
    (getLevel sb p).count id ≤ occSide sb id := by
  simpa [occSide_eq_occL, getLevel_eq_getL] using count_le_occL sb.levels p id

theorem occSide_pos (sb : SideBook) (id : OrderId)
    (hn : (sb.levels.map Prod.fst).Nodup) (h : 0 < occSide sb id) :
    ∃ p, id ∈ getLevel sb p := by
  simpa [occSide_eq_occL, getLevel_eq_getL] using occL_pos sb.levels id hn h

theorem occSide_two (sb : SideBook) (id : OrderId) (p p' : ℚ) (hne : p ≠ p')
    (h1 : id ∈ getLevel sb p) (h2 : id ∈ getLevel sb p') : 2 ≤ occSide sb id := by
  simpa [occSide_eq_occL] using
    occL_two sb.levels id p p' hne h1 h2

theorem side_setSide_self (b : Book) (bs : BookSide) (sb : SideBook) :
    (b.setSide bs sb).side bs = sb := by
  cases bs <;> rfl

theorem side_setSide_ne (b : Book) (bs bs' : BookSide) (sb : SideBook)
    (h : bs' ≠ bs) : (b.setSide bs sb).side bs' = b.side bs' := by
  cases bs <;> cases bs' <;> first | rfl | exact absurd rfl h

theorem orders_setSide (b : Book) (bs : BookSide) (sb : SideBook) :
    (b.setSide bs sb).orders = b.orders := by
  cases bs <;> rfl

theorem occCount_setSide (b : Book) (bs : BookSide) (sb : SideBook) (id : OrderId) :
    occCount (b.setSide bs sb) id + occSide (b.side bs) id =
      occCount b id + occSide sb id := by
  cases bs <;> simp only [occCount, Book.setSide, Book.side] <;> omega

theorem occCount_side (b : Book) (bs : BookSide) (id : OrderId) :
    occSide (b.side bs) id ≤ occCount b id := by
  cases bs <;> simp only [occCount, Book.side] <;> omega

/-- Unique location: when an id occurs at most once in the whole book, two
memberships name the same side and price. -/
theorem uniqueLoc (b : Book) (id : OrderId) (h : occCount b id ≤ 1)
    (bs bs' : BookSide) (p p' : ℚ) (h1 : id ∈ getLevel (b.side bs) p)
    (h2 : id ∈ getLevel (b.side bs') p') : bs = bs' ∧ p = p' := by
  have m1 : 1 ≤ (getLevel (b.side bs) p).count id := List.one_le_count_iff.2 h1
  have m2 : 1 ≤ (getLevel (b.side bs') p').count id := List.one_le_count_iff.2 h2
  have c1 := count_le_occSide (b.side bs) p id
  have c2 := count_le_occSide (b.side bs') p' id
  constructor
  · by_contra hne
    have : occSide (b.side bs) id + occSide (b.side bs') id ≤ occCount b id := by
      cases bs <;> cases bs'
      · exact absurd rfl hne
      · simp [occCount, Book.side]
      · simp [occCount, Book.side]
        omega
      · exact absurd rfl hne
    omega
  · by_contra hne
    have hbs : bs = bs' := by
      by_contra hne2
      have : occSide (b.side bs) id + occSide (b.side bs') id ≤ occCount b id := by
        cases bs <;> cases bs'
        · exact absurd rfl hne2
        · simp [occCount, Book.side]
        · simp [occCount, Book.side]
          omega
        · exact absurd rfl hne2
      omega
    subst hbs
    have := occSide_two (b.side bs) id p p' hne h1 h2
    have := occCount_side b bs id
    omega

theorem count_removeFirst_self (l : List OrderId) (id : OrderId) (h : id ∈ l) :
    (removeFirst l id).count id + 1 = l.count id := by
  induction l with
  | nil => simp at h
  | cons x rest ih =>
      by_cases hx : x = id
      · subst hx
        simp [removeFirst, List.count_cons]
      · rcases List.mem_cons.1 h with h1 | h1
        · exact absurd h1.symm hx
        · simp only [removeFirst, if_neg hx, List.count_cons]
          rw [← ih h1]
          simp [hx]

theorem count_removeFirst_ne (l : List OrderId) (id id' : OrderId) (h : id' ≠ id) :
    (removeFirst l id).count id' = l.count id' := by
  induction l with
  | nil => simp [removeFirst]
  | cons x rest ih =>
      by_cases hx : x = id
      · subst hx
        simp [removeFirst, List.count_cons, Ne.symm h]
      · simp only [removeFirst, if_neg hx, List.count_cons, ih]

theorem mem_removeFirst_of_ne (l : List OrderId) (id id' : OrderId) (h : id' ≠ id) :
    id' ∈ removeFirst l id ↔ id' ∈ l := by
  have h1 := count_removeFirst_ne l id id' h
  constructor
  · intro hm
    have := List.one_le_count_iff.2 hm
    exact List.one_le_count_iff.1 (by omega)
  · intro hm
    have := List.one_le_count_iff.2 hm
    exact List.one_le_count_iff.1 (by omega)

/-! Branch characterizations of one trade step. -/

theorem EPSILON_pos : (0 : ℚ) < EPSILON := by norm_num [EPSILON]

/-- tradeQty = min(takerQtyNeeded, makerQtyAvailable). -/
def tradeQtyOf (t : TakerOrder) (e : BookEntry) : ℚ :=
  min (t.quantity - t.filled_quantity) e.quantity

/-- The trade row built in step 6 of the loop. -/
def tradeOf (t : TakerOrder) (bp : ℚ) (mk : OrderId) (e : BookEntry) : Trade :=
  { instrument := t.instrument
    price := bp
    quantity := tradeQtyOf t e
    buy_order_id := if t.side = Side.buy then t.order_id else mk
    sell_order_id := if t.side = Side.sell then t.order_id else mk }

/-- The taker after the in-memory fill of step 7. -/
def takerAfter (t : TakerOrder) (e : BookEntry) : TakerOrder :=
  { t with filled_quantity := t.filled_quantity + tradeQtyOf t e }

/-- The maker blob rewritten on a partial fill. -/
def makerEntryAfter (e : BookEntry) (t : TakerOrder) : BookEntry :=
  { client_id := e.client_id
    quantity := e.quantity - tradeQtyOf t e
    created_at := e.created_at
    total_filled_quantity := e.total_filled_quantity + tradeQtyOf t e }

/-- The state after a trade step that fully fills the maker. -/
def filledState (t : TakerOrder) (st : EngineState) (bp : ℚ) (mk : OrderId)
    (rest : List OrderId) (e : BookEntry) : EngineState :=
  let opp := opposingSideOf t.side
  let sb1 := setLevel (st.book.side opp) bp rest
  let book1 := st.book.setSide opp sb1
  let tq := tradeQtyOf t e
  let sb2 := hincrDepth sb1 bp (-tq)
  let book2 := book1.setSide opp sb2
  let book3 := { book2 with orders := hdelA book2.orders mk }
  let ledger1 := createTrade st.ledger (tradeOf t bp mk e)
  let ledger2 := updateOrderStatus ledger1 mk OrderStatus.filled
    (e.total_filled_quantity + tq)
  let ledger3 := updateOrderStatus ledger2 t.order_id OrderStatus.partially_filled
    (t.filled_quantity + tq)
  let book4 :=
    if (getLevel (book3.side opp) bp).length = 0 then
      book3.setSide opp (zrem (book3.side opp) bp)
    else book3
  { book := book4, ledger := ledger3 }

/-- The trace of a trade step that fully fills the maker. -/
def filledTrace (t : TakerOrder) (st : EngineState) (bp : ℚ) (mk : OrderId)
    (rest : List OrderId) (e : BookEntry) : List Effect :=
  let opp := opposingSideOf t.side
  let sb1 := setLevel (st.book.side opp) bp rest
  let book1 := st.book.setSide opp sb1
  let tq := tradeQtyOf t e
  let sb2 := hincrDepth sb1 bp (-tq)
  let book2 := book1.setSide opp sb2
  let book3 := { book2 with orders := hdelA book2.orders mk }
  let emptied := (getLevel (book3.side opp) bp).length = 0
  [Effect.lpopEff opp bp mk,
   Effect.createTradeEff (tradeOf t bp mk e),
   Effect.depthEff opp bp (-tq),
   Effect.hdelOrderEff mk,
   Effect.updateStatusEff mk OrderStatus.filled (e.total_filled_quantity + tq),
   Effect.updateStatusEff t.order_id OrderStatus.partially_filled
     (t.filled_quantity + tq)] ++
    (if emptied then [Effect.zremEff opp bp] else [])

/-- The state after a trade step that partially fills the maker. -/
def partialState (t : TakerOrder) (st : EngineState) (bp : ℚ) (mk : OrderId)
    (rest : List OrderId) (e : BookEntry) : EngineState :=
  let opp := opposingSideOf t.side
  let sb1 := setLevel (st.book.side opp) bp rest
  let book1 := st.book.setSide opp sb1
  let tq := tradeQtyOf t e
  let sb2 := hincrDepth sb1 bp (-tq)
  let book2 := book1.setSide opp sb2
  let book3 := { book2 with orders := hsetA book2.orders mk (makerEntryAfter e t) }
  let sb3 := setLevel (book3.side opp) bp (mk :: getLevel (book3.side opp) bp)
  let book4 := book3.setSide opp sb3
  let ledger1 := createTrade st.ledger (tradeOf t bp mk e)
  let ledger2 := updateOrderStatus ledger1 mk OrderStatus.partially_filled
    (e.total_filled_quantity + tq)
  let ledger3 := updateOrderStatus ledger2 t.order_id OrderStatus.partially_filled
    (t.filled_quantity + tq)
  let book5 :=
    if (getLevel (book4.side opp) bp).length = 0 then
      book4.setSide opp (zrem (book4.side opp) bp)
    else book4
  { book := book5, ledger := ledger3 }

/-- The trace of a trade step that partially fills the maker. -/
def partialTrace (t : TakerOrder) (st : EngineState) (bp : ℚ) (mk : OrderId)
    (rest : List OrderId) (e : BookEntry) : List Effect :=
  let opp := opposingSideOf t.side
  let sb1 := setLevel (st.book.side opp) bp rest
  let book1 := st.book.setSide opp sb1
  let tq := tradeQtyOf t e
  let sb2 := hincrDepth sb1 bp (-tq)
  let book2 := book1.setSide opp sb2
  let book3 := { book2 with orders := hsetA book2.orders mk (makerEntryAfter e t) }
  let sb3 := setLevel (book3.side opp) bp (mk :: getLevel (book3.side opp) bp)
  let book4 := book3.setSide opp sb3
  let emptied := (getLevel (book4.side opp) bp).length = 0
  [Effect.lpopEff opp bp mk,
   Effect.createTradeEff (tradeOf t bp mk e),
   Effect.depthEff opp bp (-tq),
   Effect.hsetOrderEff mk (makerEntryAfter e t),
   Effect.lpushEff opp bp mk,
   Effect.updateStatusEff mk OrderStatus.partially_filled
     (e.total_filled_quantity + tq),
   Effect.updateStatusEff t.order_id OrderStatus.partially_filled
     (t.filled_quantity + tq)] ++
    (if emptied then [Effect.zremEff opp bp] else [])

theorem tradeExecCases (t : TakerOrder) (st : EngineState) (bp : ℚ) (mk : OrderId)
    (rest : List OrderId) (e : BookEntry) :
    (tradeQtyOf t e ≤ EPSILON ∧
      tradeExec t st bp mk rest e = ⟨true, t,
        { st with book := (st.book.setSide (opposingSideOf t.side)
            (setLevel (st.book.side (opposingSideOf t.side)) bp rest)) },
        [Effect.lpopEff (opposingSideOf t.side) bp mk]⟩) ∨
    (EPSILON < tradeQtyOf t e ∧ e.quantity - tradeQtyOf t e ≤ EPSILON ∧
      tradeExec t st bp mk rest e =
        ⟨true, takerAfter t e, filledState t st bp mk rest e,
          filledTrace t st bp mk rest e⟩) ∨
    (EPSILON < tradeQtyOf t e ∧ EPSILON < e.quantity - tradeQtyOf t e ∧
      tradeExec t st bp mk rest e =
        ⟨true, takerAfter t e, partialState t st bp mk rest e,
          partialTrace t st bp mk rest e⟩) := by
  by_cases htiny : tradeQtyOf t e ≤ EPSILON
  · left
    refine ⟨htiny, ?_⟩
    have h1 : min (t.quantity - t.filled_quantity) e.quantity ≤ EPSILON := htiny
    simp only [tradeExec]
    rw [if_pos h1]
  · have h1 : ¬ min (t.quantity - t.filled_quantity) e.quantity ≤ EPSILON := htiny
    by_cases hrem : e.quantity - tradeQtyOf t e ≤ EPSILON
    · right; left
      refine ⟨lt_of_not_le htiny, hrem, ?_⟩
      have h2 : e.quantity - min (t.quantity - t.filled_quantity) e.quantity ≤
          EPSILON := hrem
      simp only [tradeExec]
      rw [if_neg h1, if_pos h2]
      rfl
    · right; right
      refine ⟨lt_of_not_le htiny, lt_of_not_le hrem, ?_⟩
      have h2 : ¬ e.quantity - min (t.quantity - t.filled_quantity) e.quantity ≤
          EPSILON := hrem
      simp only [tradeExec]
      rw [if_neg h1, if_neg h2]
      rfl

theorem matchIterCases (t : TakerOrder) (st : EngineState) :
    ((bestPriceOf st.book (opposingSideOf t.side) = none ∨
      ∃ bp, bestPriceOf st.book (opposingSideOf t.side) = some bp ∧
        t.type = OrderType.limit ∧ canMatchLimit t bp = false) ∧
      matchIter t st = ⟨false, t, st, []⟩) ∨
    (∃ bp, bestPriceOf st.book (opposingSideOf t.side) = some bp ∧
      ¬(t.type = OrderType.limit ∧ canMatchLimit t bp = false) ∧
      getLevel (st.book.side (opposingSideOf t.side)) bp = [] ∧
      matchIter t st = ⟨true, t,
        { st with book := (st.book.setSide (opposingSideOf t.side)
            (zrem (st.book.side (opposingSideOf t.side)) bp)) },
        [Effect.zremEff (opposingSideOf t.side) bp]⟩) ∨
    (∃ bp mk rest, bestPriceOf st.book (opposingSideOf t.side) = some bp ∧
      ¬(t.type = OrderType.limit ∧ canMatchLimit t bp = false) ∧
      getLevel (st.book.side (opposingSideOf t.side)) bp = mk :: rest ∧
      alookup st.book.orders mk = none ∧
      matchIter t st = ⟨true, t,
        { st with book := (st.book.setSide (opposingSideOf t.side)
            (setLevel (st.book.side (opposingSideOf t.side)) bp rest)) },
        [Effect.lpopEff (opposingSideOf t.side) bp mk]⟩) ∨
    (∃ bp mk rest e, bestPriceOf st.book (opposingSideOf t.side) = some bp ∧
      ¬(t.type = OrderType.limit ∧ canMatchLimit t bp = false) ∧
      getLevel (st.book.side (opposingSideOf t.side)) bp = mk :: rest ∧
      alookup st.book.orders mk = some e ∧
      matchIter t st = tradeExec t st bp mk rest e) := by
  simp only [matchIter]
  cases hbp : bestPriceOf st.book (opposingSideOf t.side) with
  | none => exact Or.inl ⟨Or.inl rfl, rfl⟩
  | some bp =>
      dsimp only
      by_cases hguard : t.type = OrderType.limit ∧ canMatchLimit t bp = false
      · rw [if_pos hguard]
        exact Or.inl ⟨Or.inr ⟨bp, rfl, hguard⟩, rfl⟩
      · rw [if_neg hguard]
        cases hlv : getLevel (st.book.side (opposingSideOf t.side)) bp with
        | nil =>
            exact Or.inr (Or.inl ⟨bp, rfl, hguard, hlv, rfl⟩)
        | cons mk rest =>
            dsimp only
            cases hmk : alookup st.book.orders mk with
            | none =>
                exact Or.inr (Or.inr (Or.inl ⟨bp, mk, rest, rfl, hguard, hlv, hmk, rfl⟩))
            | some e =>
                exact Or.inr (Or.inr (Or.inr ⟨bp, mk, rest, e, rfl, hguard, hlv, hmk, rfl⟩))

theorem getOrderById_createTrade (lg : Ledger) (td : Trade) (k : OrderId) :
    getOrderById (createTrade lg td) k = getOrderById lg k := rfl

theorem side_orders_update (b : Book) (o : List (OrderId × BookEntry))
    (bs : BookSide) : ({ b with orders := o } : Book).side bs = b.side bs := by
  cases bs <;> rfl

theorem filledState_orders (t : TakerOrder) (st : EngineState) (bp : ℚ)
    (mk : OrderId) (rest : List OrderId) (e : BookEntry) :
    (filledState t st bp mk rest e).book.orders = hdelA st.book.orders mk := by
  simp only [filledState]
  split
  · rw [orders_setSide]
    show hdelA (((st.book.setSide _ _).setSide _ _).orders) mk = _
    rw [orders_setSide, orders_setSide]
  · show hdelA (((st.book.setSide _ _).setSide _ _).orders) mk = _
    rw [orders_setSide, orders_setSide]

theorem partialState_orders (t : TakerOrder) (st : EngineState) (bp : ℚ)
    (mk : OrderId) (rest : List OrderId) (e : BookEntry) :
    (partialState t st bp mk rest e).book.orders =
      hsetA st.book.orders mk (makerEntryAfter e t) := by
  simp only [partialState]
  split
  · rw [orders_setSide, orders_setSide]
    show hsetA (((st.book.setSide _ _).setSide _ _).orders) mk _ = _
    rw [orders_setSide, orders_setSide]
  · rw [orders_setSide]
    show hsetA (((st.book.setSide _ _).setSide _ _).orders) mk _ = _
    rw [orders_setSide, orders_setSide]

theorem filledState_ledger (t : TakerOrder) (st : EngineState) (bp : ℚ)
    (mk : OrderId) (rest : List OrderId) (e : BookEntry) :
    (filledState t st bp mk rest e).ledger =
      updateOrderStatus
        (updateOrderStatus (createTrade st.ledger (tradeOf t bp mk e)) mk
          OrderStatus.filled (e.total_filled_quantity + tradeQtyOf t e))
        t.order_id OrderStatus.partially_filled
        (t.filled_quantity + tradeQtyOf t e) := rfl

theorem partialState_ledger (t : TakerOrder) (st : EngineState) (bp : ℚ)
    (mk : OrderId) (rest : List OrderId) (e : BookEntry) :
    (partialState t st bp mk rest e).ledger =
      updateOrderStatus
        (updateOrderStatus (createTrade st.ledger (tradeOf t bp mk e)) mk
          OrderStatus.partially_filled (e.total_filled_quantity + tradeQtyOf t e))
        t.order_id OrderStatus.partially_filled
        (t.filled_quantity + tradeQtyOf t e) := rfl

theorem matchIter_taker (t : TakerOrder) (st : EngineState) :
    (matchIter t st).taker = t ∨
      ∃ e, (matchIter t st).taker = takerAfter t e ∧ EPSILON < tradeQtyOf t e ∧
        tradeQtyOf t e ≤ t.quantity - t.filled_quantity := by
  rcases matchIterCases t st with ⟨_, hE⟩ | ⟨bp, _, _, _, hE⟩ |
    ⟨bp, mk, rest, _, _, _, _, hE⟩ | ⟨bp, mk, rest, e, _, _, _, _, hE⟩
  · left; rw [hE]
  · left; rw [hE]
  · left; rw [hE]
  · rcases tradeExecCases t st bp mk rest e with ⟨_, hT⟩ | ⟨h1, _, hT⟩ | ⟨h1, _, hT⟩
    · left; rw [hE, hT]
    · right; exact ⟨e, by rw [hE, hT], h1, min_le_left _ _⟩
    · right; exact ⟨e, by rw [hE, hT], h1, min_le_left _ _⟩

theorem matchIter_ledger (t : TakerOrder) (st : EngineState) (id : OrderId) :
    (getOrderById (matchIter t st).st.ledger id).map rowCore =
      (getOrderById st.ledger id).map rowCore := by
  rcases matchIterCases t st with ⟨_, hE⟩ | ⟨bp, _, _, _, hE⟩ |
    ⟨bp, mk, rest, _, _, _, _, hE⟩ | ⟨bp, mk, rest, e, _, _, _, _, hE⟩
  · rw [hE]
  · rw [hE]
  · rw [hE]
  · rcases tradeExecCases t st bp mk rest e with ⟨_, hT⟩ | ⟨_, _, hT⟩ | ⟨_, _, hT⟩
    · rw [hE, hT]
    · rw [hE, hT]
      show (getOrderById (filledState t st bp mk rest e).ledger id).map rowCore = _
      rw [filledState_ledger, rowCore_updateOrderStatus, rowCore_updateOrderStatus,
        getOrderById_createTrade]
    · rw [hE, hT]
      show (getOrderById (partialState t st bp mk rest e).ledger id).map rowCore = _
      rw [partialState_ledger, rowCore_updateOrderStatus, rowCore_updateOrderStatus,
        getOrderById_createTrade]

theorem matchIter_unmapped (t : TakerOrder) (st : EngineState) (i : OrderId)
    (h : alookup st.book.orders i = none) :
    alookup (matchIter t st).st.book.orders i = none := by
  rcases matchIterCases t st with ⟨_, hE⟩ | ⟨bp, _, _, _, hE⟩ |
    ⟨bp, mk, rest, _, _, _, _, hE⟩ | ⟨bp, mk, rest, e, _, _, _, hmk, hE⟩
  · rw [hE]; exact h
  · rw [hE]
    show alookup (st.book.setSide _ _).orders i = none
    rw [orders_setSide]; exact h
  · rw [hE]
    show alookup (st.book.setSide _ _).orders i = none
    rw [orders_setSide]; exact h
  · rcases tradeExecCases t st bp mk rest e with ⟨_, hT⟩ | ⟨_, _, hT⟩ | ⟨_, _, hT⟩
    · rw [hE, hT]
      show alookup (st.book.setSide _ _).orders i = none
      rw [orders_setSide]; exact h
    · rw [hE, hT]
      show alookup (filledState t st bp mk rest e).book.orders i = none
      rw [filledState_orders]
      by_cases hi : i = mk
      · subst hi; exact alookup_hdelA_self _ _
      · rw [alookup_hdelA_ne _ _ _ hi]; exact h
    · rw [hE, hT]
      show alookup (partialState t st bp mk rest e).book.orders i = none
      rw [partialState_orders]
      have hi : i ≠ mk := by
        intro hi
        subst hi
        rw [h] at hmk
        exact Option.noConfusion hmk
      rw [alookup_hsetA_ne _ _ _ _ hi]; exact h

theorem matchIter_none (t : TakerOrder) (st : EngineState)
    (h : bestPriceOf st.book (opposingSideOf t.side) = none) :
    matchIter t st = ⟨false, t, st, []⟩ := by
  simp only [matchIter]
  rw [h]

theorem takerAfter_eq (t : TakerOrder) (e : BookEntry) :
    takerAfter t e =
      { t with filled_quantity := t.filled_quantity + tradeQtyOf t e } := rfl

theorem loop_taker (fuel : Nat) (t : TakerOrder) (st : EngineState) :
    (processMatchingLoop fuel t st).1 =
      { t with filled_quantity := (processMatchingLoop fuel t st).1.filled_quantity } ∧
    t.filled_quantity ≤ (processMatchingLoop fuel t st).1.filled_quantity ∧
    (t.filled_quantity ≤ t.quantity →
      (processMatchingLoop fuel t st).1.filled_quantity ≤ t.quantity) := by
  induction fuel generalizing t st with
  | zero => exact ⟨rfl, le_refl _, fun h => h⟩
  | succ n ih =>
      simp only [processMatchingLoop]
      split
      · split
        · dsimp only
          rcases matchIter_taker t st with hr | ⟨e, hr, hq, hle⟩
          · rw [hr]
            exact ih t (matchIter t st).st
          · rw [hr]
            rcases ih (takerAfter t e) (matchIter t st).st with ⟨h1a, h1b, h1c⟩
            have hfe : (takerAfter t e).filled_quantity =
                t.filled_quantity + tradeQtyOf t e := rfl
            have hqe : (takerAfter t e).quantity = t.quantity := rfl
            refine ⟨?_, ?_, ?_⟩
            · rw [h1a]; rfl
            · have h2 : t.filled_quantity ≤ (takerAfter t e).filled_quantity := by
                rw [hfe]
                have := EPSILON_pos
                linarith
              exact le_trans h2 h1b
            · intro hb
              have h2 : (takerAfter t e).filled_quantity ≤ (takerAfter t e).quantity := by
                rw [hfe, hqe]
                linarith
              have h3 := h1c h2
              rwa [hqe] at h3
        · dsimp only
          rcases matchIter_taker t st with hr | ⟨e, hr, hq, hle⟩
          · rw [hr]
            exact ⟨rfl, le_refl _, fun h => h⟩
          · rw [hr]
            have hfe : (takerAfter t e).filled_quantity =
                t.filled_quantity + tradeQtyOf t e := rfl
            have := EPSILON_pos
            refine ⟨rfl, by rw [hfe]; linarith, fun hb => by rw [hfe]; linarith⟩
      · exact ⟨rfl, le_refl _, fun h => h⟩

theorem loop_ledger (fuel : Nat) (t : TakerOrder) (st : EngineState) (id : OrderId) :
    (getOrderById (processMatchingLoop fuel t st).2.1.ledger id).map rowCore =
      (getOrderById st.ledger id).map rowCore := by
  induction fuel generalizing t st with
  | zero => rfl
  | succ n ih =>
      simp only [processMatchingLoop]
      split
      · split
        · rw [ih (matchIter t st).taker (matchIter t st).st]
          exact matchIter_ledger t st id
        · exact matchIter_ledger t st id
      · rfl

theorem loop_unmapped (fuel : Nat) (t : TakerOrder) (st : EngineState) (i : OrderId)
    (h : alookup st.book.orders i = none) :
    alookup (processMatchingLoop fuel t st).2.1.book.orders i = none := by
  induction fuel generalizing t st with
  | zero => exact h
  | succ n ih =>
      simp only [processMatchingLoop]
      split
      · split
        · exact ih (matchIter t st).taker (matchIter t st).st
            (matchIter_unmapped t st i h)
        · exact matchIter_unmapped t st i h
      · exact h

theorem loop_bestNone (fuel : Nat) (t : TakerOrder) (st : EngineState)
    (h : bestPriceOf st.book (opposingSideOf t.side) = none) :
    processMatchingLoop fuel t st = (t, st, []) := by
  cases fuel with
  | zero => rfl
  | succ n =>
      simp only [processMatchingLoop]
      split
      · rw [matchIter_none t st h]
        simp
      · rfl

theorem ntanp_filledTrace (t : TakerOrder) (st : EngineState) (bp : ℚ)
    (mk : OrderId) (rest : List OrderId) (e : BookEntry) :
    noTradeAfterNonPopMutation (filledTrace t st bp mk rest e) = true := by
  simp only [filledTrace]
  split <;>
    simp [noTradeAfterNonPopMutation, nonPopMutation, isCreateTradeEff]

theorem ntanp_partialTrace (t : TakerOrder) (st : EngineState) (bp : ℚ)
    (mk : OrderId) (rest : List OrderId) (e : BookEntry) :
    noTradeAfterNonPopMutation (partialTrace t st bp mk rest e) = true := by
  simp only [partialTrace]
  split <;>
    simp [noTradeAfterNonPopMutation, nonPopMutation, isCreateTradeEff]

theorem popSeen_filledTrace (t : TakerOrder) (st : EngineState) (bp : ℚ)
    (mk : OrderId) (rest : List OrderId) (e : BookEntry) :
    popSeen false (filledTrace t st bp mk rest e) = true := by
  simp only [filledTrace]
  split <;> simp [popSeen, isCreateTradeEff, isPopEff]

theorem popSeen_partialTrace (t : TakerOrder) (st : EngineState) (bp : ℚ)
    (mk : OrderId) (rest : List OrderId) (e : BookEntry) :
    popSeen false (partialTrace t st bp mk rest e) = true := by
  simp only [partialTrace]
  split <;> simp [popSeen, isCreateTradeEff, isPopEff]

/-- C1 (amended): within every trade step, the ledger create_trade precedes
every maker book mutation except the pop of the maker from its price-level
sequence: no maker order-map rewrite or deletion, reinsertion, or depth
update precedes the trade, and the pop precedes every create_trade. -/
theorem C1_create_trade_ordering (t : TakerOrder) (st : EngineState) :
    noTradeAfterNonPopMutation (matchIter t st).trace = true ∧
    popSeen false (matchIter t st).trace = true := by
  rcases matchIterCases t st with ⟨_, hE⟩ | ⟨bp, _, _, _, hE⟩ |
    ⟨bp, mk, rest, _, _, _, _, hE⟩ | ⟨bp, mk, rest, e, _, _, _, _, hE⟩
  · rw [hE]
    exact ⟨rfl, rfl⟩
  · rw [hE]
    exact ⟨rfl, rfl⟩
  · rw [hE]
    exact ⟨rfl, rfl⟩
  · rcases tradeExecCases t st bp mk rest e with ⟨_, hT⟩ | ⟨_, _, hT⟩ | ⟨_, _, hT⟩
    · rw [hE, hT]
      exact ⟨rfl, rfl⟩
    · rw [hE, hT]
      exact ⟨ntanp_filledTrace t st bp mk rest e, popSeen_filledTrace t st bp mk rest e⟩
    · rw [hE, hT]
      exact ⟨ntanp_partialTrace t st bp mk rest e,
        popSeen_partialTrace t st bp mk rest e⟩

/-- C10: a cancel job for an order id absent from the book's order map
performs no write at all (the whole engine state is returned unchanged); a
market taker that exhausted an empty opposing book is left partially_filled
with its filled quantity unchanged and never rests on the book, Intake still
admits a cancel for it to the queue, and the cancel job then leaves its
ledger row partially_filled forever (never cancelled). -/
theorem C10_cancel_noop_market_stuck (st : EngineState) (t : TakerOrder)
    (fuel : Nat) (r : LedgerRow)
    (hmkt : t.type = OrderType.market)
    (hempty : bestPriceOf st.book (opposingSideOf t.side) = none)
    (hrem : EPSILON < t.quantity - t.filled_quantity)
    (hrow : getOrderById st.ledger t.order_id = some r)
    (habs : alookup st.book.orders t.order_id = none) :
    (∀ (s2 : EngineState) (i : OrderId),
      alookup s2.book.orders i = none → handleCancelJob s2 i = some s2) ∧
    matchMarketOrder fuel t st =
      { book := st.book,
        ledger := updateOrderStatus st.ledger t.order_id
          OrderStatus.partially_filled t.filled_quantity } ∧
    getOrderById (matchMarketOrder fuel t st).ledger t.order_id =
      some { r with
              status := OrderStatus.partially_filled
              filled_quantity := t.filled_quantity } ∧
    (∀ (ss : SystemState) (r2 : LedgerRow),
      getOrderById ss.ledger t.order_id = some r2 →
      r2.status = OrderStatus.partially_filled →
      (cancelOrder ss t.order_id).1 = CancelResult.accepted r2 ∧
      (cancelOrder ss t.order_id).2.queue =
        ss.queue ++ [Job.processCancellation t.order_id]) ∧
    handleCancelJob (matchMarketOrder fuel t st) t.order_id =
      some (matchMarketOrder fuel t st) := by
  have hnoop : ∀ (s2 : EngineState) (i : OrderId),
      alookup s2.book.orders i = none → handleCancelJob s2 i = some s2 := by
    intro s2 i h
    simp only [handleCancelJob]
    rw [h]
  have hmm : matchMarketOrder fuel t st =
      { book := st.book,
        ledger := updateOrderStatus st.ledger t.order_id
          OrderStatus.partially_filled t.filled_quantity } := by
    simp only [matchMarketOrder, loop_bestNone fuel t st hempty]
    rw [if_pos hrem]
  have hrow2 : getOrderById (matchMarketOrder fuel t st).ledger t.order_id =
      some { r with
              status := OrderStatus.partially_filled
              filled_quantity := t.filled_quantity } := by
    rw [hmm]
    show getOrderById (updateOrderStatus st.ledger t.order_id
      OrderStatus.partially_filled t.filled_quantity) t.order_id = _
    rw [getOrderById_updateOrderStatus, if_pos rfl, hrow]
    rfl
  have hintake : ∀ (ss : SystemState) (r2 : LedgerRow),
      getOrderById ss.ledger t.order_id = some r2 →
      r2.status = OrderStatus.partially_filled →
      (cancelOrder ss t.order_id).1 = CancelResult.accepted r2 ∧
      (cancelOrder ss t.order_id).2.queue =
        ss.queue ++ [Job.processCancellation t.order_id] := by
    intro ss r2 h2 hst
    have hterm : ¬(r2.status = OrderStatus.filled ∨
        r2.status = OrderStatus.cancelled ∨ r2.status = OrderStatus.rejected) := by
      rw [hst]
      intro hc
      rcases hc with hc | hc | hc <;> exact OrderStatus.noConfusion hc
    simp only [cancelOrder]
    rw [h2]
    dsimp only
    rw [if_neg hterm]
    exact ⟨rfl, rfl⟩
  refine ⟨hnoop, hmm, hrow2, hintake, ?_⟩
  apply hnoop
  rw [hmm]
  exact habs

theorem listMinQ_le (l : List ℚ) (p : ℚ) (h : listMinQ l = some p) :
    ∀ q ∈ l, p ≤ q := by
  induction l generalizing p with
  | nil => simp [listMinQ] at h
  | cons a rest ih =>
      intro q hq
      simp only [listMinQ] at h
      cases hr : listMinQ rest with
      | none =>
          rw [hr] at h
          simp at h
          cases rest with
          | nil =>
              rcases List.mem_cons.1 hq with h1 | h1
              · subst h1; rw [← h]
              · simp at h1
          | cons b r2 => simp [listMinQ] at hr; cases hr2 : listMinQ r2 <;>
              rw [hr2] at hr <;> simp at hr
      | some m =>
          rw [hr] at h
          simp at h
          rcases List.mem_cons.1 hq with h1 | h1
          · subst h1
            rw [← h]
            exact min_le_left _ _
          · have := ih m hr q h1
            rw [← h]
            exact le_trans (min_le_right _ _) this

theorem listMaxQ_ge (l : List ℚ) (p : ℚ) (h : listMaxQ l = some p) :
    ∀ q ∈ l, q ≤ p := by
  induction l generalizing p with
  | nil => simp [listMaxQ] at h
  | cons a rest ih =>
      intro q hq
      simp only [listMaxQ] at h
      cases hr : listMaxQ rest with
      | none =>
          rw [hr] at h
          simp at h
          cases rest with
          | nil =>
              rcases List.mem_cons.1 hq with h1 | h1
              · subst h1; rw [← h]
              · simp at h1
          | cons b r2 => simp [listMaxQ] at hr; cases hr2 : listMaxQ r2 <;>
              rw [hr2] at hr <;> simp at hr
      | some m =>
          rw [hr] at h
          simp at h
          rcases List.mem_cons.1 hq with h1 | h1
          · subst h1
            rw [← h]
            exact le_max_left _ _
          · have := ih m hr q h1
            rw [← h]
            exact le_trans this (le_max_right _ _)

theorem bestPrice_min (b : Book) (s : Side) (bp : ℚ)
    (h : bestPriceOf b (opposingSideOf s) = some bp) :
    ∀ q ∈ (b.side (opposingSideOf s)).prices,
      (s = Side.buy → bp ≤ q) ∧ (s = Side.sell → q ≤ bp) := by
  intro q hq
  cases s with
  | buy =>
      simp only [opposingSideOf, bestPriceOf, Book.side] at h hq
      exact ⟨fun _ => listMinQ_le _ _ h q hq, fun hc => Side.noConfusion hc⟩
  | sell =>
      simp only [opposingSideOf, bestPriceOf, Book.side] at h hq
      exact ⟨fun hc => Side.noConfusion hc, fun _ => listMaxQ_ge _ _ h q hq⟩

theorem makerOfTrade_tradeOf (t : TakerOrder) (bp : ℚ) (mk : OrderId)
    (e : BookEntry) : makerOfTrade t.side (tradeOf t bp mk e) = mk := by
  cases hs : t.side <;> simp [makerOfTrade, tradeOf, hs]

theorem trades_filledTrace (t : TakerOrder) (st : EngineState) (bp : ℚ)
    (mk : OrderId) (rest : List OrderId) (e : BookEntry) (td : Trade)
    (h : Effect.createTradeEff td ∈ filledTrace t st bp mk rest e) :
    td = tradeOf t bp mk e := by
  simp only [filledTrace] at h
  split at h <;> simpa using h

theorem trades_partialTrace (t : TakerOrder) (st : EngineState) (bp : ℚ)
    (mk : OrderId) (rest : List OrderId) (e : BookEntry) (td : Trade)
    (h : Effect.createTradeEff td ∈ partialTrace t st bp mk rest e) :
    td = tradeOf t bp mk e := by
  simp only [partialTrace] at h
  split at h <;> simpa using h

theorem no_lpush_filledTrace (t : TakerOrder) (st : EngineState) (bp : ℚ)
    (mk : OrderId) (rest : List OrderId) (e : BookEntry) (bs : BookSide)
    (p : ℚ) (i : OrderId) :
    Effect.lpushEff bs p i ∉ filledTrace t st bp mk rest e := by
  simp only [filledTrace]
  split <;> simp

theorem partialState_level (t : TakerOrder) (st : EngineState) (bp : ℚ)
    (mk : OrderId) (rest : List OrderId) (e : BookEntry) :
    getLevel ((partialState t st bp mk rest e).book.side (opposingSideOf t.side)) bp
      = mk :: rest := by
  simp only [partialState]
  simp only [side_setSide_self, side_orders_update, getLevel_setLevel_self,
    getLevel_hincrDepth]
  simp [side_setSide_self, getLevel_setLevel_self]

/-- C2: in every iteration of the matching loop that records a trade, the
chosen maker is the head of the FIFO sequence of the opposing side's level at
the trade price; that price is the best price of the opposing index (least
price among asks for a buy taker, greatest among bids for a sell taker); and
a maker reinserted by a partial fill (the LPUSH) is again the head of that
level in the resulting state. -/
theorem C2_price_time_priority (t : TakerOrder) (st : EngineState) (td : Trade)
    (hmem : Effect.createTradeEff td ∈ (matchIter t st).trace) :
    ∃ mk rest e,
      getLevel (st.book.side (opposingSideOf t.side)) td.price = mk :: rest ∧
      bestPriceOf st.book (opposingSideOf t.side) = some td.price ∧
      (∀ q ∈ (st.book.side (opposingSideOf t.side)).prices,
        (t.side = Side.buy → td.price ≤ q) ∧ (t.side = Side.sell → q ≤ td.price)) ∧
      makerOfTrade t.side td = mk ∧
      alookup st.book.orders mk = some e ∧
      (Effect.lpushEff (opposingSideOf t.side) td.price mk ∈ (matchIter t st).trace →
        getLevel ((matchIter t st).st.book.side (opposingSideOf t.side)) td.price =
          mk :: rest) := by
  rcases matchIterCases t st with ⟨_, hE⟩ | ⟨bp, _, _, _, hE⟩ |
    ⟨bp, mk, rest, _, _, _, _, hE⟩ | ⟨bp, mk, rest, e, hbp, _, hlv, hmk, hE⟩
  · rw [hE] at hmem; simp at hmem
  · rw [hE] at hmem; simp at hmem
  · rw [hE] at hmem; simp at hmem
  · rcases tradeExecCases t st bp mk rest e with ⟨_, hT⟩ | ⟨_, _, hT⟩ | ⟨_, _, hT⟩
    · rw [hE, hT] at hmem; simp at hmem
    · rw [hE, hT] at hmem
      have htd : td = tradeOf t bp mk e :=
        trades_filledTrace t st bp mk rest e td hmem
      have hprice : td.price = bp := by rw [htd]; rfl
      refine ⟨mk, rest, e, ?_, ?_, ?_, ?_, hmk, ?_⟩
      · rw [hprice]; exact hlv
      · rw [hprice]; exact hbp
      · rw [hprice]; exact bestPrice_min st.book t.side bp hbp
      · rw [htd]; exact makerOfTrade_tradeOf t bp mk e
      · intro hpush
        rw [hE, hT] at hpush
        exact absurd hpush (no_lpush_filledTrace t st bp mk rest e _ _ _)
    · rw [hE, hT] at hmem
      have htd : td = tradeOf t bp mk e :=
        trades_partialTrace t st bp mk rest e td hmem
      have hprice : td.price = bp := by rw [htd]; rfl
      refine ⟨mk, rest, e, ?_, ?_, ?_, ?_, hmk, ?_⟩
      · rw [hprice]; exact hlv
      · rw [hprice]; exact hbp
      · rw [hprice]; exact bestPrice_min st.book t.side bp hbp
      · rw [htd]; exact makerOfTrade_tradeOf t bp mk e
      · intro _
        rw [hE, hT, hprice]
        exact partialState_level t st bp mk rest e

theorem cfpStep_non_create (s : Side) (q : Option Effect) (e : Effect)
    (h : ∀ td, e ≠ Effect.createTradeEff td) : cfpStep s q e = true := by
  cases e <;> first | rfl | exact absurd rfl (h _)

theorem cfpAux_append (s : Side) (prev : Option Effect) (a b : List Effect) :
    cfpAux s prev (a ++ b) = (cfpAux s prev a && cfpAux s (lastPrev prev a) b) := by
  induction a generalizing prev with
  | nil => simp [cfpAux, lastPrev]
  | cons e a2 ih => simp [cfpAux, lastPrev, ih, Bool.and_assoc]

theorem cfpAux_indep (s : Side) (q q2 : Option Effect) (b : List Effect)
    (hb : ∀ td, b.head? ≠ some (Effect.createTradeEff td)) :
    cfpAux s q b = cfpAux s q2 b := by
  cases b with
  | nil => rfl
  | cons e rest =>
      have he : ∀ td, e ≠ Effect.createTradeEff td := by
        intro td hc
        exact hb td (by rw [hc]; rfl)
      simp only [cfpAux, cfpStep_non_create s q e he, cfpStep_non_create s q2 e he]

theorem cfp_filledTrace (t : TakerOrder) (st : EngineState) (bp : ℚ)
    (mk : OrderId) (rest : List OrderId) (e : BookEntry) :
    createFollowsPop t.side (filledTrace t st bp mk rest e) = true := by
  simp only [createFollowsPop, filledTrace]
  cases hs : t.side <;> split <;>
    simp [cfpAux, cfpStep, tradeOf, makerOfTrade, hs, tradeQtyOf]

theorem cfp_partialTrace (t : TakerOrder) (st : EngineState) (bp : ℚ)
    (mk : OrderId) (rest : List OrderId) (e : BookEntry) :
    createFollowsPop t.side (partialTrace t st bp mk rest e) = true := by
  simp only [createFollowsPop, partialTrace]
  cases hs : t.side <;> split <;>
    simp [cfpAux, cfpStep, tradeOf, makerOfTrade, hs, tradeQtyOf]

theorem matchIter_trace_head (t : TakerOrder) (st : EngineState) (td : Trade) :
    (matchIter t st).trace.head? ≠ some (Effect.createTradeEff td) := by
  rcases matchIterCases t st with ⟨_, hE⟩ | ⟨bp, _, _, _, hE⟩ |
    ⟨bp, mk, rest, _, _, _, _, hE⟩ | ⟨bp, mk, rest, e, _, _, _, _, hE⟩
  · rw [hE]; simp
  · rw [hE]; simp
  · rw [hE]; simp
  · rcases tradeExecCases t st bp mk rest e with ⟨_, hT⟩ | ⟨_, _, hT⟩ | ⟨_, _, hT⟩
    · rw [hE, hT]; simp
    · rw [hE, hT]; simp [filledTrace]
    · rw [hE, hT]; simp [partialTrace]

theorem matchIter_cfp (t : TakerOrder) (st : EngineState) :
    createFollowsPop t.side (matchIter t st).trace = true := by
  rcases matchIterCases t st with ⟨_, hE⟩ | ⟨bp, _, _, _, hE⟩ |
    ⟨bp, mk, rest, _, _, _, _, hE⟩ | ⟨bp, mk, rest, e, _, _, _, _, hE⟩
  · rw [hE]; rfl
  · rw [hE]; rfl
  · rw [hE]; rfl
  · rcases tradeExecCases t st bp mk rest e with ⟨_, hT⟩ | ⟨_, _, hT⟩ | ⟨_, _, hT⟩
    · rw [hE, hT]; rfl
    · rw [hE, hT]; exact cfp_filledTrace t st bp mk rest e
    · rw [hE, hT]; exact cfp_partialTrace t st bp mk rest e

theorem loop_trace_head (fuel : Nat) (t : TakerOrder) (st : EngineState)
    (td : Trade) :
    (processMatchingLoop fuel t st).2.2.head? ≠ some (Effect.createTradeEff td) := by
  induction fuel generalizing t st with
  | zero => simp [processMatchingLoop]
  | succ n ih =>
      simp only [processMatchingLoop]
      split
      · split
        · dsimp only
          cases htr : (matchIter t st).trace with
          | nil =>
              simp only [List.nil_append]
              exact ih (matchIter t st).taker (matchIter t st).st
          | cons x rest =>
              have := matchIter_trace_head t st td
              rw [htr] at this
              simpa using this
        · exact matchIter_trace_head t st td
      · simp

theorem matchIter_taker_side (t : TakerOrder) (st : EngineState) :
    (matchIter t st).taker.side = t.side ∧
    (matchIter t st).taker.type = t.type ∧
    (matchIter t st).taker.price = t.price := by
  rcases matchIter_taker t st with hr | ⟨e, hr, _, _⟩
  · rw [hr]; exact ⟨rfl, rfl, rfl⟩
  · rw [hr]; exact ⟨rfl, rfl, rfl⟩

theorem loop_cfp (fuel : Nat) (t : TakerOrder) (st : EngineState) :
    createFollowsPop t.side (processMatchingLoop fuel t st).2.2 = true := by
  induction fuel generalizing t st with
  | zero => rfl
  | succ n ih =>
      simp only [processMatchingLoop]
      split
      · split
        · dsimp only
          rw [createFollowsPop, cfpAux_append]
          have h1 : cfpAux t.side none (matchIter t st).trace = true :=
            matchIter_cfp t st
          have h2 := ih (matchIter t st).taker (matchIter t st).st
          rw [createFollowsPop, (matchIter_taker_side t st).1] at h2
          have h3 := cfpAux_indep t.side
            (lastPrev none (matchIter t st).trace) none
            (processMatchingLoop n (matchIter t st).taker (matchIter t st).st).2.2
            (fun td => loop_trace_head n (matchIter t st).taker (matchIter t st).st td)
          rw [h1, h3, h2]
          rfl
        · exact matchIter_cfp t st
      · rfl

theorem matchIter_trade_guard (t : TakerOrder) (st : EngineState) (td : Trade)
    (hlim : t.type = OrderType.limit)
    (hmem : Effect.createTradeEff td ∈ (matchIter t st).trace) :
    (t.side = Side.buy → td.price ≤ t.price.getD 0) ∧
    (t.side = Side.sell → t.price.getD 0 ≤ td.price) := by
  rcases matchIterCases t st with ⟨_, hE⟩ | ⟨bp, _, _, _, hE⟩ |
    ⟨bp, mk, rest, _, _, _, _, hE⟩ | ⟨bp, mk, rest, e, hbp, hguard, hlv, hmk, hE⟩
  · rw [hE] at hmem; simp at hmem
  · rw [hE] at hmem; simp at hmem
  · rw [hE] at hmem; simp at hmem
  · have hcm : canMatchLimit t bp = true := by
      cases hcm2 : canMatchLimit t bp
      · exact absurd ⟨hlim, hcm2⟩ hguard
      · rfl
    have htd : td = tradeOf t bp mk e := by
      rcases tradeExecCases t st bp mk rest e with ⟨_, hT⟩ | ⟨_, _, hT⟩ | ⟨_, _, hT⟩
      · rw [hE, hT] at hmem; simp at hmem
      · rw [hE, hT] at hmem
        exact trades_filledTrace t st bp mk rest e td hmem
      · rw [hE, hT] at hmem
        exact trades_partialTrace t st bp mk rest e td hmem
    have hprice : td.price = bp := by rw [htd]; rfl
    cases hs : t.side
    · refine ⟨fun _ => ?_, fun hc => Side.noConfusion hc⟩
      rw [canMatchLimit, hs] at hcm
      rw [hprice]
      exact of_decide_eq_true hcm
    · refine ⟨fun hc => Side.noConfusion hc, fun _ => ?_⟩
      rw [canMatchLimit, hs] at hcm
      rw [hprice]
      exact of_decide_eq_true hcm

/-- C3: for a limit taker, every trade recorded by the matching loop has a
price within the taker's limit (at most the limit for a buy, at least the
limit for a sell), and every create_trade is immediately preceded in the
step's effect sequence by the pop of its maker at exactly the trade's price
(the trade price is the maker level's price). -/
theorem C3_limit_price_guard (fuel : Nat) (t : TakerOrder) (st : EngineState)
    (hlim : t.type = OrderType.limit) :
    (∀ td, Effect.createTradeEff td ∈ (processMatchingLoop fuel t st).2.2 →
      (t.side = Side.buy → td.price ≤ t.price.getD 0) ∧
      (t.side = Side.sell → t.price.getD 0 ≤ td.price)) ∧
    createFollowsPop t.side (processMatchingLoop fuel t st).2.2 = true := by
  refine ⟨?_, loop_cfp fuel t st⟩
  induction fuel generalizing t st with
  | zero => intro td hmem; simp [processMatchingLoop] at hmem
  | succ n ih =>
      intro td hmem
      simp only [processMatchingLoop] at hmem
      split at hmem
      · split at hmem
        · dsimp only at hmem
          rcases List.mem_append.1 hmem with hm | hm
          · exact matchIter_trade_guard t st td hlim hm
          · have hside := matchIter_taker_side t st
            have h2 := ih (matchIter t st).taker (matchIter t st).st
              (by rw [hside.2.1]; exact hlim) td hm
            rw [hside.1, hside.2.2] at h2
            exact h2
        · dsimp only at hmem
          exact matchIter_trade_guard t st td hlim hmem
      · simp at hmem

theorem addOrderToBook_level (st : EngineState) (o : RestingOrder) :
    getLevel ((addOrderToBook st o).book.side (bookSideOf o.side)) o.price =
      getLevel (st.book.side (bookSideOf o.side)) o.price ++ [o.order_id] := by
  simp only [addOrderToBook]
  rw [side_orders_update, side_setSide_self, getLevel_hincrDepth,
    getLevel_setLevel_self, getLevel_zadd]

theorem addOrderToBook_orders (st : EngineState) (o : RestingOrder) :
    (addOrderToBook st o).book.orders =
      hsetA st.book.orders o.order_id
        { client_id := o.client_id, quantity := o.quantity,
          created_at := o.created_at,
          total_filled_quantity := o.total_filled_quantity } := by
  simp only [addOrderToBook]
  rw [orders_setSide]

theorem addOrderToBook_ledger (st : EngineState) (o : RestingOrder) :
    (addOrderToBook st o).ledger = st.ledger := rfl

/-- C4: after the matching loop of a limit taker, if the remaining quantity
exceeds EPSILON the residual is appended at the tail of the taker's own
side's level at its limit price, the stored order-map entry carries the
remaining quantity and the accumulated filled quantity, and the ledger row
becomes partially_filled when any quantity was filled and open otherwise; if
the remaining quantity is at most EPSILON the ledger row becomes filled and
the book is left unchanged (the taker is not added). -/
theorem C4_limit_residual (fuel : Nat) (t : TakerOrder) (st : EngineState)
    (p : ℚ) (hlim : t.type = OrderType.limit) (hp : t.price = some p) :
    (EPSILON < (processMatchingLoop fuel t st).1.quantity -
        (processMatchingLoop fuel t st).1.filled_quantity →
      getLevel ((matchLimitOrder fuel t st).book.side (bookSideOf t.side)) p =
        getLevel ((processMatchingLoop fuel t st).2.1.book.side (bookSideOf t.side))
          p ++ [t.order_id] ∧
      alookup (matchLimitOrder fuel t st).book.orders t.order_id = some
        { client_id := t.client_id
          quantity := (processMatchingLoop fuel t st).1.quantity -
            (processMatchingLoop fuel t st).1.filled_quantity
          created_at := t.created_at
          total_filled_quantity := (processMatchingLoop fuel t st).1.filled_quantity } ∧
      (∀ r0, getOrderById (processMatchingLoop fuel t st).2.1.ledger t.order_id =
          some r0 →
        getOrderById (matchLimitOrder fuel t st).ledger t.order_id = some
          { r0 with
            status := if 0 < (processMatchingLoop fuel t st).1.filled_quantity
              then OrderStatus.partially_filled else OrderStatus.open_
            filled_quantity := (processMatchingLoop fuel t st).1.filled_quantity })) ∧
    ((processMatchingLoop fuel t st).1.quantity -
        (processMatchingLoop fuel t st).1.filled_quantity ≤ EPSILON →
      (matchLimitOrder fuel t st).book = (processMatchingLoop fuel t st).2.1.book ∧
      (∀ r0, getOrderById (processMatchingLoop fuel t st).2.1.ledger t.order_id =
          some r0 →
        getOrderById (matchLimitOrder fuel t st).ledger t.order_id = some
          { r0 with
            status := OrderStatus.filled
            filled_quantity := (processMatchingLoop fuel t st).1.filled_quantity })) := by
  obtain ⟨h1a, _, _⟩ := loop_taker fuel t st
  have hoid : (processMatchingLoop fuel t st).1.order_id = t.order_id := by
    rw [h1a]
  have hcid : (processMatchingLoop fuel t st).1.client_id = t.client_id := by
    rw [h1a]
  have hcat : (processMatchingLoop fuel t st).1.created_at = t.created_at := by
    rw [h1a]
  have hside : (processMatchingLoop fuel t st).1.side = t.side := by
    rw [h1a]
  have hpr : (processMatchingLoop fuel t st).1.price = some p := by
    rw [h1a]; exact hp
  constructor
  · intro hrem
    simp only [matchLimitOrder]
    rw [if_pos hrem]
    set RO : RestingOrder :=
      { order_id := (processMatchingLoop fuel t st).1.order_id
        price := (processMatchingLoop fuel t st).1.price.getD 0
        side := (processMatchingLoop fuel t st).1.side
        quantity := (processMatchingLoop fuel t st).1.quantity -
          (processMatchingLoop fuel t st).1.filled_quantity
        client_id := (processMatchingLoop fuel t st).1.client_id
        created_at := (processMatchingLoop fuel t st).1.created_at
        total_filled_quantity := (processMatchingLoop fuel t st).1.filled_quantity }
      with hRO
    have hs2 : RO.side = t.side := by rw [hRO]; exact hside
    have hp2 : RO.price = p := by
      rw [hRO]
      show (processMatchingLoop fuel t st).1.price.getD 0 = p
      rw [hpr]
      rfl
    have ho2 : RO.order_id = t.order_id := by rw [hRO]; exact hoid
    refine ⟨?_, ?_, ?_⟩
    · have h2 := addOrderToBook_level (processMatchingLoop fuel t st).2.1 RO
      rw [hs2, hp2, ho2] at h2
      exact h2
    · rw [addOrderToBook_orders, ho2, alookup_hsetA_self, hRO]
      dsimp only
      rw [hcid, hcat]
    · intro r0 hr0
      show getOrderById (updateOrderStatus (addOrderToBook _ RO).ledger _ _ _)
        t.order_id = _
      rw [addOrderToBook_ledger, hoid, getOrderById_updateOrderStatus,
        if_pos rfl, hr0]
      rfl
  · intro hrem
    have hnrem : ¬(EPSILON < (processMatchingLoop fuel t st).1.quantity -
        (processMatchingLoop fuel t st).1.filled_quantity) := not_lt.2 hrem
    simp only [matchLimitOrder]
    rw [if_neg hnrem]
    refine ⟨rfl, ?_⟩
    intro r0 hr0
    show getOrderById (updateOrderStatus _ _ _ _) t.order_id = _
    rw [hoid, getOrderById_updateOrderStatus, if_pos rfl, hr0]
    rfl

theorem rowCore_quantity {a b : LedgerRow} (h : rowCore a = rowCore b) :
    a.quantity = b.quantity := by
  simp [rowCore, Prod.ext_iff] at h
  exact h.2.2.2.2.2

theorem loop_row (fuel : Nat) (t : TakerOrder) (st : EngineState) (r0 : LedgerRow)
    (hrow : getOrderById st.ledger t.order_id = some r0) :
    ∃ r1, getOrderById (processMatchingLoop fuel t st).2.1.ledger t.order_id =
      some r1 ∧ r1.quantity = r0.quantity := by
  have h := loop_ledger fuel t st t.order_id
  rw [hrow] at h
  cases h2 : getOrderById (processMatchingLoop fuel t st).2.1.ledger t.order_id with
  | none => rw [h2] at h; simp at h
  | some r1 =>
      rw [h2] at h
      simp only [Option.map_some'] at h
      exact ⟨r1, rfl, rowCore_quantity (Option.some.inj h)⟩

/-- The taker's own ledger row at the completion of a submit job: quantity
unchanged; 0 ≤ filled_quantity ≤ quantity; status is filled exactly when the
remaining quantity is at most EPSILON; open implies no fill; partially_filled
implies filled_quantity < quantity, with 0 < filled_quantity for a limit
taker; the job never writes cancelled or rejected on the taker. -/
theorem submit_taker_row (fuel : Nat) (t : TakerOrder) (st : EngineState)
    (r0 : LedgerRow)
    (hq : 0 < t.quantity) (hf : t.filled_quantity = 0)
    (hrow : getOrderById st.ledger t.order_id = some r0)
    (hrq : r0.quantity = t.quantity) :
    ∃ r, getOrderById (processOrderJob fuel st (Job.processOrder t)).ledger
        t.order_id = some r ∧
      r.quantity = t.quantity ∧
      0 ≤ r.filled_quantity ∧ r.filled_quantity ≤ r.quantity ∧
      (r.status = OrderStatus.filled ↔ r.quantity - r.filled_quantity ≤ EPSILON) ∧
      (r.status = OrderStatus.open_ → r.filled_quantity = 0) ∧
      (r.status = OrderStatus.partially_filled → r.filled_quantity < r.quantity) ∧
      (t.type = OrderType.limit → r.status = OrderStatus.partially_filled →
        0 < r.filled_quantity) ∧
      r.status ≠ OrderStatus.cancelled ∧ r.status ≠ OrderStatus.rejected := by
  obtain ⟨h1a, h1b, h1c⟩ := loop_taker fuel t st
  obtain ⟨r1, hr1, hr1q⟩ := loop_row fuel t st r0 hrow
  have hq1 : (processMatchingLoop fuel t st).1.quantity = t.quantity := by rw [h1a]
  have ho1 : (processMatchingLoop fuel t st).1.order_id = t.order_id := by rw [h1a]
  have hfnn : 0 ≤ (processMatchingLoop fuel t st).1.filled_quantity := by
    rw [hf] at h1b; exact h1b
  have hfq : (processMatchingLoop fuel t st).1.filled_quantity ≤ t.quantity := by
    refine h1c ?_
    rw [hf]
    exact le_of_lt hq
  have hrq1 : r1.quantity = t.quantity := by rw [hr1q, hrq]
  have hmain : ∀ (S : OrderStatus),
      getOrderById (updateOrderStatus (processMatchingLoop fuel t st).2.1.ledger
        (processMatchingLoop fuel t st).1.order_id S
        (processMatchingLoop fuel t st).1.filled_quantity) t.order_id =
      some { r1 with
              status := S
              filled_quantity :=
                (processMatchingLoop fuel t st).1.filled_quantity } := by
    intro S
    rw [ho1, getOrderById_updateOrderStatus, if_pos rfl, hr1]
    rfl
  by_cases htype : t.type = OrderType.market
  · have hdispatch : processOrderJob fuel st (Job.processOrder t) =
        matchMarketOrder fuel t st := by
      simp only [processOrderJob]
      rw [if_pos htype]
    rw [hdispatch]
    simp only [matchMarketOrder]
    split
    · refine ⟨_, hmain OrderStatus.partially_filled, ?_⟩
      rename_i hcond
      rw [hq1] at hcond
      have heps := EPSILON_pos
      refine ⟨hrq1, hfnn, by rw [hrq1]; exact hfq, ?_, ?_, ?_, ?_, ?_, ?_⟩
      · constructor
        · intro hc; exact absurd hc (by intro h2; exact OrderStatus.noConfusion h2)
        · intro hc
          rw [hrq1] at hc
          linarith
      · intro hc; exact absurd hc (by intro h2; exact OrderStatus.noConfusion h2)
      · intro _
        rw [hrq1]
        linarith
      · intro hlim2
        rw [htype] at hlim2
        exact absurd hlim2 (by intro h2; exact OrderType.noConfusion h2)
      · intro h2; exact OrderStatus.noConfusion h2
      · intro h2; exact OrderStatus.noConfusion h2
    · refine ⟨_, hmain OrderStatus.filled, ?_⟩
      rename_i hcond
      rw [hq1] at hcond
      push_neg at hcond
      refine ⟨hrq1, hfnn, by rw [hrq1]; exact hfq, ?_, ?_, ?_, ?_, ?_, ?_⟩
      · constructor
        · intro _
          rw [hrq1]
          exact hcond
        · intro _; rfl
      · intro hc; exact absurd hc (by intro h2; exact OrderStatus.noConfusion h2)
      · intro hc; exact absurd hc (by intro h2; exact OrderStatus.noConfusion h2)
      · intro _ hc; exact absurd hc (by intro h2; exact OrderStatus.noConfusion h2)
      · intro h2; exact OrderStatus.noConfusion h2
      · intro h2; exact OrderStatus.noConfusion h2
  · have hdispatch : processOrderJob fuel st (Job.processOrder t) =
        matchLimitOrder fuel t st := by
      simp only [processOrderJob]
      rw [if_neg htype]
    rw [hdispatch]
    simp only [matchLimitOrder]
    split
    · rename_i hcond
      rw [hq1] at hcond
      have heps := EPSILON_pos
      have hled : (addOrderToBook (processMatchingLoop fuel t st).2.1
          { order_id := (processMatchingLoop fuel t st).1.order_id
            price := (processMatchingLoop fuel t st).1.price.getD 0
            side := (processMatchingLoop fuel t st).1.side
            quantity := (processMatchingLoop fuel t st).1.quantity -
              (processMatchingLoop fuel t st).1.filled_quantity
            client_id := (processMatchingLoop fuel t st).1.client_id
            created_at := (processMatchingLoop fuel t st).1.created_at
            total_filled_quantity :=
              (processMatchingLoop fuel t st).1.filled_quantity }).ledger =
          (processMatchingLoop fuel t st).2.1.ledger := addOrderToBook_ledger _ _

      split
      · rename_i hpos
        refine ⟨_, by rw [hled]; exact hmain OrderStatus.partially_filled, ?_⟩
        refine ⟨hrq1, hfnn, by rw [hrq1]; exact hfq, ?_, ?_, ?_, ?_, ?_, ?_⟩
        · constructor
          · intro hc; exact absurd hc (by intro h2; exact OrderStatus.noConfusion h2)
          · intro hc
            rw [hrq1] at hc
            linarith
        · intro hc; exact absurd hc (by intro h2; exact OrderStatus.noConfusion h2)
        · intro _
          rw [hrq1]
          linarith
        · intro _ _
          exact hpos
        · intro h2; exact OrderStatus.noConfusion h2
        · intro h2; exact OrderStatus.noConfusion h2
      · rename_i hpos
        have hzero : (processMatchingLoop fuel t st).1.filled_quantity = 0 :=
          le_antisymm (not_lt.1 hpos) hfnn
        refine ⟨_, by rw [hled]; exact hmain OrderStatus.open_, ?_⟩
        refine ⟨hrq1, hfnn, by rw [hrq1]; exact hfq, ?_, ?_, ?_, ?_, ?_, ?_⟩
        · constructor
          · intro hc; exact absurd hc (by intro h2; exact OrderStatus.noConfusion h2)
          · intro hc
            rw [hrq1] at hc
            linarith
        · intro _
          exact hzero
        · intro hc; exact absurd hc (by intro h2; exact OrderStatus.noConfusion h2)
        · intro _ hc; exact absurd hc (by intro h2; exact OrderStatus.noConfusion h2)
        · intro h2; exact OrderStatus.noConfusion h2
        · intro h2; exact OrderStatus.noConfusion h2
    · rename_i hcond
      rw [hq1] at hcond
      push_neg at hcond
      refine ⟨_, hmain OrderStatus.filled, ?_⟩
      refine ⟨hrq1, hfnn, by rw [hrq1]; exact hfq, ?_, ?_, ?_, ?_, ?_, ?_⟩
      · constructor
        · intro _
          rw [hrq1]
          exact hcond
        · intro _; rfl
      · intro hc; exact absurd hc (by intro h2; exact OrderStatus.noConfusion h2)
      · intro hc; exact absurd hc (by intro h2; exact OrderStatus.noConfusion h2)
      · intro _ hc; exact absurd hc (by intro h2; exact OrderStatus.noConfusion h2)
      · intro h2; exact OrderStatus.noConfusion h2
      · intro h2; exact OrderStatus.noConfusion h2

theorem checkIdempotency_new (store : IdemStore) (key : String) (now : Nat)
    (h : (checkIdempotency store key now).1 = true) :
    alookup (checkIdempotency store key now).2.entries key =
      some (now + IDEMPOTENCY_EXPIRY_SECONDS) := by
  simp only [checkIdempotency, redisSetNxEx] at h ⊢
  cases he : alookup store.entries key with
  | none =>
      dsimp only
      exact alookup_hsetA_self _ _ _
  | some ex =>
      rw [he] at h
      dsimp only at h ⊢
      split at h
      · simp at h
      · rename_i h2
        rw [if_neg h2]
        exact alookup_hsetA_self _ _ _

theorem checkIdempotency_dup (store : IdemStore) (key : String) (now : Nat)
    (ex : Nat) (hex : alookup store.entries key = some ex) (hlt : now < ex) :
    checkIdempotency store key now = (false, store) := by
  simp only [checkIdempotency, redisSetNxEx]
  rw [hex]
  dsimp only
  rw [if_pos hlt]

theorem checkIdempotency_false_state (store : IdemStore) (key : String) (now : Nat)
    (h : (checkIdempotency store key now).1 = false) :
    (checkIdempotency store key now).2 = store ∧
    ∃ ex, alookup store.entries key = some ex ∧ now < ex := by
  simp only [checkIdempotency, redisSetNxEx] at h ⊢
  cases he : alookup store.entries key with
  | none => rw [he] at h; simp at h
  | some ex =>
      rw [he] at h
      dsimp only at h ⊢
      split at h
      · rename_i h2
        rw [if_pos h2]
        exact ⟨rfl, ex, rfl, h2⟩
      · simp at h

theorem submitOrder_duplicate (s : Submission) (k : String) (now : Nat)
    (st : SystemState) (hk : s.idempotency_key = some k)
    (htr : strTruthy s.idempotency_key = true)
    (ex : Nat) (hex : alookup st.idem.entries k = some ex) (hlt : now < ex) :
    (submitOrder s now st).1 = SubmitResult.errDuplicate := by
  simp only [submitOrder]
  rw [if_neg (by rw [htr]; exact fun hc => Bool.noConfusion hc)]
  have hgd : s.idempotency_key.getD "" = k := by rw [hk]; rfl
  rw [hgd]
  rw [checkIdempotency_dup st.idem k now ex hex hlt]
  dsimp only
  rw [if_pos rfl]

/-- Control-flow fact: a validation rejection happens strictly after the
idempotency key has been claimed, and leaves exactly that claim in place. -/
theorem submitOrder_validation_state (s : Submission) (now : Nat)
    (st : SystemState) (msg : String)
    (hres : (submitOrder s now st).1 = SubmitResult.errValidation msg) :
    strTruthy s.idempotency_key = true ∧
    (checkIdempotency st.idem (s.idempotency_key.getD "") now).1 = true ∧
    (submitOrder s now st).2 =
      { st with
        idem := (checkIdempotency st.idem (s.idempotency_key.getD "") now).2 } := by
  simp only [submitOrder] at hres ⊢
  split at hres
  · exact absurd hres (by simp)
  · rename_i hkey
    have htr : strTruthy s.idempotency_key = true := by
      cases hb : strTruthy s.idempotency_key
      · exact absurd hb hkey
      · rfl
    rw [if_neg hkey]
    refine ⟨htr, ?_⟩
    split at hres
    · exact absurd hres (by simp)
    · rename_i hnew
      have hnew2 : (checkIdempotency st.idem (s.idempotency_key.getD "") now).1 =
          true := by
        cases hb : (checkIdempotency st.idem (s.idempotency_key.getD "") now).1
        · exact absurd hb hnew
        · rfl
      refine ⟨hnew2, ?_⟩
      rw [if_neg hnew]
      split at hres
      · rename_i h3
        rw [if_pos h3]
      · rename_i h3
        rw [if_neg h3]
        split at hres
        · rename_i h4
          rw [if_pos h4]
        · rename_i h4
          rw [if_neg h4]
          cases hside : s.side with
          | none => rfl
          | some sd =>
              rw [hside] at hres
              dsimp only at hres ⊢
              cases htyp : s.type with
              | none => rfl
              | some ty =>
                  rw [htyp] at hres
                  dsimp only at hres ⊢
                  cases hqty : s.quantity with
                  | none => rfl
                  | some q =>
                      rw [hqty] at hres
                      dsimp only at hres ⊢
                      split at hres
                      · rename_i h5
                        rw [if_pos h5]
                      · rename_i h5
                        rw [if_neg h5]
                        split at hres
                        · rename_i h6
                          rw [if_pos h6]
                        · rename_i h6
                          rw [if_neg h6]
                          dsimp only at hres
                          exact absurd hres (by simp)

/-- Control-flow fact: an accepted submission claimed its key, and the final
state carries exactly that claim in its idempotency store. -/
theorem submitOrder_accepted_state (s : Submission) (now : Nat) (st : SystemState)
    (o : TakerOrder) (hres : (submitOrder s now st).1 = SubmitResult.accepted o) :
    strTruthy s.idempotency_key = true ∧
    (checkIdempotency st.idem (s.idempotency_key.getD "") now).1 = true ∧
    (submitOrder s now st).2.idem =
      (checkIdempotency st.idem (s.idempotency_key.getD "") now).2 := by
  simp only [submitOrder] at hres ⊢
  split at hres
  · exact absurd hres (by simp)
  · rename_i hkey
    have htr : strTruthy s.idempotency_key = true := by
      cases hb : strTruthy s.idempotency_key
      · exact absurd hb hkey
      · rfl
    rw [if_neg hkey]
    refine ⟨htr, ?_⟩
    split at hres
    · exact absurd hres (by simp)
    · rename_i hnew
      have hnew2 : (checkIdempotency st.idem (s.idempotency_key.getD "") now).1 =
          true := by
        cases hb : (checkIdempotency st.idem (s.idempotency_key.getD "") now).1
        · exact absurd hb hnew
        · rfl
      refine ⟨hnew2, ?_⟩
      rw [if_neg hnew]
      split at hres
      · exact absurd hres (by simp)
      · rename_i h3
        rw [if_neg h3]
        split at hres
        · exact absurd hres (by simp)
        · rename_i h4
          rw [if_neg h4]
          cases hside : s.side with
          | none => rw [hside] at hres
          | some sd =>
              rw [hside] at hres
              dsimp only at hres ⊢
              cases htyp : s.type with
              | none => rw [htyp] at hres
              | some ty =>
                  rw [htyp] at hres
                  dsimp only at hres ⊢
                  cases hqty : s.quantity with
                  | none => rw [hqty] at hres
                  | some q =>
                      rw [hqty] at hres
                      dsimp only at hres ⊢
                      split at hres
                      · exact absurd hres (by simp)
                      · rename_i h5
                        rw [if_neg h5]
                        split at hres
                        · exact absurd hres (by simp)
                        · rename_i h6
                          rw [if_neg h6]

/-- C6 (amended): the idempotency-key claim strictly precedes validation of
client_id, instrument, side, type, quantity and price, so a submission that
fails validation has already claimed (and keeps) its key: any later
submission with the same key within the TTL window is rejected as duplicate,
even if valid. -/
theorem C6_claim_before_validation (s : Submission) (now : Nat) (st : SystemState)
    (k msg : String) (hk : s.idempotency_key = some k)
    (hres : (submitOrder s now st).1 = SubmitResult.errValidation msg) :
    alookup (submitOrder s now st).2.idem.entries k =
      some (now + IDEMPOTENCY_EXPIRY_SECONDS) ∧
    ∀ (s2 : Submission) (now2 : Nat), s2.idempotency_key = some k →
      now2 < now + IDEMPOTENCY_EXPIRY_SECONDS →
      (submitOrder s2 now2 (submitOrder s now st).2).1 =
        SubmitResult.errDuplicate := by
  obtain ⟨htr, hnew, hstate⟩ := submitOrder_validation_state s now st msg hres
  have hgd : s.idempotency_key.getD "" = k := by rw [hk]; rfl
  rw [hgd] at hnew hstate
  have hkey := checkIdempotency_new st.idem k now hnew
  have hlook : alookup (submitOrder s now st).2.idem.entries k =
      some (now + IDEMPOTENCY_EXPIRY_SECONDS) := by
    rw [hstate]
    exact hkey
  refine ⟨hlook, ?_⟩
  intro s2 now2 hk2 hlt
  have htr2 : strTruthy s2.idempotency_key = true := by
    rw [hk2]
    rw [hk] at htr
    exact htr
  exact submitOrder_duplicate s2 k now2 _ hk2 htr2
    (now + IDEMPOTENCY_EXPIRY_SECONDS) hlook hlt

/-- C7 (amended): at most one of two same-key submissions within the TTL is
accepted; when the first is accepted its claim records the expiry in the same
atomic operation, and any submission finding an unexpired claim of its key is
rejected as duplicate (never accepted); the claim operation itself atomically
creates the key with its TTL when absent or expired and leaves the store
untouched when it reports a duplicate. -/
theorem C7_idempotency_at_most_one (s1 s2 : Submission) (k : String)
    (now1 now2 : Nat) (st : SystemState) (o : TakerOrder)
    (h1 : s1.idempotency_key = some k) (h2 : s2.idempotency_key = some k)
    (hacc : (submitOrder s1 now1 st).1 = SubmitResult.accepted o)
    (hwin : now2 < now1 + IDEMPOTENCY_EXPIRY_SECONDS) :
    (submitOrder s2 now2 (submitOrder s1 now1 st).2).1 =
      SubmitResult.errDuplicate ∧
    alookup (submitOrder s1 now1 st).2.idem.entries k =
      some (now1 + IDEMPOTENCY_EXPIRY_SECONDS) ∧
    (∀ (st2 : SystemState) (e : Nat), alookup st2.idem.entries k = some e →
      now2 < e → isAccepted (submitOrder s2 now2 st2).1 = false) ∧
    (∀ (store : IdemStore) (key : String) (now : Nat),
      ((checkIdempotency store key now).1 = true →
        alookup (checkIdempotency store key now).2.entries key =
          some (now + IDEMPOTENCY_EXPIRY_SECONDS)) ∧
      ((checkIdempotency store key now).1 = false →
        (checkIdempotency store key now).2 = store ∧
        ∃ ex, alookup store.entries key = some ex ∧ now < ex)) := by
  obtain ⟨htr1, hnew1, hidem⟩ := submitOrder_accepted_state s1 now1 st o hacc
  have hgd : s1.idempotency_key.getD "" = k := by rw [h1]; rfl
  rw [hgd] at hnew1 hidem
  have hkey := checkIdempotency_new st.idem k now1 hnew1
  have hlook : alookup (submitOrder s1 now1 st).2.idem.entries k =
      some (now1 + IDEMPOTENCY_EXPIRY_SECONDS) := by
    rw [hidem]
    exact hkey
  have htr2 : strTruthy s2.idempotency_key = true := by
    rw [h2]
    rw [h1] at htr1
    exact htr1
  refine ⟨?_, hlook, ?_, ?_⟩
  · exact submitOrder_duplicate s2 k now2 _ h2 htr2
      (now1 + IDEMPOTENCY_EXPIRY_SECONDS) hlook hwin
  · intro st2 e he hlt
    rw [submitOrder_duplicate s2 k now2 st2 h2 htr2 e he hlt]
    rfl
  · intro store key now
    exact ⟨checkIdempotency_new store key now,
      checkIdempotency_false_state store key now⟩

/-! C9: the book well-formedness invariant is preserved by every job. -/

theorem rowCore_side {a b : LedgerRow} (h : rowCore a = rowCore b) :
    a.side = b.side := by
  simp [rowCore, Prod.ext_iff] at h
  exact h.2.2.1

theorem rowCore_price {a b : LedgerRow} (h : rowCore a = rowCore b) :
    a.price = b.price := by
  simp [rowCore, Prod.ext_iff] at h
  exact h.2.2.2.2.1

theorem levels_zrem (sb : SideBook) (p : ℚ) : (zrem sb p).levels = sb.levels := rfl

theorem levels_hincrDepth (sb : SideBook) (p d : ℚ) :
    (hincrDepth sb p d).levels = sb.levels := rfl

theorem levels_setLevel (sb : SideBook) (p : ℚ) (l : List OrderId) :
    (setLevel sb p l).levels = hsetA sb.levels p l := rfl

theorem levels_zadd (sb : SideBook) (p : ℚ) : (zadd sb p).levels = sb.levels := by
  by_cases h : p ∈ sb.prices <;> simp [zadd, h]

theorem getL_hsetA_self (L : List (ℚ × List OrderId)) (p : ℚ) (l : List OrderId) :
    getL (hsetA L p l) p = l := by
  simp [getL, alookup_hsetA_self]

theorem getL_hsetA_ne (L : List (ℚ × List OrderId)) (p q : ℚ) (l : List OrderId)
    (h : q ≠ p) : getL (hsetA L p l) q = getL L q := by
  simp [getL, alookup_hsetA_ne _ _ _ _ h]

theorem hsetA_hsetA {α β : Type} [DecidableEq α] (L : List (α × β)) (k : α)
    (v w : β) : hsetA (hsetA L k v) k w = hsetA L k w := by
  induction L with
  | nil => simp [hsetA]
  | cons a rest ih =>
      obtain ⟨k1, v1⟩ := a
      by_cases h : k1 = k
      · subst h
        rw [hsetA_cons_self, hsetA_cons_self, hsetA_cons_self]
      · rw [hsetA_cons_ne _ _ _ _ _ h, hsetA_cons_ne _ _ _ _ _ h,
          hsetA_cons_ne _ _ _ _ _ h, ih]

theorem occCount_eq_occL (b : Book) (id : OrderId) :
    occCount b id = occL (b.side BookSide.asks).levels id +
      occL (b.side BookSide.bids).levels id := rfl

theorem Inv.nodupSide {st : EngineState} (h : Inv st) (bs : BookSide) :
    (((st.book.side bs).levels).map Prod.fst).Nodup := by
  cases bs
  · exact h.nodupAsks
  · exact h.nodupBids

/-- Occurrence accounting when one price level of one side is rewritten and
everything else is untouched. -/
theorem occCount_hsetA_level (b b2 : Book) (bs0 : BookSide) (p : ℚ)
    (l : List OrderId)
    (h : ∀ bs, (b2.side bs).levels =
      if bs = bs0 then hsetA (b.side bs).levels p l else (b.side bs).levels)
    (id : OrderId) :
    occCount b2 id + (getLevel (b.side bs0) p).count id =
      occCount b id + l.count id := by
  have hA := h BookSide.asks
  have hB := h BookSide.bids
  have hself := occL_setL (b.side bs0).levels p l id
  rw [← getLevel_eq_getL] at hself
  rw [occCount_eq_occL, occCount_eq_occL, hA, hB]
  cases bs0
  · rw [if_pos rfl] at hA
    rw [if_neg (fun hc => BookSide.noConfusion hc)] at hB
    rw [if_pos rfl, if_neg (fun hc => BookSide.noConfusion hc)]
    omega
  · rw [if_neg (fun hc => BookSide.noConfusion hc), if_pos rfl]
    omega

/-- Level lookup when one price level of one side is rewritten. -/
theorem getLevel_hsetA_level (b b2 : Book) (bs0 : BookSide) (p : ℚ)
    (l : List OrderId)
    (h : ∀ bs, (b2.side bs).levels =
      if bs = bs0 then hsetA (b.side bs).levels p l else (b.side bs).levels)
    (bs : BookSide) (q : ℚ) :
    getLevel (b2.side bs) q =
      if bs = bs0 ∧ q = p then l else getLevel (b.side bs) q := by
  rw [getLevel_eq_getL, h bs]
  by_cases hbs : bs = bs0
  · rw [if_pos hbs]
    by_cases hq : q = p
    · subst hq
      rw [getL_hsetA_self, if_pos ⟨hbs, rfl⟩]
    · rw [getL_hsetA_ne _ _ _ _ hq, ← getLevel_eq_getL,
        if_neg (fun hc => hq hc.2)]
  · rw [if_neg hbs, ← getLevel_eq_getL, if_neg (fun hc => hbs hc.1)]

/-- Key nodup-ness when one price level of one side is rewritten. -/
theorem nodup_hsetA_level (b b2 : Book) (bs0 : BookSide) (p : ℚ)
    (l : List OrderId)
    (h : ∀ bs, (b2.side bs).levels =
      if bs = bs0 then hsetA (b.side bs).levels p l else (b.side bs).levels)
    (bs : BookSide) (hn : (((b.side bs).levels).map Prod.fst).Nodup) :
    (((b2.side bs).levels).map Prod.fst).Nodup := by
  rw [h bs]
  split
  · exact nodup_keys_hsetA _ _ _ hn
  · exact hn

/-- Inv transfers along equal levels, an equal order map, and a ledger equal
up to status and accumulated fill. -/
theorem Inv_transfer (st st2 : EngineState)
    (hlv : ∀ bs : BookSide, (st2.book.side bs).levels = (st.book.side bs).levels)
    (ho : st2.book.orders = st.book.orders)
    (hlg : ∀ id, (getOrderById st2.ledger id).map rowCore =
      (getOrderById st.ledger id).map rowCore)
    (hinv : Inv st) : Inv st2 := by
  refine ⟨?_, ?_, ?_, ?_, ?_⟩
  · have h : st2.book.asks.levels = st.book.asks.levels := hlv BookSide.asks
    rw [h]
    exact hinv.nodupAsks
  · have h : st2.book.bids.levels = st.book.bids.levels := hlv BookSide.bids
    rw [h]
    exact hinv.nodupBids
  · intro id
    rw [occCount_eq_occL, hlv BookSide.asks, hlv BookSide.bids,
      ← occCount_eq_occL, ho]
    exact hinv.occ id
  · intro id e h
    rw [ho] at h
    exact hinv.qty id e h
  · intro id e h
    rw [ho] at h
    obtain ⟨r, p, hr, hp, hm⟩ := hinv.loc id e h
    have h2 := hlg id
    rw [hr] at h2
    cases hg : getOrderById st2.ledger id with
    | none => rw [hg] at h2; simp at h2
    | some r2 =>
        rw [hg] at h2
        simp only [Option.map_some'] at h2
        have hcore := Option.some.inj h2
        refine ⟨r2, p, rfl, by rw [rowCore_price hcore, hp], ?_⟩
        rw [rowCore_side hcore, getLevel_eq_getL, hlv (bookSideOf r.side),
          ← getLevel_eq_getL]
        exact hm

/-- The price levels of each side after a full-fill trade step: the traded
level now holds the tail, everything else is untouched. -/
theorem filledState_side_levels (t : TakerOrder) (st : EngineState) (bp : ℚ)
    (mk : OrderId) (rest : List OrderId) (e : BookEntry) (bs : BookSide) :
    (((filledState t st bp mk rest e).book.side bs)).levels =
      if bs = opposingSideOf t.side
      then hsetA (st.book.side bs).levels bp rest
      else (st.book.side bs).levels := by
  simp only [filledState]
  by_cases hbs : bs = opposingSideOf t.side
  · rw [if_pos hbs]
    subst hbs
    split
    · rw [side_setSide_self, levels_zrem, side_orders_update, side_setSide_self,
        levels_hincrDepth, levels_setLevel]
    · rw [side_orders_update, side_setSide_self, levels_hincrDepth,
        levels_setLevel]
  · rw [if_neg hbs]
    split
    · rw [side_setSide_ne _ _ _ _ hbs, side_orders_update,
        side_setSide_ne _ _ _ _ hbs, side_setSide_ne _ _ _ _ hbs]
    · rw [side_orders_update, side_setSide_ne _ _ _ _ hbs,
        side_setSide_ne _ _ _ _ hbs]

/-- The price levels of each side after a partial-fill trade step: the traded
level is restored to maker-then-tail, everything else is untouched. -/
theorem partialState_side_levels (t : TakerOrder) (st : EngineState) (bp : ℚ)
    (mk : OrderId) (rest : List OrderId) (e : BookEntry) (bs : BookSide) :
    (((partialState t st bp mk rest e).book.side bs)).levels =
      if bs = opposingSideOf t.side
      then hsetA (st.book.side bs).levels bp (mk :: rest)
      else (st.book.side bs).levels := by
  simp only [partialState]
  by_cases hbs : bs = opposingSideOf t.side
  · rw [if_pos hbs]
    subst hbs
    split
    · rw [side_setSide_self, levels_zrem, side_setSide_self, levels_setLevel,
        side_orders_update, side_setSide_self, levels_hincrDepth,
        getLevel_hincrDepth, getLevel_setLevel_self, levels_setLevel,
        hsetA_hsetA]
    · rw [side_setSide_self, levels_setLevel, side_orders_update,
        side_setSide_self, levels_hincrDepth, getLevel_hincrDepth,
        getLevel_setLevel_self, levels_setLevel, hsetA_hsetA]
  · rw [if_neg hbs]
    split
    · rw [side_setSide_ne _ _ _ _ hbs, side_setSide_ne _ _ _ _ hbs,
        side_orders_update, side_setSide_ne _ _ _ _ hbs,
        side_setSide_ne _ _ _ _ hbs]
    · rw [side_setSide_ne _ _ _ _ hbs, side_orders_update,
        side_setSide_ne _ _ _ _ hbs, side_setSide_ne _ _ _ _ hbs]

theorem filledState_ledger_core (t : TakerOrder) (st : EngineState) (bp : ℚ)
    (mk : OrderId) (rest : List OrderId) (e : BookEntry) (k : OrderId) :
    (getOrderById (filledState t st bp mk rest e).ledger k).map rowCore =
      (getOrderById st.ledger k).map rowCore := by
  rw [filledState_ledger, rowCore_updateOrderStatus, rowCore_updateOrderStatus,
    getOrderById_createTrade]

theorem partialState_ledger_core (t : TakerOrder) (st : EngineState) (bp : ℚ)
    (mk : OrderId) (rest : List OrderId) (e : BookEntry) (k : OrderId) :
    (getOrderById (partialState t st bp mk rest e).ledger k).map rowCore =
      (getOrderById st.ledger k).map rowCore := by
  rw [partialState_ledger, rowCore_updateOrderStatus, rowCore_updateOrderStatus,
    getOrderById_createTrade]

/-- A full-fill trade step preserves the invariant. -/
theorem Inv_filledState (t : TakerOrder) (st : EngineState) (bp : ℚ)
    (mk : OrderId) (rest : List OrderId) (e : BookEntry) (hinv : Inv st)
    (hlv : getLevel (st.book.side (opposingSideOf t.side)) bp = mk :: rest) :
    Inv (filledState t st bp mk rest e) := by
  have hL := filledState_side_levels t st bp mk rest e
  have hocc : ∀ id, occCount (filledState t st bp mk rest e).book id +
      (mk :: rest).count id = occCount st.book id + rest.count id := by
    intro id
    have h := occCount_hsetA_level st.book (filledState t st bp mk rest e).book
      (opposingSideOf t.side) bp rest hL id
    rw [hlv] at h
    exact h
  refine ⟨?_, ?_, ?_, ?_, ?_⟩
  · exact nodup_hsetA_level st.book _ (opposingSideOf t.side) bp rest hL
      BookSide.asks hinv.nodupAsks
  · exact nodup_hsetA_level st.book _ (opposingSideOf t.side) bp rest hL
      BookSide.bids hinv.nodupBids
  · intro id
    rw [filledState_orders]
    by_cases hid : id = mk
    · subst hid
      rw [alookup_hdelA_self]
      show occCount (filledState t st bp id rest e).book id = 0
      have h1 := hocc id
      have h2 := hinv.occ id
      have h3 : 1 ≤ occCount st.book id := by
        have hc : id ∈ getLevel (st.book.side (opposingSideOf t.side)) bp := by
          rw [hlv]
          exact List.mem_cons_self id rest
        have hc2 := List.one_le_count_iff.2 hc
        have hc3 := count_le_occSide (st.book.side (opposingSideOf t.side)) bp id
        have hc4 := occCount_side st.book (opposingSideOf t.side) id
        omega
      have h4 : occCount st.book id ≤ 1 := by
        by_cases hs : (alookup st.book.orders id).isSome = true
        · rw [h2, if_pos hs]
        · rw [h2, if_neg hs]
          omega
      have h5 : (id :: rest).count id = rest.count id + 1 :=
        List.count_cons_self id rest
      omega
    · rw [alookup_hdelA_ne _ _ _ hid, ← hinv.occ id]
      have h1 := hocc id
      have h5 : (mk :: rest).count id = rest.count id := by
        simp [List.count_cons, hid]
      omega
  · intro id e2 h
    rw [filledState_orders] at h
    by_cases hid : id = mk
    · subst hid
      rw [alookup_hdelA_self] at h
      cases h
    · rw [alookup_hdelA_ne _ _ _ hid] at h
      exact hinv.qty id e2 h
  · intro id e2 h
    rw [filledState_orders] at h
    by_cases hid : id = mk
    · subst hid
      rw [alookup_hdelA_self] at h
      cases h
    · rw [alookup_hdelA_ne _ _ _ hid] at h
      obtain ⟨r, p, hr, hp, hm⟩ := hinv.loc id e2 h
      have hlg := filledState_ledger_core t st bp mk rest e id
      rw [hr] at hlg
      cases hg : getOrderById (filledState t st bp mk rest e).ledger id with
      | none => rw [hg] at hlg; simp at hlg
      | some r2 =>
          rw [hg] at hlg
          simp only [Option.map_some'] at hlg
          have hcore := Option.some.inj hlg
          refine ⟨r2, p, rfl, by rw [rowCore_price hcore, hp], ?_⟩
          rw [rowCore_side hcore,
            getLevel_hsetA_level st.book _ (opposingSideOf t.side) bp rest hL]
          split
          · rename_i hc
            rw [hc.1, hc.2, hlv] at hm
            rcases List.mem_cons.1 hm with h1 | h1
            · exact absurd h1 hid
            · exact h1
          · exact hm

/-- A partial-fill trade step preserves the invariant. -/
theorem Inv_partialState (t : TakerOrder) (st : EngineState) (bp : ℚ)
    (mk : OrderId) (rest : List OrderId) (e : BookEntry) (hinv : Inv st)
    (hlv : getLevel (st.book.side (opposingSideOf t.side)) bp = mk :: rest)
    (hmk : alookup st.book.orders mk = some e)
    (hrem : EPSILON < e.quantity - tradeQtyOf t e) :
    Inv (partialState t st bp mk rest e) := by
  have hL := partialState_side_levels t st bp mk rest e
  have hocc : ∀ id, occCount (partialState t st bp mk rest e).book id =
      occCount st.book id := by
    intro id
    have h := occCount_hsetA_level st.book (partialState t st bp mk rest e).book
      (opposingSideOf t.side) bp (mk :: rest) hL id
    rw [hlv] at h
    omega
  have hgl : ∀ bs q, getLevel ((partialState t st bp mk rest e).book.side bs) q =
      getLevel (st.book.side bs) q := by
    intro bs q
    rw [getLevel_hsetA_level st.book _ (opposingSideOf t.side) bp (mk :: rest) hL]
    split
    · rename_i hc
      rw [hc.1, hc.2, hlv]
    · rfl
  refine ⟨?_, ?_, ?_, ?_, ?_⟩
  · exact nodup_hsetA_level st.book _ (opposingSideOf t.side) bp (mk :: rest) hL
      BookSide.asks hinv.nodupAsks
  · exact nodup_hsetA_level st.book _ (opposingSideOf t.side) bp (mk :: rest) hL
      BookSide.bids hinv.nodupBids
  · intro id
    rw [partialState_orders, hocc id]
    by_cases hid : id = mk
    · subst hid
      rw [alookup_hsetA_self, hinv.occ id, hmk]
      rfl
    · rw [alookup_hsetA_ne _ _ _ _ hid]
      exact hinv.occ id
  · intro id e2 h
    rw [partialState_orders] at h
    by_cases hid : id = mk
    · subst hid
      rw [alookup_hsetA_self] at h
      rw [← Option.some.inj h]
      exact hrem
    · rw [alookup_hsetA_ne _ _ _ _ hid] at h
      exact hinv.qty id e2 h
  · intro id e2 h
    rw [partialState_orders] at h
    have hold : ∃ eo, alookup st.book.orders id = some eo := by
      by_cases hid : id = mk
      · exact ⟨e, by rw [hid]; exact hmk⟩
      · rw [alookup_hsetA_ne _ _ _ _ hid] at h
        exact ⟨e2, h⟩
    obtain ⟨eo, ho⟩ := hold
    obtain ⟨r, p, hr, hp, hm⟩ := hinv.loc id eo ho
    have hlg := partialState_ledger_core t st bp mk rest e id
    rw [hr] at hlg
    cases hg : getOrderById (partialState t st bp mk rest e).ledger id with
    | none => rw [hg] at hlg; simp at hlg
    | some r2 =>
        rw [hg] at hlg
        simp only [Option.map_some'] at hlg
        have hcore := Option.some.inj hlg
        refine ⟨r2, p, rfl, by rw [rowCore_price hcore, hp], ?_⟩
        rw [rowCore_side hcore, hgl]
        exact hm

/-- One iteration of the matching loop preserves the invariant (under the
loop guard; the guard rules out a dust trade, and the invariant rules out
the orphan-id branch). -/
theorem matchIter_inv (t : TakerOrder) (st : EngineState) (hinv : Inv st)
    (hrem : EPSILON < t.quantity - t.filled_quantity) :
    Inv (matchIter t st).st := by
  rcases matchIterCases t st with ⟨_, hE⟩ | ⟨bp, hbp, hg, hlv, hE⟩ |
    ⟨bp, mk, rest, hbp, hg, hlv, hmk, hE⟩ | ⟨bp, mk, rest, e, hbp, hg, hlv, hmk, hE⟩
  · rw [hE]
    exact hinv
  · rw [hE]
    have hL : ∀ bs, ((st.book.setSide (opposingSideOf t.side)
        (zrem (st.book.side (opposingSideOf t.side)) bp)).side bs).levels =
        (st.book.side bs).levels := by
      intro bs
      by_cases hbs : bs = opposingSideOf t.side
      · subst hbs
        rw [side_setSide_self]
        exact levels_zrem _ _
      · rw [side_setSide_ne _ _ _ _ hbs]
    exact Inv_transfer st _ hL (orders_setSide _ _ _) (fun id => rfl) hinv
  · exfalso
    have hmem : mk ∈ getLevel (st.book.side (opposingSideOf t.side)) bp := by
      rw [hlv]
      exact List.mem_cons_self mk rest
    have hc2 := List.one_le_count_iff.2 hmem
    have hc3 := count_le_occSide (st.book.side (opposingSideOf t.side)) bp mk
    have hc4 := occCount_side st.book (opposingSideOf t.side) mk
    have h3 := hinv.occ mk
    rw [hmk] at h3
    simp only [Option.isSome_none] at h3
    simp at h3
    omega
  · rcases tradeExecCases t st bp mk rest e with ⟨htiny, hT⟩ | ⟨h1, h2, hT⟩ |
      ⟨h1, h2, hT⟩
    · exfalso
      have hq := hinv.qty mk e hmk
      have : EPSILON < tradeQtyOf t e := lt_min hrem hq
      exact absurd htiny (not_le.2 this)
    · rw [hE, hT]
      exact Inv_filledState t st bp mk rest e hinv hlv
    · rw [hE, hT]
      exact Inv_partialState t st bp mk rest e hinv hlv hmk h2

/-- The whole matching loop preserves the invariant. -/
theorem loop_inv (fuel : Nat) (t : TakerOrder) (st : EngineState)
    (hinv : Inv st) : Inv (processMatchingLoop fuel t st).2.1 := by
  induction fuel generalizing t st with
  | zero => exact hinv
  | succ n ih =>
      simp only [processMatchingLoop]
      split
      · rename_i hrem
        split
        · exact ih (matchIter t st).taker (matchIter t st).st
            (matchIter_inv t st hinv hrem)
        · exact matchIter_inv t st hinv hrem
      · exact hinv

theorem addOrderToBook_side_levels (st : EngineState) (o : RestingOrder)
    (bs : BookSide) :
    (((addOrderToBook st o).book.side bs)).levels =
      if bs = bookSideOf o.side
      then hsetA (st.book.side bs).levels o.price
        (getLevel (st.book.side (bookSideOf o.side)) o.price ++ [o.order_id])
      else (st.book.side bs).levels := by
  simp only [addOrderToBook]
  by_cases hbs : bs = bookSideOf o.side
  · rw [if_pos hbs]
    subst hbs
    rw [side_orders_update, side_setSide_self, levels_hincrDepth,
      levels_setLevel, levels_zadd, getLevel_zadd]
  · rw [if_neg hbs, side_orders_update, side_setSide_ne _ _ _ _ hbs]

/-- Inserting a fresh resting order with remaining quantity above EPSILON and
a ledger row naming its side and price preserves the invariant. -/
theorem Inv_addOrderToBook (st : EngineState) (o : RestingOrder)
    (hinv : Inv st)
    (hfresh : alookup st.book.orders o.order_id = none)
    (hq : EPSILON < o.quantity)
    (hrow : ∃ r, getOrderById st.ledger o.order_id = some r ∧ r.side = o.side ∧
      r.price = some o.price) :
    Inv (addOrderToBook st o) := by
  have hL := addOrderToBook_side_levels st o
  have hocc : ∀ id, occCount (addOrderToBook st o).book id =
      occCount st.book id + (if id = o.order_id then 1 else 0) := by
    intro id
    have h := occCount_hsetA_level st.book (addOrderToBook st o).book
      (bookSideOf o.side) o.price
      (getLevel (st.book.side (bookSideOf o.side)) o.price ++ [o.order_id]) hL id
    rw [List.count_append] at h
    have hcnt : ([o.order_id].count id) = if id = o.order_id then 1 else 0 := by
      by_cases hid : id = o.order_id <;> simp [hid]
    rw [hcnt] at h
    by_cases hid : id = o.order_id
    · rw [if_pos hid] at h ⊢
      omega
    · rw [if_neg hid] at h ⊢
      omega
  refine ⟨?_, ?_, ?_, ?_, ?_⟩
  · exact nodup_hsetA_level st.book _ (bookSideOf o.side) o.price _ hL
      BookSide.asks hinv.nodupAsks
  · exact nodup_hsetA_level st.book _ (bookSideOf o.side) o.price _ hL
      BookSide.bids hinv.nodupBids
  · intro id
    rw [hocc id, addOrderToBook_orders]
    by_cases hid : id = o.order_id
    · subst hid
      rw [alookup_hsetA_self]
      have h0 : occCount st.book o.order_id = 0 := by
        rw [hinv.occ o.order_id, hfresh]
        rfl
      rw [h0]
      simp
    · rw [alookup_hsetA_ne _ _ _ _ hid, if_neg hid, ← hinv.occ id]
      omega
  · intro id e2 h
    rw [addOrderToBook_orders] at h
    by_cases hid : id = o.order_id
    · subst hid
      rw [alookup_hsetA_self] at h
      rw [← Option.some.inj h]
      exact hq
    · rw [alookup_hsetA_ne _ _ _ _ hid] at h
      exact hinv.qty id e2 h
  · intro id e2 h
    rw [addOrderToBook_orders] at h
    by_cases hid : id = o.order_id
    · subst hid
      obtain ⟨r, hr, hrs, hrp⟩ := hrow
      refine ⟨r, o.price, hr, hrp, ?_⟩
      rw [hrs, getLevel_hsetA_level st.book _ (bookSideOf o.side) o.price _ hL,
        if_pos ⟨rfl, rfl⟩]
      exact List.mem_append_right _ (List.mem_singleton.2 rfl)
    · rw [alookup_hsetA_ne _ _ _ _ hid] at h
      obtain ⟨r, p, hr, hp, hm⟩ := hinv.loc id e2 h
      refine ⟨r, p, hr, hp, ?_⟩
      rw [getLevel_hsetA_level st.book _ (bookSideOf o.side) o.price _ hL]
      split
      · rename_i hc
        rw [hc.1, hc.2] at hm
        exact List.mem_append_left _ hm
      · exact hm

/-- The state handleCancelJob builds when the order is in the book and the
ledger knows it (the body of matching.engine.js lines 296-342). -/
def cancelState (st : EngineState) (orderId : OrderId) (orderData : BookEntry)
    (pgOrder : LedgerRow) : EngineState :=
  let bs := bookSideOf pgOrder.side
  let price := pgOrder.price.getD 0
  let sb1 :=
    setLevel (st.book.side bs) price
      (removeFirst (getLevel (st.book.side bs) price) orderId)
  let book1 := st.book.setSide bs sb1
  let book2 := { book1 with orders := hdelA book1.orders orderId }
  let sb2 := hincrDepth (book2.side bs) price (-orderData.quantity)
  let book3 := book2.setSide bs sb2
  let book4 :=
    if (getLevel (book3.side bs) price).length = 0 then
      book3.setSide bs (zrem (book3.side bs) price)
    else book3
  { book := book4
    ledger :=
      updateOrderStatus st.ledger orderId OrderStatus.cancelled
        orderData.total_filled_quantity }

theorem handleCancelJob_cases (st : EngineState) (orderId : OrderId) :
    (alookup st.book.orders orderId = none ∧
      handleCancelJob st orderId = some st) ∨
    (∃ od, alookup st.book.orders orderId = some od ∧
      getOrderById st.ledger orderId = none ∧
      handleCancelJob st orderId = none) ∨
    (∃ od pg, alookup st.book.orders orderId = some od ∧
      getOrderById st.ledger orderId = some pg ∧
      handleCancelJob st orderId = some (cancelState st orderId od pg)) := by
  simp only [handleCancelJob]
  cases ha : alookup st.book.orders orderId with
  | none => exact Or.inl ⟨rfl, rfl⟩
  | some od =>
      cases hg : getOrderById st.ledger orderId with
      | none => exact Or.inr (Or.inl ⟨od, rfl, rfl, rfl⟩)
      | some pg => exact Or.inr (Or.inr ⟨od, pg, rfl, rfl, rfl⟩)

theorem cancelState_orders (st : EngineState) (orderId : OrderId)
    (od : BookEntry) (pg : LedgerRow) :
    (cancelState st orderId od pg).book.orders =
      hdelA st.book.orders orderId := by
  simp only [cancelState]
  split
  · rw [orders_setSide, orders_setSide]
    show hdelA ((st.book.setSide _ _).orders) orderId = _
    rw [orders_setSide]
  · rw [orders_setSide]
    show hdelA ((st.book.setSide _ _).orders) orderId = _
    rw [orders_setSide]

theorem cancelState_ledger_core (st : EngineState) (orderId : OrderId)
    (od : BookEntry) (pg : LedgerRow) (k : OrderId) :
    (getOrderById (cancelState st orderId od pg).ledger k).map rowCore =
      (getOrderById st.ledger k).map rowCore := by
  show (getOrderById (updateOrderStatus st.ledger orderId OrderStatus.cancelled
      od.total_filled_quantity) k).map rowCore = _
  exact rowCore_updateOrderStatus st.ledger orderId _ _ k

theorem cancelState_side_levels (st : EngineState) (orderId : OrderId)
    (od : BookEntry) (pg : LedgerRow) (bs : BookSide) :
    (((cancelState st orderId od pg).book.side bs)).levels =
      if bs = bookSideOf pg.side
      then hsetA (st.book.side bs).levels (pg.price.getD 0)
        (removeFirst
          (getLevel (st.book.side (bookSideOf pg.side)) (pg.price.getD 0))
          orderId)
      else (st.book.side bs).levels := by
  simp only [cancelState]
  by_cases hbs : bs = bookSideOf pg.side
  · rw [if_pos hbs]
    subst hbs
    split
    · rw [side_setSide_self, levels_zrem, side_setSide_self, levels_hincrDepth,
        side_orders_update, side_setSide_self, levels_setLevel]
    · rw [side_setSide_self, levels_hincrDepth, side_orders_update,
        side_setSide_self, levels_setLevel]
  · rw [if_neg hbs]
    split
    · rw [side_setSide_ne _ _ _ _ hbs, side_setSide_ne _ _ _ _ hbs,
        side_orders_update, side_setSide_ne _ _ _ _ hbs]
    · rw [side_setSide_ne _ _ _ _ hbs, side_orders_update,
        side_setSide_ne _ _ _ _ hbs]

/-- A cancel of a book-resident order preserves the invariant. -/
theorem Inv_cancelState (st : EngineState) (orderId : OrderId) (od : BookEntry)
    (pg : LedgerRow) (hinv : Inv st)
    (ha : alookup st.book.orders orderId = some od)
    (hg : getOrderById st.ledger orderId = some pg) :
    Inv (cancelState st orderId od pg) := by
  obtain ⟨r, p, hr0, hp0, hm0⟩ := hinv.loc orderId od ha
  have hrp : pg = r := by
    rw [hr0] at hg
    exact (Option.some.inj hg).symm
  have hpg : pg.price.getD 0 = p := by rw [hrp, hp0]; rfl
  have hm : orderId ∈
      getLevel (st.book.side (bookSideOf pg.side)) (pg.price.getD 0) := by
    rw [hpg, hrp]
    exact hm0
  have hL := cancelState_side_levels st orderId od pg
  have hocc : ∀ id, occCount (cancelState st orderId od pg).book id +
      (getLevel (st.book.side (bookSideOf pg.side)) (pg.price.getD 0)).count id =
      occCount st.book id +
        (removeFirst
          (getLevel (st.book.side (bookSideOf pg.side)) (pg.price.getD 0))
          orderId).count id :=
    fun id => occCount_hsetA_level st.book _ (bookSideOf pg.side)
      (pg.price.getD 0)
      (removeFirst
        (getLevel (st.book.side (bookSideOf pg.side)) (pg.price.getD 0)) orderId)
      hL id
  refine ⟨?_, ?_, ?_, ?_, ?_⟩
  · exact nodup_hsetA_level st.book _ (bookSideOf pg.side) (pg.price.getD 0) _ hL
      BookSide.asks hinv.nodupAsks
  · exact nodup_hsetA_level st.book _ (bookSideOf pg.side) (pg.price.getD 0) _ hL
      BookSide.bids hinv.nodupBids
  · intro id
    rw [cancelState_orders]
    by_cases hid : id = orderId
    · subst hid
      rw [alookup_hdelA_self]
      show occCount (cancelState st id od pg).book id = 0
      have h1 := hocc id
      have h2 : occCount st.book id = 1 := by
        rw [hinv.occ id, ha]
        rfl
      have h3 := count_removeFirst_self _ id hm
      omega
    · rw [alookup_hdelA_ne _ _ _ hid, ← hinv.occ id]
      have h1 := hocc id
      have h3 := count_removeFirst_ne
        (getLevel (st.book.side (bookSideOf pg.side)) (pg.price.getD 0))
        orderId id hid
      omega
  · intro id e2 h
    rw [cancelState_orders] at h
    by_cases hid : id = orderId
    · subst hid
      rw [alookup_hdelA_self] at h
      cases h
    · rw [alookup_hdelA_ne _ _ _ hid] at h
      exact hinv.qty id e2 h
  · intro id e2 h
    rw [cancelState_orders] at h
    by_cases hid : id = orderId
    · subst hid
      rw [alookup_hdelA_self] at h
      cases h
    · rw [alookup_hdelA_ne _ _ _ hid] at h
      obtain ⟨r2, p2, hr2, hp2, hm2⟩ := hinv.loc id e2 h
      have hlg := cancelState_ledger_core st orderId od pg id
      rw [hr2] at hlg
      cases hg2 : getOrderById (cancelState st orderId od pg).ledger id with
      | none => rw [hg2] at hlg; simp at hlg
      | some r3 =>
          rw [hg2] at hlg
          simp only [Option.map_some'] at hlg
          have hcore := Option.some.inj hlg
          refine ⟨r3, p2, rfl, by rw [rowCore_price hcore, hp2], ?_⟩
          rw [rowCore_side hcore,
            getLevel_hsetA_level st.book _ (bookSideOf pg.side)
              (pg.price.getD 0) _ hL]
          split
          · rename_i hc
            rw [hc.1, hc.2] at hm2
            exact (mem_removeFirst_of_ne _ orderId id hid).2 hm2
          · exact hm2

theorem Inv_handleCancelJob (st : EngineState) (orderId : OrderId)
    (st2 : EngineState) (hinv : Inv st)
    (h : handleCancelJob st orderId = some st2) : Inv st2 := by
  rcases handleCancelJob_cases st orderId with ⟨ha, hE⟩ | ⟨od, ha, hg, hE⟩ |
    ⟨od, pg, ha, hg, hE⟩
  · rw [hE] at h
    rw [← Option.some.inj h]
    exact hinv
  · rw [hE] at h
    exact Option.noConfusion h
  · rw [hE] at h
    rw [← Option.some.inj h]
    exact Inv_cancelState st orderId od pg hinv ha hg

/-- Rewriting one ledger row's status and fill leaves the invariant intact. -/
theorem Inv_ledger_update (st : EngineState) (id0 : OrderId) (s : OrderStatus)
    (fq : ℚ) (hinv : Inv st) :
    Inv { st with ledger := updateOrderStatus st.ledger id0 s fq } := by
  refine Inv_transfer st _ (fun bs => rfl) rfl
    (fun id => rowCore_updateOrderStatus _ _ _ _ id) hinv

/-- A market submit job preserves the invariant. -/
theorem matchMarketOrder_inv (fuel : Nat) (t : TakerOrder) (st : EngineState)
    (hinv : Inv st) : Inv (matchMarketOrder fuel t st) := by
  simp only [matchMarketOrder]
  exact Inv_ledger_update (processMatchingLoop fuel t st).2.1 _ _ _
    (loop_inv fuel t st hinv)

/-- A limit submit job preserves the invariant, given Intake's guarantees:
a fresh order id and a ledger row naming the order's side and price. -/
theorem matchLimitOrder_inv (fuel : Nat) (t : TakerOrder) (st : EngineState)
    (hinv : Inv st)
    (hfresh : alookup st.book.orders t.order_id = none)
    (hrow : ∃ r, getOrderById st.ledger t.order_id = some r ∧ r.side = t.side ∧
      r.price = t.price ∧ t.price.isSome = true) :
    Inv (matchLimitOrder fuel t st) := by
  obtain ⟨r, hr, hrs, hrp, hps⟩ := hrow
  have hid : (processMatchingLoop fuel t st).1.order_id = t.order_id := by
    rw [(loop_taker fuel t st).1]
  have hsd : (processMatchingLoop fuel t st).1.side = t.side := by
    rw [(loop_taker fuel t st).1]
  have hpr : (processMatchingLoop fuel t st).1.price = t.price := by
    rw [(loop_taker fuel t st).1]
  simp only [matchLimitOrder]
  split
  · rename_i hrem
    refine Inv_ledger_update _ _ _ _
      (Inv_addOrderToBook _ _ (loop_inv fuel t st hinv) ?_ ?_ ?_)
    · show alookup (processMatchingLoop fuel t st).2.1.book.orders
        ((processMatchingLoop fuel t st).1.order_id) = none
      rw [hid]
      exact loop_unmapped fuel t st t.order_id hfresh
    · exact hrem
    · have h3 := loop_ledger fuel t st t.order_id
      rw [hr] at h3
      cases hg2 : getOrderById (processMatchingLoop fuel t st).2.1.ledger
          t.order_id with
      | none => rw [hg2] at h3; simp at h3
      | some r2 =>
          rw [hg2] at h3
          simp only [Option.map_some'] at h3
          have hcore := Option.some.inj h3
          obtain ⟨px, hpx⟩ := Option.isSome_iff_exists.1 hps
          refine ⟨r2, ?_, ?_, ?_⟩
          · show getOrderById (processMatchingLoop fuel t st).2.1.ledger
              ((processMatchingLoop fuel t st).1.order_id) = some r2
            rw [hid]
            exact hg2
          · show r2.side = (processMatchingLoop fuel t st).1.side
            rw [rowCore_side hcore, hrs, hsd]
          · show r2.price = some ((processMatchingLoop fuel t st).1.price.getD 0)
            rw [rowCore_price hcore, hrp, hpr, hpx]
            rfl
  · exact Inv_ledger_update (processMatchingLoop fuel t st).2.1 _ _ _
      (loop_inv fuel t st hinv)

/-- Any single queue job preserves the invariant, given Intake's guarantees. -/
theorem processOrderJob_inv (fuel : Nat) (st : EngineState) (j : Job)
    (hinv : Inv st) (hjob : jobOK st j) :
    Inv (processOrderJob fuel st j) := by
  cases j with
  | processOrder t =>
      obtain ⟨hfresh, hlim⟩ := hjob
      simp only [processOrderJob]
      split
      · exact matchMarketOrder_inv fuel t st hinv
      · rename_i hty
        have hty2 : t.type = OrderType.limit := by
          cases h : t.type
          · rfl
          · exact absurd h hty
        exact matchLimitOrder_inv fuel t st hinv hfresh (hlim hty2)
  | processCancellation i =>
      simp only [processOrderJob]
      cases hc : handleCancelJob st i with
      | none => exact hinv
      | some s2 => exact Inv_handleCancelJob st i s2 hinv hc

/-- The whole job queue preserves the invariant. -/
theorem runJobs_inv (fuel : Nat) (jobs : List Job) (st : EngineState)
    (hinv : Inv st) (hjobs : jobsOK fuel st jobs) :
    Inv (runJobs fuel jobs st) := by
  induction jobs generalizing st with
  | nil => exact hinv
  | cons j rest ih =>
      obtain ⟨hj, hrest⟩ := hjobs
      exact ih (processOrderJob fuel st j)
        (processOrderJob_inv fuel st j hinv hj) hrest

/-- The claim-shaped reading of Inv: membership in some level iff mapped,
unique location, and stored quantities above EPSILON (hence positive). -/
theorem Inv_book_wf (st : EngineState) (hinv : Inv st) :
    (∀ id, (∃ bs p, id ∈ getLevel (st.book.side bs) p) ↔
      (alookup st.book.orders id).isSome = true) ∧
    (∀ id bs p bs' p', id ∈ getLevel (st.book.side bs) p →
      id ∈ getLevel (st.book.side bs') p' → bs = bs' ∧ p = p') ∧
    (∀ id e, alookup st.book.orders id = some e →
      0 < e.quantity ∧ EPSILON < e.quantity) := by
  refine ⟨?_, ?_, ?_⟩
  · intro id
    constructor
    · rintro ⟨bs, p, hm⟩
      have hc := List.one_le_count_iff.2 hm
      have hc2 := count_le_occSide (st.book.side bs) p id
      have hc3 := occCount_side st.book bs id
      have h := hinv.occ id
      by_cases hs : (alookup st.book.orders id).isSome = true
      · exact hs
      · rw [if_neg hs] at h
        omega
    · intro hs
      have h := hinv.occ id
      rw [if_pos hs] at h
      have hsplit : 0 < occSide st.book.asks id ∨ 0 < occSide st.book.bids id := by
        have hcc : occCount st.book id =
            occSide st.book.asks id + occSide st.book.bids id := rfl
        omega
      rcases hsplit with h1 | h1
      · obtain ⟨p, hp⟩ := occSide_pos st.book.asks id hinv.nodupAsks h1
        exact ⟨BookSide.asks, p, hp⟩
      · obtain ⟨p, hp⟩ := occSide_pos st.book.bids id hinv.nodupBids h1
        exact ⟨BookSide.bids, p, hp⟩
  · intro id bs p bs' p' h1 h2
    have h := hinv.occ id
    have hle : occCount st.book id ≤ 1 := by
      by_cases hs : (alookup st.book.orders id).isSome = true
      · rw [if_pos hs] at h
        omega
      · rw [if_neg hs] at h
        omega
    exact uniqueLoc st.book id hle bs bs' p p' h1 h2
  · intro id e h
    have hq := hinv.qty id e h
    exact ⟨lt_trans EPSILON_pos hq, hq⟩

/-- C9: after any serialized run of the job queue from a well-formed state,
with Intake's guarantees for each submit job (fresh order id; for a limit
order a ledger row naming its side and price), the book satisfies: an order
id appears in some price-level sequence if and only if it has an entry in
the resting-orders map, it appears in at most one level (same side and same
price for any two appearances), and its stored remaining quantity is
strictly greater than 0, indeed greater than EPSILON. -/
theorem C9_book_invariant (fuel : Nat) (jobs : List Job) (st : EngineState)
    (hinv : Inv st) (hjobs : jobsOK fuel st jobs) :
    (∀ id, (∃ bs p, id ∈ getLevel ((runJobs fuel jobs st).book.side bs) p) ↔
      (alookup (runJobs fuel jobs st).book.orders id).isSome = true) ∧
    (∀ id bs p bs' p',
      id ∈ getLevel ((runJobs fuel jobs st).book.side bs) p →
      id ∈ getLevel ((runJobs fuel jobs st).book.side bs') p' →
      bs = bs' ∧ p = p') ∧
    (∀ id e, alookup (runJobs fuel jobs st).book.orders id = some e →
      0 < e.quantity ∧ EPSILON < e.quantity) :=
  Inv_book_wf (runJobs fuel jobs st) (runJobs_inv fuel jobs st hinv hjobs)

/-! C5: the per-row ledger invariants, over every row and both job kinds. -/

/-- The corrected per-row conditions: filled means filled up to EPSILON dust;
exactly-full rows are filled; open rows have no fill; partially_filled rows
are not fully filled (the fill may be 0, as for a market taker stranded on
an exhausted book). -/
def rowOK (r : LedgerRow) : Prop :=
  0 ≤ r.filled_quantity ∧ r.filled_quantity ≤ r.quantity ∧
  (r.status = OrderStatus.filled → r.quantity - r.filled_quantity ≤ EPSILON) ∧
  (r.status = OrderStatus.open_ → r.filled_quantity = 0) ∧
  (r.status = OrderStatus.partially_filled → r.filled_quantity < r.quantity) ∧
  (r.filled_quantity = r.quantity → r.status = OrderStatus.filled)

/-- Book/ledger coherence: a resting entry carries exactly the ledger row's
accumulated fill, remaining + fill equals the row's quantity, and resting
rows are open or partially filled (never terminal). -/
def cohOK (st : EngineState) : Prop :=
  ∀ id e, alookup st.book.orders id = some e →
    ∃ r, getOrderById st.ledger id = some r ∧
      e.total_filled_quantity = r.filled_quantity ∧
      e.quantity + e.total_filled_quantity = r.quantity ∧
      (r.status = OrderStatus.open_ ∨ r.status = OrderStatus.partially_filled)

def rowsOK (st : EngineState) : Prop :=
  ∀ id r, getOrderById st.ledger id = some r → rowOK r

/-- All rows satisfy rowOK except possibly the in-flight taker's (the loop
stamps the taker partially_filled even on a full fill; the wrapper fixes the
status after the loop). -/
def rowsOKExcept (st : EngineState) (tid : OrderId) : Prop :=
  ∀ id r, getOrderById st.ledger id = some r → id ≠ tid → rowOK r

def terminalRow (r : LedgerRow) : Prop :=
  r.status = OrderStatus.filled ∨ r.status = OrderStatus.cancelled ∨
    r.status = OrderStatus.rejected

/-- Intake's full guarantees for a submit job: fresh book id, zero initial
in-memory fill, validated positive quantity, a freshly saved open ledger row
of the same quantity, and for a limit order a row naming side and price. -/
def jobOK5 (st : EngineState) : Job → Prop
  | Job.processOrder t =>
      alookup st.book.orders t.order_id = none ∧
      t.filled_quantity = 0 ∧ 0 < t.quantity ∧
      (∃ r, getOrderById st.ledger t.order_id = some r ∧
        r.status = OrderStatus.open_ ∧ r.filled_quantity = 0 ∧
        r.quantity = t.quantity) ∧
      (t.type = OrderType.limit →
        ∃ r, getOrderById st.ledger t.order_id = some r ∧ r.side = t.side ∧
          r.price = t.price ∧ t.price.isSome = true)
  | Job.processCancellation _ => True

def jobsOK5 (fuel : Nat) : EngineState → List Job → Prop
  | _, [] => True
  | st, j :: rest => jobOK5 st j ∧ jobsOK5 fuel (processOrderJob fuel st j) rest

theorem jobOK5_to_jobOK (st : EngineState) (j : Job) (h : jobOK5 st j) :
    jobOK st j := by
  cases j with
  | processOrder t => exact ⟨h.1, h.2.2.2.2⟩
  | processCancellation i => trivial

theorem rows_transfer (st st2 : EngineState) (tid : OrderId)
    (ho : st2.book.orders = st.book.orders)
    (hl : st2.ledger = st.ledger)
    (h : cohOK st ∧ rowsOKExcept st tid) :
    cohOK st2 ∧ rowsOKExcept st2 tid := by
  obtain ⟨hcoh, hrows⟩ := h
  constructor
  · intro id e he
    rw [ho] at he
    rw [hl]
    exact hcoh id e he
  · intro id r hr hid
    rw [hl] at hr
    exact hrows id r hr hid

/-- Under coherence, a terminal row's order is not resting in the book. -/
theorem terminal_not_resident (st : EngineState) (hcoh : cohOK st)
    (id : OrderId) (r : LedgerRow) (hr : getOrderById st.ledger id = some r)
    (hterm : terminalRow r) : alookup st.book.orders id = none := by
  cases he : alookup st.book.orders id with
  | none => rfl
  | some e =>
      obtain ⟨r2, hr2, _, _, hstat⟩ := hcoh id e he
      rw [hr] at hr2
      have hrr : r = r2 := Option.some.inj hr2
      exfalso
      rw [← hrr] at hstat
      rcases hstat with h1 | h1 <;> rcases hterm with h2 | h2 | h2 <;>
        rw [h1] at h2 <;> exact OrderStatus.noConfusion h2

theorem matchIter_order_id (t : TakerOrder) (st : EngineState) :
    (matchIter t st).taker.order_id = t.order_id := by
  rcases matchIter_taker t st with hr | ⟨e, hr, _, _⟩
  · rw [hr]
  · rw [hr]
    rfl

/-- A loop iteration only writes the ledger rows of the taker and of a maker
currently resting in the book. -/
theorem matchIter_frame (t : TakerOrder) (st : EngineState) (id : OrderId)
    (hid : id ≠ t.order_id)
    (hres : alookup st.book.orders id = none) :
    getOrderById (matchIter t st).st.ledger id = getOrderById st.ledger id := by
  rcases matchIterCases t st with ⟨_, hE⟩ | ⟨bp, _, _, _, hE⟩ |
    ⟨bp, mk, rest, _, _, _, _, hE⟩ | ⟨bp, mk, rest, e, _, _, _, hmk, hE⟩
  · rw [hE]
  · rw [hE]
  · rw [hE]
  · have hne : id ≠ mk := by
      intro hh
      rw [hh, hmk] at hres
      cases hres
    rcases tradeExecCases t st bp mk rest e with ⟨_, hT⟩ | ⟨_, _, hT⟩ | ⟨_, _, hT⟩
    · rw [hE, hT]
    · rw [hE, hT, filledState_ledger, getOrderById_updateOrderStatus,
        if_neg hid, getOrderById_updateOrderStatus, if_neg hne,
        getOrderById_createTrade]
    · rw [hE, hT, partialState_ledger, getOrderById_updateOrderStatus,
        if_neg hid, getOrderById_updateOrderStatus, if_neg hne,
        getOrderById_createTrade]

theorem loop_frame (fuel : Nat) (t : TakerOrder) (st : EngineState)
    (id : OrderId) (hid : id ≠ t.order_id)
    (hres : alookup st.book.orders id = none) :
    getOrderById (processMatchingLoop fuel t st).2.1.ledger id =
      getOrderById st.ledger id := by
  induction fuel generalizing t st with
  | zero => rfl
  | succ n ih =>
      simp only [processMatchingLoop]
      split
      · split
        · rw [ih (matchIter t st).taker (matchIter t st).st
              (by rw [matchIter_order_id]; exact hid)
              (matchIter_unmapped t st id hres)]
          exact matchIter_frame t st id hid hres
        · exact matchIter_frame t st id hid hres
      · rfl

/-- A full-fill trade step keeps coherence and the row conditions of every
row but the in-flight taker's. -/
theorem rows_filledState (t : TakerOrder) (st : EngineState) (bp : ℚ)
    (mk : OrderId) (rest : List OrderId) (e : BookEntry)
    (hfresh : alookup st.book.orders t.order_id = none)
    (hmk : alookup st.book.orders mk = some e)
    (hcoh : cohOK st) (hrows : rowsOKExcept st t.order_id)
    (h2 : e.quantity - tradeQtyOf t e ≤ EPSILON)
    (htq : EPSILON < tradeQtyOf t e) :
    cohOK (filledState t st bp mk rest e) ∧
    rowsOKExcept (filledState t st bp mk rest e) t.order_id := by
  have hne : mk ≠ t.order_id := by
    intro hh
    rw [hh, hfresh] at hmk
    cases hmk
  have htqe : tradeQtyOf t e ≤ e.quantity := min_le_right _ _
  have heps := EPSILON_pos
  obtain ⟨rm, hrm, htf, hsum, _⟩ := hcoh mk e hmk
  obtain ⟨hb0, hb1, _, _, _, _⟩ := hrows mk rm hrm hne
  constructor
  · intro id e2 he2
    rw [filledState_orders] at he2
    by_cases hid : id = mk
    · subst hid
      rw [alookup_hdelA_self] at he2
      cases he2
    · rw [alookup_hdelA_ne _ _ _ hid] at he2
      have hidt : id ≠ t.order_id := by
        intro hh
        rw [hh, hfresh] at he2
        cases he2
      obtain ⟨r, hr, c1, c2, c3⟩ := hcoh id e2 he2
      refine ⟨r, ?_, c1, c2, c3⟩
      rw [filledState_ledger, getOrderById_updateOrderStatus, if_neg hidt,
        getOrderById_updateOrderStatus, if_neg hid, getOrderById_createTrade]
      exact hr
  · intro id r hrF hid
    rw [filledState_ledger, getOrderById_updateOrderStatus, if_neg hid,
      getOrderById_updateOrderStatus] at hrF
    by_cases hidmk : id = mk
    · rw [if_pos hidmk, hidmk, getOrderById_createTrade, hrm] at hrF
      simp only [Option.map_some'] at hrF
      rw [← Option.some.inj hrF]
      refine ⟨?_, ?_, ?_, ?_, ?_, ?_⟩
      · show (0:ℚ) ≤ e.total_filled_quantity + tradeQtyOf t e
        rw [htf]
        linarith
      · show e.total_filled_quantity + tradeQtyOf t e ≤ rm.quantity
        linarith
      · intro _
        show rm.quantity - (e.total_filled_quantity + tradeQtyOf t e) ≤ EPSILON
        linarith
      · intro hc
        exact absurd hc (by intro hcc; exact OrderStatus.noConfusion hcc)
      · intro hc
        exact absurd hc (by intro hcc; exact OrderStatus.noConfusion hcc)
      · intro _
        rfl
    · rw [if_neg hidmk, getOrderById_createTrade] at hrF
      exact hrows id r hrF hid

/-- A partial-fill trade step keeps coherence and the row conditions of
every row but the in-flight taker's. -/
theorem rows_partialState (t : TakerOrder) (st : EngineState) (bp : ℚ)
    (mk : OrderId) (rest : List OrderId) (e : BookEntry)
    (hfresh : alookup st.book.orders t.order_id = none)
    (hmk : alookup st.book.orders mk = some e)
    (hcoh : cohOK st) (hrows : rowsOKExcept st t.order_id)
    (h2 : EPSILON < e.quantity - tradeQtyOf t e)
    (htq : EPSILON < tradeQtyOf t e) :
    cohOK (partialState t st bp mk rest e) ∧
    rowsOKExcept (partialState t st bp mk rest e) t.order_id := by
  have hne : mk ≠ t.order_id := by
    intro hh
    rw [hh, hfresh] at hmk
    cases hmk
  have htqe : tradeQtyOf t e ≤ e.quantity := min_le_right _ _
  have heps := EPSILON_pos
  obtain ⟨rm, hrm, htf, hsum, _⟩ := hcoh mk e hmk
  obtain ⟨hb0, hb1, _, _, _, _⟩ := hrows mk rm hrm hne
  have hrmk : getOrderById (partialState t st bp mk rest e).ledger mk =
      some { rm with
             status := OrderStatus.partially_filled
             filled_quantity := e.total_filled_quantity + tradeQtyOf t e } := by
    rw [partialState_ledger, getOrderById_updateOrderStatus, if_neg hne,
      getOrderById_updateOrderStatus, if_pos rfl, getOrderById_createTrade, hrm]
    rfl
  constructor
  · intro id e2 he2
    rw [partialState_orders] at he2
    by_cases hid : id = mk
    · subst hid
      rw [alookup_hsetA_self] at he2
      have hee : e2 = makerEntryAfter e t := (Option.some.inj he2).symm
      subst hee
      refine ⟨_, hrmk, rfl, ?_, Or.inr rfl⟩
      show (e.quantity - tradeQtyOf t e) +
        (e.total_filled_quantity + tradeQtyOf t e) = rm.quantity
      linarith
    · rw [alookup_hsetA_ne _ _ _ _ hid] at he2
      have hidt : id ≠ t.order_id := by
        intro hh
        rw [hh, hfresh] at he2
        cases he2
      obtain ⟨r, hr, c1, c2, c3⟩ := hcoh id e2 he2
      refine ⟨r, ?_, c1, c2, c3⟩
      rw [partialState_ledger, getOrderById_updateOrderStatus, if_neg hidt,
        getOrderById_updateOrderStatus, if_neg hid, getOrderById_createTrade]
      exact hr
  · intro id r hrF hid
    by_cases hidmk : id = mk
    · subst hidmk
      rw [hrmk] at hrF
      rw [← Option.some.inj hrF]
      refine ⟨?_, ?_, ?_, ?_, ?_, ?_⟩
      · show (0:ℚ) ≤ e.total_filled_quantity + tradeQtyOf t e
        rw [htf]
        linarith
      · show e.total_filled_quantity + tradeQtyOf t e ≤ rm.quantity
        linarith
      · intro hc
        exact absurd hc (by intro hcc; exact OrderStatus.noConfusion hcc)
      · intro hc
        exact absurd hc (by intro hcc; exact OrderStatus.noConfusion hcc)
      · intro _
        show e.total_filled_quantity + tradeQtyOf t e < rm.quantity
        linarith
      · intro hc
        exfalso
        have hc2 : e.total_filled_quantity + tradeQtyOf t e = rm.quantity := hc
        linarith
    · rw [partialState_ledger, getOrderById_updateOrderStatus, if_neg hid,
        getOrderById_updateOrderStatus, if_neg hidmk,
        getOrderById_createTrade] at hrF
      exact hrows id r hrF hid

/-- One iteration of the matching loop keeps coherence and the row
conditions of every row but the in-flight taker's. -/
theorem matchIter_rows (t : TakerOrder) (st : EngineState) (hinv : Inv st)
    (hrem : EPSILON < t.quantity - t.filled_quantity)
    (hfresh : alookup st.book.orders t.order_id = none)
    (hcoh : cohOK st) (hrows : rowsOKExcept st t.order_id) :
    cohOK (matchIter t st).st ∧ rowsOKExcept (matchIter t st).st t.order_id := by
  rcases matchIterCases t st with ⟨_, hE⟩ | ⟨bp, hbp, hg, hlv, hE⟩ |
    ⟨bp, mk, rest, hbp, hg, hlv, hmk, hE⟩ | ⟨bp, mk, rest, e, hbp, hg, hlv, hmk, hE⟩
  · rw [hE]
    exact ⟨hcoh, hrows⟩
  · rw [hE]
    exact rows_transfer st _ t.order_id (orders_setSide _ _ _) rfl ⟨hcoh, hrows⟩
  · exfalso
    have hmem : mk ∈ getLevel (st.book.side (opposingSideOf t.side)) bp := by
      rw [hlv]
      exact List.mem_cons_self mk rest
    have hc2 := List.one_le_count_iff.2 hmem
    have hc3 := count_le_occSide (st.book.side (opposingSideOf t.side)) bp mk
    have hc4 := occCount_side st.book (opposingSideOf t.side) mk
    have h3 := hinv.occ mk
    rw [hmk] at h3
    simp at h3
    omega
  · rcases tradeExecCases t st bp mk rest e with ⟨htiny, hT⟩ | ⟨h1, h2, hT⟩ |
      ⟨h1, h2, hT⟩
    · exfalso
      have hq := hinv.qty mk e hmk
      have : EPSILON < tradeQtyOf t e := lt_min hrem hq
      exact absurd htiny (not_le.2 this)
    · rw [hE, hT]
      exact rows_filledState t st bp mk rest e hfresh hmk hcoh hrows h2 h1
    · rw [hE, hT]
      exact rows_partialState t st bp mk rest e hfresh hmk hcoh hrows h2 h1

/-- The whole matching loop keeps coherence and the row conditions of every
row but the taker's. -/
theorem loop_rows (fuel : Nat) (t : TakerOrder) (st : EngineState)
    (hinv : Inv st)
    (hfresh : alookup st.book.orders t.order_id = none)
    (hcoh : cohOK st) (hrows : rowsOKExcept st t.order_id) :
    cohOK (processMatchingLoop fuel t st).2.1 ∧
    rowsOKExcept (processMatchingLoop fuel t st).2.1 t.order_id := by
  induction fuel generalizing t st with
  | zero => exact ⟨hcoh, hrows⟩
  | succ n ih =>
      simp only [processMatchingLoop]
      split
      · rename_i hrem
        split
        · have h3 := matchIter_rows t st hinv hrem hfresh hcoh hrows
          have h4 := ih (matchIter t st).taker (matchIter t st).st
            (matchIter_inv t st hinv hrem)
            (by rw [matchIter_order_id]; exact matchIter_unmapped t st _ hfresh)
            h3.1 (by rw [matchIter_order_id]; exact h3.2)
          rw [matchIter_order_id] at h4
          exact h4
        · exact matchIter_rows t st hinv hrem hfresh hcoh hrows
      · exact ⟨hcoh, hrows⟩

/-- A market submit job leaves every ledger row coherent and row-correct. -/
theorem matchMarketOrder_rows (fuel : Nat) (t : TakerOrder) (st : EngineState)
    (hinv : Inv st)
    (hfresh : alookup st.book.orders t.order_id = none)
    (hcoh : cohOK st) (hrows : rowsOKExcept st t.order_id)
    (ht0 : t.filled_quantity = 0) (htq : 0 < t.quantity)
    (hrow : ∃ r0, getOrderById st.ledger t.order_id = some r0 ∧
      r0.status = OrderStatus.open_ ∧ r0.filled_quantity = 0 ∧
      r0.quantity = t.quantity) :
    cohOK (matchMarketOrder fuel t st) ∧ rowsOK (matchMarketOrder fuel t st) := by
  obtain ⟨r0, hr0, hopen, hfq0, hq0⟩ := hrow
  obtain ⟨hcohL, hrowsL⟩ := loop_rows fuel t st hinv hfresh hcoh hrows
  have hfreshL := loop_unmapped fuel t st t.order_id hfresh
  obtain ⟨h1a, h1b, h1c⟩ := loop_taker fuel t st
  have hq1 : (processMatchingLoop fuel t st).1.quantity = t.quantity := by rw [h1a]
  have ho1 : (processMatchingLoop fuel t st).1.order_id = t.order_id := by rw [h1a]
  have hfnn : 0 ≤ (processMatchingLoop fuel t st).1.filled_quantity := by
    rw [ht0] at h1b
    exact h1b
  have hfq : (processMatchingLoop fuel t st).1.filled_quantity ≤ t.quantity := by
    refine h1c ?_
    rw [ht0]
    exact le_of_lt htq
  obtain ⟨r1, hr1, hr1q⟩ := loop_row fuel t st r0 hr0
  have hrq1 : r1.quantity = t.quantity := by rw [hr1q, hq0]
  have heps := EPSILON_pos
  have hmain : ∀ (S : OrderStatus),
      getOrderById (updateOrderStatus (processMatchingLoop fuel t st).2.1.ledger
        (processMatchingLoop fuel t st).1.order_id S
        (processMatchingLoop fuel t st).1.filled_quantity) t.order_id =
      some { r1 with
              status := S
              filled_quantity :=
                (processMatchingLoop fuel t st).1.filled_quantity } := by
    intro S
    rw [ho1, getOrderById_updateOrderStatus, if_pos rfl, hr1]
    rfl
  have hother : ∀ (S : OrderStatus) (id : OrderId), id ≠ t.order_id →
      getOrderById (updateOrderStatus (processMatchingLoop fuel t st).2.1.ledger
        (processMatchingLoop fuel t st).1.order_id S
        (processMatchingLoop fuel t st).1.filled_quantity) id =
      getOrderById (processMatchingLoop fuel t st).2.1.ledger id := by
    intro S id hid
    rw [getOrderById_updateOrderStatus, if_neg (by rw [ho1]; exact hid)]
  simp only [matchMarketOrder]
  split
  · rename_i hcond
    rw [hq1] at hcond
    constructor
    · intro id e he
      have he2 : alookup (processMatchingLoop fuel t st).2.1.book.orders id =
          some e := he
      have hid : id ≠ t.order_id := by
        intro hh
        rw [hh, hfreshL] at he2
        cases he2
      obtain ⟨r, hr, c1, c2, c3⟩ := hcohL id e he2
      refine ⟨r, ?_, c1, c2, c3⟩
      show getOrderById (updateOrderStatus
        (processMatchingLoop fuel t st).2.1.ledger
        (processMatchingLoop fuel t st).1.order_id
        OrderStatus.partially_filled
        (processMatchingLoop fuel t st).1.filled_quantity) id = some r
      rw [hother OrderStatus.partially_filled id hid]
      exact hr
    · intro id r hrF
      have hrF2 : getOrderById (updateOrderStatus
          (processMatchingLoop fuel t st).2.1.ledger
          (processMatchingLoop fuel t st).1.order_id
          OrderStatus.partially_filled
          (processMatchingLoop fuel t st).1.filled_quantity) id = some r := hrF
      by_cases hid : id = t.order_id
      · rw [hid, hmain OrderStatus.partially_filled] at hrF2
        rw [← Option.some.inj hrF2]
        refine ⟨?_, ?_, ?_, ?_, ?_, ?_⟩
        · exact hfnn
        · show (processMatchingLoop fuel t st).1.filled_quantity ≤ r1.quantity
          rw [hrq1]
          exact hfq
        · intro hc
          exact absurd hc (by intro hcc; exact OrderStatus.noConfusion hcc)
        · intro hc
          exact absurd hc (by intro hcc; exact OrderStatus.noConfusion hcc)
        · intro _
          show (processMatchingLoop fuel t st).1.filled_quantity < r1.quantity
          rw [hrq1]
          linarith
        · intro hc
          exfalso
          have hc2 : (processMatchingLoop fuel t st).1.filled_quantity =
              r1.quantity := hc
          rw [hrq1] at hc2
          linarith
      · rw [hother OrderStatus.partially_filled id hid] at hrF2
        exact hrowsL id r hrF2 hid
  · rename_i hcond
    rw [hq1] at hcond
    push_neg at hcond
    constructor
    · intro id e he
      have he2 : alookup (processMatchingLoop fuel t st).2.1.book.orders id =
          some e := he
      have hid : id ≠ t.order_id := by
        intro hh
        rw [hh, hfreshL] at he2
        cases he2
      obtain ⟨r, hr, c1, c2, c3⟩ := hcohL id e he2
      refine ⟨r, ?_, c1, c2, c3⟩
      show getOrderById (updateOrderStatus
        (processMatchingLoop fuel t st).2.1.ledger
        (processMatchingLoop fuel t st).1.order_id
        OrderStatus.filled
        (processMatchingLoop fuel t st).1.filled_quantity) id = some r
      rw [hother OrderStatus.filled id hid]
      exact hr
    · intro id r hrF
      have hrF2 : getOrderById (updateOrderStatus
          (processMatchingLoop fuel t st).2.1.ledger
          (processMatchingLoop fuel t st).1.order_id
          OrderStatus.filled
          (processMatchingLoop fuel t st).1.filled_quantity) id = some r := hrF
      by_cases hid : id = t.order_id
      · rw [hid, hmain OrderStatus.filled] at hrF2
        rw [← Option.some.inj hrF2]
        refine ⟨?_, ?_, ?_, ?_, ?_, ?_⟩
        · exact hfnn
        · show (processMatchingLoop fuel t st).1.filled_quantity ≤ r1.quantity
          rw [hrq1]
          exact hfq
        · intro _
          show r1.quantity -
            (processMatchingLoop fuel t st).1.filled_quantity ≤ EPSILON
          rw [hrq1]
          exact hcond
        · intro hc
          exact absurd hc (by intro hcc; exact OrderStatus.noConfusion hcc)
        · intro hc
          exact absurd hc (by intro hcc; exact OrderStatus.noConfusion hcc)
        · intro _
          rfl
      · rw [hother OrderStatus.filled id hid] at hrF2
        exact hrowsL id r hrF2 hid

/-- A limit submit job leaves every ledger row coherent and row-correct. -/
theorem matchLimitOrder_rows (fuel : Nat) (t : TakerOrder) (st : EngineState)
    (hinv : Inv st)
    (hfresh : alookup st.book.orders t.order_id = none)
    (hcoh : cohOK st) (hrows : rowsOKExcept st t.order_id)
    (ht0 : t.filled_quantity = 0) (htq : 0 < t.quantity)
    (hrow : ∃ r0, getOrderById st.ledger t.order_id = some r0 ∧
      r0.status = OrderStatus.open_ ∧ r0.filled_quantity = 0 ∧
      r0.quantity = t.quantity) :
    cohOK (matchLimitOrder fuel t st) ∧ rowsOK (matchLimitOrder fuel t st) := by
  obtain ⟨r0, hr0, hopen, hfq0, hq0⟩ := hrow
  obtain ⟨hcohL, hrowsL⟩ := loop_rows fuel t st hinv hfresh hcoh hrows
  have hfreshL := loop_unmapped fuel t st t.order_id hfresh
  obtain ⟨h1a, h1b, h1c⟩ := loop_taker fuel t st
  have hq1 : (processMatchingLoop fuel t st).1.quantity = t.quantity := by rw [h1a]
  have ho1 : (processMatchingLoop fuel t st).1.order_id = t.order_id := by rw [h1a]
  have hfnn : 0 ≤ (processMatchingLoop fuel t st).1.filled_quantity := by
    rw [ht0] at h1b
    exact h1b
  have hfq : (processMatchingLoop fuel t st).1.filled_quantity ≤ t.quantity := by
    refine h1c ?_
    rw [ht0]
    exact le_of_lt htq
  obtain ⟨r1, hr1, hr1q⟩ := loop_row fuel t st r0 hr0
  have hrq1 : r1.quantity = t.quantity := by rw [hr1q, hq0]
  have heps := EPSILON_pos
  have hmain : ∀ (S : OrderStatus),
      getOrderById (updateOrderStatus (processMatchingLoop fuel t st).2.1.ledger
        (processMatchingLoop fuel t st).1.order_id S
        (processMatchingLoop fuel t st).1.filled_quantity) t.order_id =
      some { r1 with
              status := S
              filled_quantity :=
                (processMatchingLoop fuel t st).1.filled_quantity } := by
    intro S
    rw [ho1, getOrderById_updateOrderStatus, if_pos rfl, hr1]
    rfl
  have hother : ∀ (S : OrderStatus) (id : OrderId), id ≠ t.order_id →
      getOrderById (updateOrderStatus (processMatchingLoop fuel t st).2.1.ledger
        (processMatchingLoop fuel t st).1.order_id S
        (processMatchingLoop fuel t st).1.filled_quantity) id =
      getOrderById (processMatchingLoop fuel t st).2.1.ledger id := by
    intro S id hid
    rw [getOrderById_updateOrderStatus, if_neg (by rw [ho1]; exact hid)]
  simp only [matchLimitOrder]
  split
  · rename_i hrem
    rw [hq1] at hrem
    split
    · rename_i hpos
      constructor
      · intro id e he
        dsimp only at he
        rw [addOrderToBook_orders] at he
        dsimp only at he
        by_cases hid : id = t.order_id
        · subst hid
          rw [ho1, alookup_hsetA_self] at he
          have hee : e = { client_id := (processMatchingLoop fuel t st).1.client_id
                           quantity := (processMatchingLoop fuel t st).1.quantity -
                             (processMatchingLoop fuel t st).1.filled_quantity
                           created_at :=
                             (processMatchingLoop fuel t st).1.created_at
                           total_filled_quantity :=
                             (processMatchingLoop fuel t st).1.filled_quantity } :=
            (Option.some.inj he).symm
          subst hee
          refine ⟨{ r1 with
                    status := OrderStatus.partially_filled
                    filled_quantity :=
                      (processMatchingLoop fuel t st).1.filled_quantity },
            ?_, rfl, ?_, Or.inr rfl⟩
          · dsimp only
            rw [addOrderToBook_ledger]
            exact hmain OrderStatus.partially_filled
          · show (processMatchingLoop fuel t st).1.quantity -
                (processMatchingLoop fuel t st).1.filled_quantity +
                (processMatchingLoop fuel t st).1.filled_quantity = r1.quantity
            rw [hq1, hrq1]
            ring
        · rw [alookup_hsetA_ne _ _ _ _ (by rw [ho1]; exact hid)] at he
          obtain ⟨r, hr, c1, c2, c3⟩ := hcohL id e he
          refine ⟨r, ?_, c1, c2, c3⟩
          dsimp only
          rw [addOrderToBook_ledger, hother OrderStatus.partially_filled id hid]
          exact hr
      · intro id r hrF
        dsimp only at hrF
        rw [addOrderToBook_ledger] at hrF
        by_cases hid : id = t.order_id
        · rw [hid, hmain OrderStatus.partially_filled] at hrF
          rw [← Option.some.inj hrF]
          refine ⟨?_, ?_, ?_, ?_, ?_, ?_⟩
          · exact hfnn
          · show (processMatchingLoop fuel t st).1.filled_quantity ≤ r1.quantity
            rw [hrq1]
            exact hfq
          · intro hc
            exact absurd hc (by intro hcc; exact OrderStatus.noConfusion hcc)
          · intro hc
            exact absurd hc (by intro hcc; exact OrderStatus.noConfusion hcc)
          · intro _
            show (processMatchingLoop fuel t st).1.filled_quantity < r1.quantity
            rw [hrq1]
            linarith
          · intro hc
            exfalso
            have hc2 : (processMatchingLoop fuel t st).1.filled_quantity =
                r1.quantity := hc
            rw [hrq1] at hc2
            linarith
        · rw [hother OrderStatus.partially_filled id hid] at hrF
          exact hrowsL id r hrF hid
    · rename_i hpos
      have hzero : (processMatchingLoop fuel t st).1.filled_quantity = 0 :=
        le_antisymm (not_lt.1 hpos) hfnn
      constructor
      · intro id e he
        dsimp only at he
        rw [addOrderToBook_orders] at he
        dsimp only at he
        by_cases hid : id = t.order_id
        · subst hid
          rw [ho1, alookup_hsetA_self] at he
          have hee : e = { client_id := (processMatchingLoop fuel t st).1.client_id
                           quantity := (processMatchingLoop fuel t st).1.quantity -
                             (processMatchingLoop fuel t st).1.filled_quantity
                           created_at :=
                             (processMatchingLoop fuel t st).1.created_at
                           total_filled_quantity :=
                             (processMatchingLoop fuel t st).1.filled_quantity } :=
            (Option.some.inj he).symm
          subst hee
          refine ⟨{ r1 with
                    status := OrderStatus.open_
                    filled_quantity :=
                      (processMatchingLoop fuel t st).1.filled_quantity },
            ?_, rfl, ?_, Or.inl rfl⟩
          · dsimp only
            rw [addOrderToBook_ledger]
            exact hmain OrderStatus.open_
          · show (processMatchingLoop fuel t st).1.quantity -
                (processMatchingLoop fuel t st).1.filled_quantity +
                (processMatchingLoop fuel t st).1.filled_quantity = r1.quantity
            rw [hq1, hrq1]
            ring
        · rw [alookup_hsetA_ne _ _ _ _ (by rw [ho1]; exact hid)] at he
          obtain ⟨r, hr, c1, c2, c3⟩ := hcohL id e he
          refine ⟨r, ?_, c1, c2, c3⟩
          dsimp only
          rw [addOrderToBook_ledger, hother OrderStatus.open_ id hid]
          exact hr
      · intro id r hrF
        dsimp only at hrF
        rw [addOrderToBook_ledger] at hrF
        by_cases hid : id = t.order_id
        · rw [hid, hmain OrderStatus.open_] at hrF
          rw [← Option.some.inj hrF]
          refine ⟨?_, ?_, ?_, ?_, ?_, ?_⟩
          · exact hfnn
          · show (processMatchingLoop fuel t st).1.filled_quantity ≤ r1.quantity
            rw [hrq1]
            exact hfq
          · intro hc
            exact absurd hc (by intro hcc; exact OrderStatus.noConfusion hcc)
          · intro _
            exact hzero
          · intro hc
            exact absurd hc (by intro hcc; exact OrderStatus.noConfusion hcc)
          · intro hc
            exfalso
            have hc2 : (processMatchingLoop fuel t st).1.filled_quantity =
                r1.quantity := hc
            rw [hzero] at hc2
            rw [hrq1] at hc2
            linarith
        · rw [hother OrderStatus.open_ id hid] at hrF
          exact hrowsL id r hrF hid
  · rename_i hcond
    rw [hq1] at hcond
    push_neg at hcond
    constructor
    · intro id e he
      have he2 : alookup (processMatchingLoop fuel t st).2.1.book.orders id =
          some e := he
      have hid : id ≠ t.order_id := by
        intro hh
        rw [hh, hfreshL] at he2
        cases he2
      obtain ⟨r, hr, c1, c2, c3⟩ := hcohL id e he2
      refine ⟨r, ?_, c1, c2, c3⟩
      show getOrderById (updateOrderStatus
        (processMatchingLoop fuel t st).2.1.ledger
        (processMatchingLoop fuel t st).1.order_id
        OrderStatus.filled
        (processMatchingLoop fuel t st).1.filled_quantity) id = some r
      rw [hother OrderStatus.filled id hid]
      exact hr
    · intro id r hrF
      have hrF2 : getOrderById (updateOrderStatus
          (processMatchingLoop fuel t st).2.1.ledger
          (processMatchingLoop fuel t st).1.order_id
          OrderStatus.filled
          (processMatchingLoop fuel t st).1.filled_quantity) id = some r := hrF
      by_cases hid : id = t.order_id
      · rw [hid, hmain OrderStatus.filled] at hrF2
        rw [← Option.some.inj hrF2]
        refine ⟨?_, ?_, ?_, ?_, ?_, ?_⟩
        · exact hfnn
        · show (processMatchingLoop fuel t st).1.filled_quantity ≤ r1.quantity
          rw [hrq1]
          exact hfq
        · intro _
          show r1.quantity -
            (processMatchingLoop fuel t st).1.filled_quantity ≤ EPSILON
          rw [hrq1]
          exact hcond
        · intro hc
          exact absurd hc (by intro hcc; exact OrderStatus.noConfusion hcc)
        · intro hc
          exact absurd hc (by intro hcc; exact OrderStatus.noConfusion hcc)
        · intro _
          rfl
      · rw [hother OrderStatus.filled id hid] at hrF2
        exact hrowsL id r hrF2 hid

/-- A successful cancel leaves every ledger row coherent and row-correct:
the cancelled row keeps its accumulated fill, and a resting order is never
exactly fully filled (its remaining exceeds EPSILON), so the
exactly-full-implies-filled condition survives the cancelled stamp. -/
theorem handleCancelJob_rows (st : EngineState) (orderId : OrderId)
    (st2 : EngineState) (hinv : Inv st) (hcoh : cohOK st) (hrows : rowsOK st)
    (h : handleCancelJob st orderId = some st2) :
    cohOK st2 ∧ rowsOK st2 := by
  rcases handleCancelJob_cases st orderId with ⟨ha, hE⟩ | ⟨od, ha, hg, hE⟩ |
    ⟨od, pg, ha, hg, hE⟩
  · rw [hE] at h
    rw [← Option.some.inj h]
    exact ⟨hcoh, hrows⟩
  · rw [hE] at h
    exact Option.noConfusion h
  · rw [hE] at h
    rw [← Option.some.inj h]
    obtain ⟨r, hr, htf, hsum, hstat⟩ := hcoh orderId od ha
    have hqe : EPSILON < od.quantity := hinv.qty orderId od ha
    have heps := EPSILON_pos
    obtain ⟨hb0, hb1, _, _, _, _⟩ := hrows orderId r hr
    constructor
    · intro id e he
      rw [cancelState_orders] at he
      by_cases hid : id = orderId
      · subst hid
        rw [alookup_hdelA_self] at he
        cases he
      · rw [alookup_hdelA_ne _ _ _ hid] at he
        obtain ⟨r2, hr2, c1, c2, c3⟩ := hcoh id e he
        refine ⟨r2, ?_, c1, c2, c3⟩
        show getOrderById (updateOrderStatus st.ledger orderId
          OrderStatus.cancelled od.total_filled_quantity) id = some r2
        rw [getOrderById_updateOrderStatus, if_neg hid]
        exact hr2
    · intro id r2 hrF
      have hrF2 : getOrderById (updateOrderStatus st.ledger orderId
          OrderStatus.cancelled od.total_filled_quantity) id = some r2 := hrF
      rw [getOrderById_updateOrderStatus] at hrF2
      by_cases hid : id = orderId
      · rw [if_pos hid, hid, hr] at hrF2
        simp only [Option.map_some'] at hrF2
        rw [← Option.some.inj hrF2]
        refine ⟨?_, ?_, ?_, ?_, ?_, ?_⟩
        · show (0:ℚ) ≤ od.total_filled_quantity
          rw [htf]
          exact hb0
        · show od.total_filled_quantity ≤ r.quantity
          rw [htf]
          exact hb1
        · intro hc
          exact absurd hc (by intro hcc; exact OrderStatus.noConfusion hcc)
        · intro hc
          exact absurd hc (by intro hcc; exact OrderStatus.noConfusion hcc)
        · intro hc
          exact absurd hc (by intro hcc; exact OrderStatus.noConfusion hcc)
        · intro hc
          exfalso
          have hc2 : od.total_filled_quantity = r.quantity := hc
          linarith
      · rw [if_neg hid] at hrF2
        exact hrows id r2 hrF2

/-- Every queue job leaves every ledger row coherent and row-correct, given
Intake's guarantees. -/
theorem processOrderJob_rows (fuel : Nat) (st : EngineState) (j : Job)
    (hinv : Inv st) (hcoh : cohOK st) (hrows : rowsOK st)
    (hjob : jobOK5 st j) :
    cohOK (processOrderJob fuel st j) ∧ rowsOK (processOrderJob fuel st j) := by
  cases j with
  | processOrder t =>
      obtain ⟨hfresh, ht0, htq, hrow, hlim⟩ := hjob
      have hrowsE : rowsOKExcept st t.order_id := fun id r h _ => hrows id r h
      simp only [processOrderJob]
      split
      · exact matchMarketOrder_rows fuel t st hinv hfresh hcoh hrowsE ht0 htq hrow
      · exact matchLimitOrder_rows fuel t st hinv hfresh hcoh hrowsE ht0 htq hrow
  | processCancellation i =>
      simp only [processOrderJob]
      cases hc : handleCancelJob st i with
      | none => exact ⟨hcoh, hrows⟩
      | some s2 => exact handleCancelJob_rows st i s2 hinv hcoh hrows hc

/-- A whole serialized queue run leaves every ledger row coherent and
row-correct. -/
theorem runJobs_rows (fuel : Nat) (jobs : List Job) (st : EngineState)
    (hinv : Inv st) (hcoh : cohOK st) (hrows : rowsOK st)
    (hjobs : jobsOK5 fuel st jobs) :
    cohOK (runJobs fuel jobs st) ∧ rowsOK (runJobs fuel jobs st) := by
  induction jobs generalizing st with
  | nil => exact ⟨hcoh, hrows⟩
  | cons j rest ih =>
      obtain ⟨hj, hrest⟩ := hjobs
      obtain ⟨hc2, hr2⟩ := processOrderJob_rows fuel st j hinv hcoh hrows hj
      exact ih (processOrderJob fuel st j)
        (processOrderJob_inv fuel st j hinv (jobOK5_to_jobOK st j hj)) hc2 hr2
        hrest

/-- No job writes the ledger row of an order that is neither the job's taker
nor resting in the book; its book absence is preserved too. -/
theorem processOrderJob_frame (fuel : Nat) (st : EngineState) (j : Job)
    (id : OrderId) (r : LedgerRow)
    (hr : getOrderById st.ledger id = some r)
    (hterm : terminalRow r)
    (hres : alookup st.book.orders id = none)
    (hjob : jobOK5 st j) :
    getOrderById (processOrderJob fuel st j).ledger id = some r ∧
    alookup (processOrderJob fuel st j).book.orders id = none := by
  cases j with
  | processOrder t =>
      obtain ⟨hfresh, ht0, htq, ⟨r0, hr0, hopen, _, _⟩, _⟩ := hjob
      have hid : id ≠ t.order_id := by
        intro hh
        rw [hh, hr0] at hr
        have hrr : r0 = r := Option.some.inj hr
        rw [← hrr] at hterm
        rcases hterm with h2 | h2 | h2 <;> rw [hopen] at h2 <;>
          exact OrderStatus.noConfusion h2
      have hlid : (processMatchingLoop fuel t st).1.order_id = t.order_id := by
        rw [(loop_taker fuel t st).1]
      have hlf := loop_frame fuel t st id hid hres
      have hlu := loop_unmapped fuel t st id hres
      have hother : ∀ (S : OrderStatus) (fq : ℚ),
          getOrderById (updateOrderStatus
            (processMatchingLoop fuel t st).2.1.ledger
            (processMatchingLoop fuel t st).1.order_id S fq) id =
          getOrderById (processMatchingLoop fuel t st).2.1.ledger id := by
        intro S fq
        rw [getOrderById_updateOrderStatus, if_neg (by rw [hlid]; exact hid)]
      simp only [processOrderJob]
      split
      · constructor
        · simp only [matchMarketOrder]
          split
          · rw [hother, hlf]
            exact hr
          · rw [hother, hlf]
            exact hr
        · simp only [matchMarketOrder]
          exact hlu
      · constructor
        · simp only [matchLimitOrder]
          split
          · dsimp only
            rw [addOrderToBook_ledger]
            split
            · rw [hother, hlf]
              exact hr
            · rw [hother, hlf]
              exact hr
          · rw [hother, hlf]
            exact hr
        · simp only [matchLimitOrder]
          split
          · dsimp only
            rw [addOrderToBook_orders]
            dsimp only
            rw [alookup_hsetA_ne _ _ _ _ (by rw [hlid]; exact hid)]
            exact hlu
          · exact hlu
  | processCancellation i =>
      simp only [processOrderJob]
      rcases handleCancelJob_cases st i with ⟨ha, hE⟩ | ⟨od, ha, hg, hE⟩ |
        ⟨od, pg, ha, hE2, hE⟩
      · rw [hE]
        exact ⟨hr, hres⟩
      · rw [hE]
        exact ⟨hr, hres⟩
      · rw [hE]
        have hin : i ≠ id := by
          intro hh
          rw [hh, hres] at ha
          cases ha
        constructor
        · show getOrderById (updateOrderStatus st.ledger i
            OrderStatus.cancelled od.total_filled_quantity) id = some r
          rw [getOrderById_updateOrderStatus,
            if_neg (fun hh => hin hh.symm)]
          exact hr
        · show alookup (cancelState st i od pg).book.orders id = none
          rw [cancelState_orders,
            alookup_hdelA_ne _ _ _ (fun hh => hin hh.symm)]
          exact hres

/-- Terminal ledger rows (filled, cancelled, rejected) are never changed by
any later job: terminal-status monotonicity. -/
theorem runJobs_terminal (fuel : Nat) (jobs : List Job) (st : EngineState)
    (hjobs : jobsOK5 fuel st jobs) (id : OrderId) (r : LedgerRow)
    (hr : getOrderById st.ledger id = some r) (hterm : terminalRow r)
    (hres : alookup st.book.orders id = none) :
    getOrderById (runJobs fuel jobs st).ledger id = some r := by
  induction jobs generalizing st with
  | nil => exact hr
  | cons j rest ih =>
      obtain ⟨hj, hrest⟩ := hjobs
      obtain ⟨h1, h2⟩ := processOrderJob_frame fuel st j id r hr hterm hres hj
      exact ih (processOrderJob fuel st j) hrest h1 h2

/-- C5: after any serialized run of submit and cancel jobs from a coherent
well-formed state, with Intake's guarantees for each submit job, EVERY
ledger order row satisfies: 0 ≤ filled_quantity ≤ quantity; status = filled
implies quantity - filled_quantity ≤ EPSILON (not filled_quantity =
quantity: dust up to EPSILON is stamped filled); an exactly fully filled row
is filled; status = open implies filled_quantity = 0, but not conversely and
status = partially_filled does not imply 0 < filled_quantity (a market taker
on an exhausted book completes partially_filled with fill 0);
status = partially_filled implies filled_quantity < quantity; and terminal
statuses are monotone: a row that is filled, cancelled or rejected is never
changed by any later job. -/
theorem C5_ledger_row_invariants (fuel : Nat) (jobs : List Job)
    (st : EngineState) (hinv : Inv st) (hcoh : cohOK st) (hrows : rowsOK st)
    (hjobs : jobsOK5 fuel st jobs) :
    (∀ id r, getOrderById (runJobs fuel jobs st).ledger id = some r →
      0 ≤ r.filled_quantity ∧ r.filled_quantity ≤ r.quantity ∧
      (r.status = OrderStatus.filled →
        r.quantity - r.filled_quantity ≤ EPSILON) ∧
      (r.status = OrderStatus.open_ → r.filled_quantity = 0) ∧
      (r.status = OrderStatus.partially_filled →
        r.filled_quantity < r.quantity) ∧
      (r.filled_quantity = r.quantity → r.status = OrderStatus.filled)) ∧
    (∀ id r, getOrderById st.ledger id = some r →
      (r.status = OrderStatus.filled ∨ r.status = OrderStatus.cancelled ∨
        r.status = OrderStatus.rejected) →
      getOrderById (runJobs fuel jobs st).ledger id = some r) := by
  constructor
  · exact (runJobs_rows fuel jobs st hinv hcoh hrows hjobs).2
  · intro id r hr hterm
    exact runJobs_terminal fuel jobs st hjobs id r hr hterm
      (terminal_not_resident st hcoh id r hr hterm)

theorem not_mem_zrem_prices (sb : SideBook) (p : ℚ) : p ∉ (zrem sb p).prices := by
  simp [zrem, List.mem_filter]

theorem prices_hincrDepth (sb : SideBook) (p d : ℚ) :
    (hincrDepth sb p d).prices = sb.prices := rfl

theorem prices_setLevel (sb : SideBook) (p : ℚ) (l : List OrderId) :
    (setLevel sb p l).prices = sb.prices := rfl

/-- C8: a cancel job for an order still in the book removes exactly the first
occurrence of the order id from the price-level sequence named by the
ledger's side and price, deletes its order-map entry, removes the price from
the side's index exactly when the level becomes empty, and rewrites the
ledger row to cancelled with the accumulated filled quantity unchanged; a
cancel for an id absent from the order map succeeds as a no-op. -/
theorem C8_cancel_path (st : EngineState) (orderId : OrderId) :
    (alookup st.book.orders orderId = none →
      handleCancelJob st orderId = some st) ∧
    (∀ e r p, alookup st.book.orders orderId = some e →
      getOrderById st.ledger orderId = some r →
      r.price = some p →
      e.total_filled_quantity = r.filled_quantity →
      ∃ st2, handleCancelJob st orderId = some st2 ∧
        getLevel (st2.book.side (bookSideOf r.side)) p =
          removeFirst (getLevel (st.book.side (bookSideOf r.side)) p) orderId ∧
        alookup st2.book.orders orderId = none ∧
        (removeFirst (getLevel (st.book.side (bookSideOf r.side)) p) orderId = []
          → p ∉ (st2.book.side (bookSideOf r.side)).prices) ∧
        (removeFirst (getLevel (st.book.side (bookSideOf r.side)) p) orderId ≠ []
          → (st2.book.side (bookSideOf r.side)).prices =
              (st.book.side (bookSideOf r.side)).prices) ∧
        getOrderById st2.ledger orderId =
          some { r with status := OrderStatus.cancelled }) := by
  constructor
  · intro h
    simp only [handleCancelJob]
    rw [h]
  · intro e r p he hr hp hagree
    simp only [handleCancelJob]
    rw [he, hr]
    dsimp only
    have hpg : r.price.getD 0 = p := by rw [hp]; rfl
    rw [hpg]
    refine ⟨_, rfl, ?_, ?_, ?_, ?_, ?_⟩
    · -- the level after the removal, whether or not the price was cleaned up
      dsimp only
      split
      · rw [side_setSide_self, getLevel_zrem, side_setSide_self,
          getLevel_hincrDepth, side_orders_update, side_setSide_self,
          getLevel_setLevel_self]
      · rw [side_setSide_self, getLevel_hincrDepth, side_orders_update,
          side_setSide_self, getLevel_setLevel_self]
    · dsimp only
      split
      · rw [orders_setSide, orders_setSide, orders_setSide]
        exact alookup_hdelA_self _ _
      · rw [orders_setSide, orders_setSide]
        exact alookup_hdelA_self _ _
    · intro hempty
      dsimp only
      split
      · rw [side_setSide_self]
        exact not_mem_zrem_prices _ _
      · rename_i hcond
        exfalso
        apply hcond
        rw [side_setSide_self, getLevel_hincrDepth, side_orders_update,
          side_setSide_self, getLevel_setLevel_self, hempty]
        rfl
    · intro hne
      dsimp only
      split
      · rename_i hcond
        exfalso
        rw [side_setSide_self, getLevel_hincrDepth, side_orders_update,
          side_setSide_self, getLevel_setLevel_self, List.length_eq_zero]
          at hcond
        exact hne hcond
      · rw [side_setSide_self, prices_hincrDepth, side_orders_update,
          side_setSide_self, prices_setLevel]
    · dsimp only
      rw [getOrderById_updateOrderStatus, if_pos rfl, hr]
      dsimp only [Option.map_some']
      rw [hagree]

/-! Counterexamples and witnesses on the concrete fixtures.  The core Rat
arithmetic operations are irreducible by default; they are made reducible
here so that the kernel can evaluate the engine on the fixtures. -/

section

set_option allowUnsafeReducibility true

attribute [local semireducible] Rat.sub Rat.add Rat.mul Rat.inv Rat.div Rat.neg

/-- C1 (counterexample): on a concrete book with one resting ask and a
crossing buy taker, the trade step's trace contains a create_trade, yet a
maker-book mutation (the pop of the maker from its price level) precedes it:
the claimed ordering (ledger create_trade before every maker book mutation)
is false on this input. -/
theorem C1_counterexample :
    (matchIter taker1ex st1ex).trace.any isCreateTradeEff = true ∧
    noMutationBeforeTrade (matchIter taker1ex st1ex).trace = false := by
  constructor
  · decide
  · decide

/-- C10 (witness): the concrete market buy against an empty book: the cancel
job is a no-op and the ledger row stays partially_filled with zero fill. -/
theorem C10_witness :
    handleCancelJob (matchMarketOrder 3 taker2ex st2ex) 2 =
      some (matchMarketOrder 3 taker2ex st2ex) ∧
    getOrderById (matchMarketOrder 3 taker2ex st2ex).ledger 2 =
      some { row2m with
              status := OrderStatus.partially_filled
              filled_quantity := 0 } := by
  have h := C10_cancel_noop_market_stuck st2ex taker2ex 3 row2m rfl rfl
    (by decide) rfl rfl
  exact ⟨h.2.2.2.2, h.2.2.1⟩

/-- The trade produced by the concrete crossing of taker1ex with st1ex. -/
def tdEx : Trade :=
  { instrument := "BTC-USD", price := 100, quantity := 1/2,
    buy_order_id := 1, sell_order_id := 7 }

/-- C2 (witness): the concrete crossing taker1ex against st1ex. -/
theorem C2_witness :
    ∃ mk rest e,
      getLevel (st1ex.book.side (opposingSideOf taker1ex.side)) tdEx.price =
        mk :: rest ∧
      bestPriceOf st1ex.book (opposingSideOf taker1ex.side) = some tdEx.price ∧
      (∀ q ∈ (st1ex.book.side (opposingSideOf taker1ex.side)).prices,
        (taker1ex.side = Side.buy → tdEx.price ≤ q) ∧
        (taker1ex.side = Side.sell → q ≤ tdEx.price)) ∧
      makerOfTrade taker1ex.side tdEx = mk ∧
      alookup st1ex.book.orders mk = some e ∧
      (Effect.lpushEff (opposingSideOf taker1ex.side) tdEx.price mk ∈
          (matchIter taker1ex st1ex).trace →
        getLevel ((matchIter taker1ex st1ex).st.book.side
          (opposingSideOf taker1ex.side)) tdEx.price = mk :: rest) :=
  C2_price_time_priority taker1ex st1ex tdEx (by decide)

/-- C3 (witness): the concrete crossing, with the guard instantiated at the
produced trade. -/
theorem C3_witness :
    tdEx.price ≤ taker1ex.price.getD 0 ∧
    createFollowsPop taker1ex.side (processMatchingLoop 2 taker1ex st1ex).2.2 =
      true := by
  have h := C3_limit_price_guard 2 taker1ex st1ex rfl
  exact ⟨(h.1 tdEx (by decide)).1 rfl, h.2⟩

def row4 : LedgerRow :=
  { client_id := "t4", instrument := "BTC-USD", side := Side.buy,
    type := OrderType.limit, price := some 100, quantity := 2,
    filled_quantity := 0, status := OrderStatus.open_ }

def taker4ex : TakerOrder :=
  { order_id := 4, client_id := "t4", instrument := "BTC-USD", side := Side.buy,
    type := OrderType.limit, price := some 100, quantity := 2,
    filled_quantity := 0, created_at := 0 }

def st5ex : EngineState :=
  { book := { asks := askSide7, bids := emptySide, orders := [(7, entry7)] },
    ledger := { orders := [(4, row4), (7, row7)], trades := [] } }

/-- C4 (witness): a buy limit for 2 against a resting ask of 1 at 100: the
residual of 1 is appended at the tail of the bids level at 100 and the row
becomes partially_filled with filled quantity 1. -/
theorem C4_witness :
    getLevel ((matchLimitOrder 3 taker4ex st5ex).book.side
        (bookSideOf taker4ex.side)) 100 =
      getLevel ((processMatchingLoop 3 taker4ex st5ex).2.1.book.side
        (bookSideOf taker4ex.side)) 100 ++ [taker4ex.order_id] ∧
    getOrderById (matchLimitOrder 3 taker4ex st5ex).ledger taker4ex.order_id =
      some { row4 with
              status := OrderStatus.partially_filled
              filled_quantity := 1 } := by
  have h := C4_limit_residual 3 taker4ex st5ex 100 rfl rfl
  have h2 := h.1 (by decide)
  refine ⟨h2.1, ?_⟩
  have h3 := h2.2.2 { row4 with
    status := OrderStatus.partially_filled
    filled_quantity := 1 } (by decide)
  rw [h3]
  decide

/-- C5 (counterexample): a market buy against an empty book completes with
status partially_filled and filled_quantity 0, refuting both "status = open
iff filled_quantity = 0" and "partially_filled implies 0 < filled_quantity";
and a limit buy for 0.3 + 1e-9 against a resting ask of 0.3 completes with
status filled while filled_quantity differs from quantity, refuting
"status = filled iff filled_quantity = quantity". -/
theorem C5_counterexample :
    (getOrderById (matchMarketOrder 3 taker2ex st2ex).ledger 2).map
      LedgerRow.status = some OrderStatus.partially_filled ∧
    (getOrderById (matchMarketOrder 3 taker2ex st2ex).ledger 2).map
      LedgerRow.filled_quantity = some 0 ∧
    (getOrderById (matchLimitOrder 5 taker3ex st3ex).ledger 3).map
      LedgerRow.status = some OrderStatus.filled ∧
    (getOrderById (matchLimitOrder 5 taker3ex st3ex).ledger 3).map
      LedgerRow.filled_quantity ≠
      (getOrderById (matchLimitOrder 5 taker3ex st3ex).ledger 3).map
        LedgerRow.quantity := by
  refine ⟨by decide, by decide, by decide, by decide⟩


/-- C6 (counterexample): a submission failing quantity validation has
nevertheless claimed its idempotency key, and a later valid submission with
the same key is rejected as duplicate — refuting the claim that validation
strictly precedes the idempotency claim and that failed validation leaves the
key unclaimed. -/
theorem C6_counterexample :
    (submitOrder subBad 0 sysSt0).1 = SubmitResult.errValidation "quantity" ∧
    alookup (submitOrder subBad 0 sysSt0).2.idem.entries "K" = some 86400 ∧
    (submitOrder subGood 10 (submitOrder subBad 0 sysSt0).2).1 =
      SubmitResult.errDuplicate := by
  refine ⟨by decide, by decide, by decide⟩

/-- C6 (witness): the amended theorem applied to the concrete invalid
submission with key K. -/
theorem C6_witness :
    alookup (submitOrder subBad 0 sysSt0).2.idem.entries "K" =
      some (0 + IDEMPOTENCY_EXPIRY_SECONDS) ∧
    (submitOrder subGood 5 (submitOrder subBad 0 sysSt0).2).1 =
      SubmitResult.errDuplicate := by
  have h := C6_claim_before_validation subBad 0 sysSt0 "K" "quantity" rfl (by decide)
  exact ⟨h.1, h.2 subGood 5 rfl (by decide)⟩

/-- C7 (counterexample): two submissions with the same idempotency key within
the TTL window of which neither is accepted (the first fails validation after
claiming the key, the second is rejected as duplicate) — refuting that
exactly one of any two same-key submissions is accepted. -/
theorem C7_counterexample :
    isAccepted (submitOrder subBad 0 sysSt0).1 = false ∧
    isAccepted (submitOrder subGood 10 (submitOrder subBad 0 sysSt0).2).1 =
      false ∧
    subBad.idempotency_key = subGood.idempotency_key := by
  refine ⟨by decide, by decide, by decide⟩

/-- The order accepted for the concrete valid submission subGood. -/
def acc1ex : TakerOrder :=
  { order_id := 1, client_id := "c1", instrument := "BTC-USD", side := Side.buy,
    type := OrderType.limit, price := some 100, quantity := 1,
    filled_quantity := 0, created_at := 0 }

/-- C7 (witness): the accepted first submission claims the key with its TTL
and the second same-key submission is rejected as duplicate. -/
theorem C7_witness :
    (submitOrder subGood 5 (submitOrder subGood 0 sysSt0).2).1 =
      SubmitResult.errDuplicate ∧
    alookup (submitOrder subGood 0 sysSt0).2.idem.entries "K" =
      some (0 + IDEMPOTENCY_EXPIRY_SECONDS) := by
  have h := C7_idempotency_at_most_one subGood subGood "K" 0 5 sysSt0 acc1ex
    rfl rfl (by decide) (by decide)
  exact ⟨h.1, h.2.1⟩

/-- C8 (witness): cancelling order 7, the only resting order of the 100 ask
level, empties the level, deletes the order-map entry, removes the price
from the ask index, and rewrites the ledger row to cancelled; cancelling an
id absent from the order map is a no-op. -/
theorem C8_witness :
    handleCancelJob st2ex 99 = some st2ex ∧
    ∃ st2, handleCancelJob st4ex 7 = some st2 ∧
      getLevel (st2.book.side (bookSideOf row7.side)) 100 =
        removeFirst (getLevel (st4ex.book.side (bookSideOf row7.side)) 100) 7 ∧
      alookup st2.book.orders 7 = none ∧
      (removeFirst (getLevel (st4ex.book.side (bookSideOf row7.side)) 100) 7 = []
        → (100 : ℚ) ∉ (st2.book.side (bookSideOf row7.side)).prices) ∧
      (removeFirst (getLevel (st4ex.book.side (bookSideOf row7.side)) 100) 7 ≠ []
        → (st2.book.side (bookSideOf row7.side)).prices =
            (st4ex.book.side (bookSideOf row7.side)).prices) ∧
      getOrderById st2.ledger 7 =
        some { row7 with status := OrderStatus.cancelled } :=
  ⟨(C8_cancel_path st2ex 99).1 (by decide),
   (C8_cancel_path st4ex 7).2 entry7 row7 100 (by decide) (by decide)
     (by decide) (by decide)⟩

/-- The empty concrete book satisfies the well-formedness invariant. -/
theorem Inv_st2ex : Inv st2ex := by
  refine ⟨?_, ?_, ?_, ?_, ?_⟩
  · simp [st2ex, emptyBook, emptySide]
  · simp [st2ex, emptyBook, emptySide]
  · intro id
    simp [st2ex, emptyBook, emptySide, occCount, occSide, alookup]
  · intro id e h
    simp [st2ex, emptyBook, alookup] at h
  · intro id e h
    simp [st2ex, emptyBook, alookup] at h

/-- Intake's guarantees hold for the concrete market submit job. -/
theorem jobsOK_st2ex : jobsOK 3 st2ex [Job.processOrder taker2ex] := by
  refine ⟨⟨rfl, ?_⟩, trivial⟩
  intro h
  exact absurd h (by decide)

/-- C9 (witness): the empty book with the concrete market submit job. -/
theorem C9_witness :
    Inv st2ex ∧
    jobsOK 3 st2ex [Job.processOrder taker2ex] ∧
    ((∀ id, (∃ bs p, id ∈ getLevel
        ((runJobs 3 [Job.processOrder taker2ex] st2ex).book.side bs) p) ↔
      (alookup (runJobs 3 [Job.processOrder taker2ex] st2ex).book.orders
        id).isSome = true) ∧
    (∀ id bs p bs' p',
      id ∈ getLevel ((runJobs 3 [Job.processOrder taker2ex] st2ex).book.side bs) p →
      id ∈ getLevel
        ((runJobs 3 [Job.processOrder taker2ex] st2ex).book.side bs') p' →
      bs = bs' ∧ p = p') ∧
    (∀ id e,
      alookup (runJobs 3 [Job.processOrder taker2ex] st2ex).book.orders id =
        some e → 0 < e.quantity ∧ EPSILON < e.quantity)) :=
  ⟨Inv_st2ex, jobsOK_st2ex,
    C9_book_invariant 3 [Job.processOrder taker2ex] st2ex Inv_st2ex jobsOK_st2ex⟩

/-- The empty concrete book is trivially coherent with its ledger. -/
theorem cohOK_st2ex : cohOK st2ex := by
  intro id e h
  simp [st2ex, emptyBook, alookup] at h

/-- The single open zero-fill row of the concrete state is row-correct. -/
theorem rowsOK_st2ex : rowsOK st2ex := by
  intro id r h
  simp only [st2ex, getOrderById] at h
  rw [alookup_cons] at h
  split at h
  · rw [← Option.some.inj h]
    unfold rowOK
    decide
  · exact Option.noConfusion h

/-- Intake's full guarantees hold for the concrete market submit job. -/
theorem jobsOK5_st2ex : jobsOK5 3 st2ex [Job.processOrder taker2ex] := by
  refine ⟨⟨rfl, rfl, by decide, ⟨row2m, by decide, rfl, rfl, by decide⟩, ?_⟩,
    trivial⟩
  intro h
  exact absurd h (by decide)

/-- C5 (witness): the full run of the concrete market submit job from the
coherent one-row state. -/
theorem C5_witness :
    Inv st2ex ∧ cohOK st2ex ∧ rowsOK st2ex ∧
    jobsOK5 3 st2ex [Job.processOrder taker2ex] ∧
    ((∀ id r, getOrderById
        (runJobs 3 [Job.processOrder taker2ex] st2ex).ledger id = some r →
      0 ≤ r.filled_quantity ∧ r.filled_quantity ≤ r.quantity ∧
      (r.status = OrderStatus.filled →
        r.quantity - r.filled_quantity ≤ EPSILON) ∧
      (r.status = OrderStatus.open_ → r.filled_quantity = 0) ∧
      (r.status = OrderStatus.partially_filled →
        r.filled_quantity < r.quantity) ∧
      (r.filled_quantity = r.quantity → r.status = OrderStatus.filled)) ∧
    (∀ id r, getOrderById st2ex.ledger id = some r →
      (r.status = OrderStatus.filled ∨ r.status = OrderStatus.cancelled ∨
        r.status = OrderStatus.rejected) →
      getOrderById (runJobs 3 [Job.processOrder taker2ex] st2ex).ledger id =
        some r)) :=
  ⟨Inv_st2ex, cohOK_st2ex, rowsOK_st2ex, jobsOK5_st2ex,
    C5_ledger_row_invariants 3 [Job.processOrder taker2ex] st2ex Inv_st2ex
      cohOK_st2ex rowsOK_st2ex jobsOK5_st2ex⟩

end

end Engine
